import Mathlib

/-!
# Password store (`pkg/api/store/password/store.go`)

A shallow embedding of the schema-driven secret redaction layer: the field
tree builder `getFields` and its installation by `SetPasswordStore`, the field
walker `buildFieldData`, the secret manager `createOrUpdateSecrets` /
`getSecret` / `deleteSecret`, the reference codec written inline in
`handlePasswordFields` and `assignBack`, and the store facade `Create` /
`Update` / `ByID` / `Delete` / `List` / `Watch`.

Conventions of the embedding.

* A Go `string` is a `String`; the `strings` functions are written over the
  list of characters so that they evaluate by structural recursion.
* `interface{}` payload data is the tagged type `Value`; a
  `map[string]interface{}` is an association list whose order is the order in
  which `range` visits the keys (Go leaves that order unspecified, so a
  statement over all lists is a statement over all visiting orders) and whose
  lookup returns the first entry of a key.
* A slice is an immutable `List` with value semantics: `append(path, key)` is
  `path ++ [key]`. An `append` that writes into spare capacity of a shared
  backing array can overwrite the tail of a path recorded earlier. The walker is
  therefore given a second time, `buildFieldDataShared`, with its paths as
  slices over backing arrays that grow by doubling (1, 2, 4, 8 cells) as in the
  Go runtime. The two walkers record the same field data as long as no recorded
  path has more than six names (`recordedFieldData_eq`), and differ from seven
  names on (`recordedFieldData_deep`). The facade is written over the list
  walker; the statement that ranges over all field trees (C4) is restricted to
  recorded paths of at most six names.
* A Go `(T, error)` result is an `Except Err T`, a lone `error` an
  `Option Err`; a function that can hit a run-time panic returns an `Outcome`.
* The collaborators (namespace client, secret client, delegate store) are
  records of state-passing functions over an arbitrary state type; the schema
  registry is its lookup function.
* `getFields` recurses through the registry; its embedding takes a bound on the
  depth of the recursion and reports when the bound is hit.
-/

set_option autoImplicit false

namespace Password

/-! ## Strings -/

/-- The rune test `unicode.IsSpace`, by code point. -/
def isSpace (c : Char) : Bool :=
  let n := c.toNat
  (9 ≤ n && n ≤ 13) || n == 32 || n == 0x85 || n == 0xA0 || n == 0x1680 ||
  (0x2000 ≤ n && n ≤ 0x200A) || n == 0x2028 || n == 0x2029 || n == 0x202F ||
  n == 0x205F || n == 0x3000

/-- The function `strings.TrimSpace`: leading and trailing white space removed. -/
def TrimSpace (s : String) : String :=
  ⟨((s.data.dropWhile isSpace).reverse.dropWhile isSpace).reverse⟩

/-- The function `strings.ToLower` on ASCII letters. A rune outside ASCII is kept
as it is, where Go maps it through `unicode.ToLower`. -/
def ToLower (s : String) : String :=
  ⟨s.data.map Char.toLower⟩

/-- Worker of `SplitN` on characters: at most `n` pieces, cut at `sep`. -/
def splitNChars (sep : Char) : Nat → List Char → List (List Char)
  | 0, _ => []
  | 1, cs => [cs]
  | _ + 2, [] => [[]]
  | n + 2, c :: cs =>
    if c = sep then [] :: splitNChars sep (n + 1) cs
    else
      match splitNChars sep (n + 2) cs with
      | [] => [[c]]
      | piece :: pieces => (c :: piece) :: pieces

/-- The function `strings.SplitN(s, sep, n)` for a one-character separator and `n > 0`. -/
def SplitN (s : String) (sep : Char) (n : Nat) : List String :=
  (splitNChars sep n s.data).map String.mk

/-- Worker of `Split` on characters: cut at every `sep`. -/
def splitChars (sep : Char) : List Char → List (List Char)
  | [] => [[]]
  | c :: cs =>
    if c = sep then [] :: splitChars sep cs
    else
      match splitChars sep cs with
      | [] => [[c]]
      | piece :: pieces => (c :: piece) :: pieces

/-- The function `strings.Split(s, sep)` for a one-character separator. -/
def Split (s : String) (sep : Char) : List String :=
  (splitChars sep s.data).map String.mk

/-! ## Payload values and the `convert` helpers -/

/-- A decoded `interface{}`: scalar, `map[string]interface{}` or `[]interface{}`. -/
inductive Value where
  | null
  | bool (b : Bool)
  | num (n : Int)
  | str (s : String)
  | obj (m : List (String × Value))
  | arr (xs : List Value)

/-- A `map[string]interface{}`. -/
abbrev Payload := List (String × Value)

/-- Insertion of a rendered map entry by key, keeping the keys ascending. -/
def insertSorted (e : String × String) : List (String × String) → List (String × String)
  | [] => [e]
  | x :: xs => if e.1.data < x.1.data then e :: x :: xs else x :: insertSorted e xs

mutual
/-- The function `fmt.Sprint` of one value: maps print as `map[k:v k:v]` with
ascending keys, slices as `[v v]`. -/
def sprint : Value → String
  | .null => "<nil>"
  | .bool b => if b then "true" else "false"
  | .num n => toString n
  | .str s => s
  | .obj m =>
    "map[" ++ " ".intercalate (((sprintEntries m).foldr insertSorted []).map
      (fun e => e.1 ++ ":" ++ e.2)) ++ "]"
  | .arr xs => "[" ++ " ".intercalate (sprintList xs) ++ "]"
/-- The entries of a map, each value rendered. -/
def sprintEntries : List (String × Value) → List (String × String)
  | [] => []
  | (k, v) :: rest => (k, sprint v) :: sprintEntries rest
/-- The elements of a slice, each rendered. -/
def sprintList : List Value → List String
  | [] => []
  | v :: rest => sprint v :: sprintList rest
end

/-- The function `convert.Singular`: the first element of a slice, nil for an empty one. -/
def Singular : Value → Value
  | .arr [] => .null
  | .arr (x :: _) => x
  | v => v

/-- The function `convert.ToString`: nil and the empty slice give the empty
string, anything else its `fmt.Sprint` with surrounding white space trimmed. -/
def ToString (value : Value) : String :=
  match Singular value with
  | .null => ""
  | single => TrimSpace (sprint single)

/-- The function `convert.ToMapInterface`: the map itself, the nil map otherwise. -/
def ToMapInterface : Value → Payload
  | .obj m => m
  | _ => []

/-- Worker of `ToMapSlice`: all elements, provided each is a map. -/
def allMaps : List Value → Option (List Payload)
  | [] => some []
  | .obj m :: rest => (allMaps rest).map (fun ms => m :: ms)
  | _ :: _ => none

/-- The function `convert.ToMapSlice`; `none` is the nil slice (not a slice,
an empty one, or one with an element that is not a map). -/
def ToMapSlice : Value → Option (List Payload)
  | .arr [] => none
  | .arr (x :: xs) => allMaps (x :: xs)
  | _ => none

/-- The assignment `data[key] = val` on a map. -/
def setKey (data : Payload) (key : String) (val : Value) : Payload :=
  match data with
  | [] => [(key, val)]
  | (k, v) :: rest => if k == key then (k, val) :: rest else (k, v) :: setKey rest key val

/-- The function `values.PutValue(data, val, keys...)`: walk down the nested
maps, creating missing ones, and assign at the last key; give up when an
intermediate value is not a map. -/
def PutValue (data : Payload) (val : Value) : List String → Payload
  | [] => data
  | [key] => setKey data key val
  | key :: k2 :: keys =>
    match data.lookup key with
    | some (.obj newMap) => setKey data key (.obj (PutValue newMap val (k2 :: keys)))
    | some _ => data
    | none => setKey data key (.obj (PutValue [] val (k2 :: keys)))

/-! ## The field walker -/

/-- The variable `separator`, the sentinel that marks a password leaf. -/
def separator : String := ".."

/-- The struct `fieldInfo`. -/
structure fieldInfo where
  paths : List String
  value : String
deriving DecidableEq, Repr

/-- The test `len(split) == 2 && split[0] == "mgmt-secrets"` of `buildFieldData`. -/
def rancherReferenced (val : String) : Bool :=
  let split := Split val ':'
  split.length == 2 && split.head? == some "mgmt-secrets"

mutual
/-- The function `buildFieldData`: the `range data1` loop over the entries that
are still to visit, with the loop-carried `path` and the accumulated
`*fieldData`. The slice `append(path, key1)` is the list `path ++ [key1]`, which
is what Go records as long as every recorded path has at most six names; the
walk over shared backing arrays is `buildFieldDataShared`. -/
def buildFieldData (data1 : List (String × Value)) (data2 : Payload)
    (fieldData : List fieldInfo) (path : List String) : List fieldInfo :=
  match data1 with
  | [] => fieldData
  | (key1, val1) :: rest =>
    match data2.lookup key1 with
    | none => buildFieldData rest data2 fieldData path
    | some val2 =>
      if ToString val1 == separator then
        let val := ToString val2
        if val != "" && rancherReferenced val then
          buildFieldData rest data2 fieldData path
        else
          buildFieldData rest data2 (fieldData ++ [⟨path ++ [key1], val⟩]) (path ++ [key1])
      else
        match ToMapSlice val2 with
        | none =>
          buildFieldData rest data2
            (buildFieldDataIn val1 (ToMapInterface val2) fieldData (path ++ [key1])) path
        | some valArr =>
          buildFieldData rest data2
            (valArr.foldl (fun acc each => buildFieldDataIn val1 each acc (path ++ [key1]))
              fieldData) path
/-- The recursive call `buildFieldData(convert.ToMapInterface(val1), ...)`. -/
def buildFieldDataIn (val1 : Value) (data2 : Payload)
    (fieldData : List fieldInfo) (path : List String) : List fieldInfo :=
  match val1 with
  | .obj m => buildFieldData m data2 fieldData path
  | _ => fieldData
end

/-! ## Errors and results -/

/-- The reason carried by a Kubernetes `*errors.StatusError`. -/
inductive StatusReason where
  | NotFound
  | AlreadyExists
  | Conflict
  | Forbidden
  | Other (reason : String)
deriving DecidableEq, Repr

/-- A non-nil Go `error`: a Kubernetes status error, or the plain error that
`fmt.Errorf` builds. -/
inductive Err where
  | status (reason : StatusReason) (message : String)
  | errorString (message : String)
deriving DecidableEq, Repr

/-- The predicate `errors.IsNotFound` on a non-nil error. -/
def IsNotFound : Err → Bool
  | .status .NotFound _ => true
  | _ => false

/-- The predicate `errors.IsAlreadyExists` on a non-nil error. -/
def IsAlreadyExists : Err → Bool
  | .status .AlreadyExists _ => true
  | _ => false

/-- The `error` half of a `(T, error)` result. -/
def errOf {α : Type} : Except Err α → Option Err
  | .error e => some e
  | .ok _ => none

/-- How a call of the facade ends: a value, a returned error, or a run-time
panic (nil store, index out of range). -/
inductive Outcome (α : Type) where
  | ok (a : α)
  | err (e : Err)
  | panic
deriving Repr

/-- A `(T, error)` result as an outcome. -/
def Outcome.ofExcept {α : Type} : Except Err α → Outcome α
  | .ok a => .ok a
  | .error e => .err e

/-! ## Collaborators -/

/-- The fields of `corev1.Secret` that the store touches (`SecretType` is its `Type`). -/
structure Secret where
  Name : String
  Namespace : String
  Data : List (String × String)
  StringData : List (String × String)
  SecretType : String
deriving DecidableEq, Repr

/-- The methods of `v1.NamespaceInterface` that the store calls; the namespace
object that `Get` and `Create` return is never read. -/
structure NamespaceInterface (σ : Type) where
  Get : String → σ → Except Err Unit × σ
  Create : String → σ → Except Err Unit × σ

/-- The methods of `v1.SecretInterface` that the store calls. -/
structure SecretInterface (σ : Type) where
  GetNamespaced : String → String → σ → Except Err Secret × σ
  Create : Secret → σ → Except Err Secret × σ
  Update : Secret → σ → Except Err Secret × σ
  DeleteNamespaced : String → String → σ → Option Err × σ

/-- The methods of `types.Store` that the facade forwards to; a schema is passed
by its ID, query options as text, and a watch channel as the list of what it
delivers. -/
structure Store (σ : Type) where
  Create : String → Payload → σ → Except Err Payload × σ
  ByID : String → String → σ → Except Err Payload × σ
  Update : String → Payload → String → σ → Except Err Payload × σ
  Delete : String → String → σ → Except Err Payload × σ
  Watch : String → String → σ → Except Err (List Payload) × σ
  List : String → String → σ → Except Err (List Payload) × σ

/-- The struct `PasswordStore` (its `Schemas` map is never read and is left out). -/
structure PasswordStore (σ : Type) where
  Fields : List (String × Payload)
  Stores : List (String × Store σ)
  secretStore : SecretInterface σ
  nsStore : NamespaceInterface σ

/-! ## The secret manager -/

/-- The comparison `reflect.DeepEqual` of two non-nil `map[string]string` held
without repeated keys: same size and same value at every key. -/
def DeepEqual (a b : List (String × String)) : Bool :=
  a.length == b.length && a.all (fun e => b.lookup e.1 == some e.2)

/-- The method `createOrUpdateSecrets`. The error of the namespace `Create` lives
in the scope of its own `if`; the `err` tested afterwards is still the one that
`Get` returned. -/
def createOrUpdateSecrets {σ : Type} (p : PasswordStore σ) (data name ns : String)
    (s : σ) : Option Err × σ :=
  let (got, s) := p.nsStore.Get ns s
  let err := errOf got
  let (ret, s) : Option Err × σ :=
    match err with
    | some e =>
      if IsNotFound e then
        let (created, s) := p.nsStore.Create ns s
        match errOf created with
        | some e2 => if !IsAlreadyExists e2 then (some e2, s) else (none, s)
        | none => (none, s)
      else (none, s)
    | none => (none, s)
  match ret with
  | some e2 => (some e2, s)
  | none =>
    match err with
    | some e => (some e, s)
    | none =>
      let name := ToLower name
      let secret : Secret :=
        { Name := name, Namespace := ns, Data := [], StringData := [(name, data)],
          SecretType := "Opaque" }
      let (got, s) := p.secretStore.GetNamespaced ns name s
      match got with
      | .error e =>
        if IsNotFound e then
          let (created, s) := p.secretStore.Create secret s
          (errOf created, s)
        else (some e, s)
      | .ok existing =>
        if !DeepEqual existing.StringData secret.StringData then
          let (updated, s) :=
            p.secretStore.Update { existing with StringData := secret.StringData } s
          (errOf updated, s)
        else (none, s)

/-- The method `getSecret`; `input[0]` and `input[1]` panic on a shorter slice. -/
def getSecret {σ : Type} (p : PasswordStore σ) (input : List String) (s : σ) :
    Outcome String × σ :=
  match input with
  | i0 :: i1 :: _ =>
    let (got, s) := p.secretStore.GetNamespaced i0 i1 s
    match got with
    | .error e => (.err e, s)
    | .ok secret =>
      (.ok (secret.Data.foldl (fun returned kv => if kv.1 == i1 then kv.2 else returned) ""), s)
  | _ => (.panic, s)

/-- The method `deleteSecret`. -/
def deleteSecret {σ : Type} (p : PasswordStore σ) (name ns : String) (s : σ) :
    Option Err × σ :=
  let (err, s) := p.secretStore.DeleteNamespaced ns name s
  match err with
  | some e => if IsNotFound e then (none, s) else (some e, s)
  | none => (none, s)

/-! ## Redaction and resolution -/

/-- The secret name chosen in `handlePasswordFields`: the payload's `name` if
the key is there, else `id-<last path element>`; `none` when the path is empty
and the index is out of range. -/
def secretName (data : Payload) (id : String) (info : fieldInfo) : Option String :=
  match data.lookup "name" with
  | some v => some (ToString v)
  | none =>
    match info.paths.getLast? with
    | some last => some (id ++ "-" ++ last)
    | none => none

/-- The namespace chosen in `handlePasswordFields` from the payload's `id`. -/
def secretNamespace (data : Payload) : String :=
  let ns :=
    match data.lookup "id" with
    | some val =>
      match Split (ToString val) ':' with
      | [_, part2] => part2
      | [only] => only
      | _ => ""
    | none => ""
  if ns == "" then "mgmt-secrets" else ns

/-- The reference written into the payload, `fmt.Sprintf("%s:%s", namespace,
strings.ToLower(name))`. -/
def reference (ns name : String) : String :=
  ns ++ ":" ++ ToLower name

/-- The method `handlePasswordFields`; the payload is mutated in place, so the
payload as it stands is returned on every exit. -/
def handlePasswordFields {σ : Type} (p : PasswordStore σ) (fieldData : List fieldInfo)
    (data : Payload) (id : String) (s : σ) : Outcome Unit × Payload × σ :=
  match fieldData with
  | [] => (.ok (), data, s)
  | info :: rest =>
    match secretName data id info with
    | none => (.panic, data, s)
    | some name =>
      let ns := secretNamespace data
      match createOrUpdateSecrets p info.value name ns s with
      | (some e, s) => (.err e, data, s)
      | (none, s) =>
        handlePasswordFields p rest (PutValue data (.str (reference ns name)) info.paths) id s

/-- The lookup `convert.ToMapInterface(p.Fields[id])`, the nil map for an unknown id. -/
def fieldsOf {σ : Type} (p : PasswordStore σ) (id : String) : Payload :=
  (p.Fields.lookup id).getD []

/-- The method `replacePasswords`. -/
def replacePasswords {σ : Type} (p : PasswordStore σ) (data : Payload) (id : String)
    (s : σ) : Outcome Unit × Payload × σ :=
  handlePasswordFields p (buildFieldData (fieldsOf p id) data [] []) data id s

/-- The loop of `assignBack` over the collected field data. -/
def assignBackLoop {σ : Type} (p : PasswordStore σ) (fieldData : List fieldInfo)
    (data : Payload) (s : σ) : Outcome Unit × Payload × σ :=
  match fieldData with
  | [] => (.ok (), data, s)
  | info :: rest =>
    if (SplitN info.value ':' 2).length != 2 then assignBackLoop p rest data s
    else
      match getSecret p ["mgmt-secrets", "githubconfig-clientsecret"] s with
      | (.ok value, s) => assignBackLoop p rest (PutValue data (.str value) info.paths) s
      | (.err _, s) =>
        (.err (.errorString ("error getting secret for field " ++ info.value)), data, s)
      | (.panic, s) => (.panic, data, s)

/-- The method `assignBack`. -/
def assignBack {σ : Type} (p : PasswordStore σ) (data : Payload) (id : String)
    (s : σ) : Outcome Unit × Payload × σ :=
  assignBackLoop p (buildFieldData (fieldsOf p id) data [] []) data s

/-! ## The facade -/

/-- The method `PasswordStore.Create`: the error of `replacePasswords` is tested
and dropped by an empty `if` body; a missing store is a nil dereference. -/
def Create {σ : Type} (p : PasswordStore σ) (schemaID : String) (data : Payload)
    (s : σ) : Outcome Payload × σ :=
  match replacePasswords p data schemaID s with
  | (.panic, _, s) => (.panic, s)
  | (_, data, s) =>
    match p.Stores.lookup schemaID with
    | none => (.panic, s)
    | some store =>
      let (r, s) := store.Create schemaID data s
      (Outcome.ofExcept r, s)

/-- The method `PasswordStore.ByID`. -/
def ByID {σ : Type} (p : PasswordStore σ) (schemaID : String) (id : String)
    (s : σ) : Outcome Payload × σ :=
  match p.Stores.lookup schemaID with
  | none => (.panic, s)
  | some store =>
    match store.ByID schemaID id s with
    | (.error e, s) => (.err e, s)
    | (.ok data, s) =>
      match assignBack p data schemaID s with
      | (.ok _, data, s) => (.ok data, s)
      | (.err e, _, s) => (.err e, s)
      | (.panic, _, s) => (.panic, s)

/-- The method `PasswordStore.Update`. -/
def Update {σ : Type} (p : PasswordStore σ) (schemaID : String) (data : Payload)
    (id : String) (s : σ) : Outcome Payload × σ :=
  match replacePasswords p data schemaID s with
  | (.panic, _, s) => (.panic, s)
  | (.err e, _, s) => (.err e, s)
  | (.ok _, data, s) =>
    match p.Stores.lookup schemaID with
    | none => (.panic, s)
    | some store =>
      let (r, s) := store.Update schemaID data id s
      (Outcome.ofExcept r, s)

/-! ## Reading a payload -/

/-- The function `values.GetValue(data, keys...)`: the value at a path through
nested maps. -/
def GetValue (data : Payload) : List String → Option Value
  | [] => none
  | [key] => data.lookup key
  | key :: k2 :: keys =>
    match data.lookup key with
    | some v => GetValue (ToMapInterface v) (k2 :: keys)
    | none => GetValue [] (k2 :: keys)

/-- The error a call returned, if it returned one. -/
def Outcome.error? {α : Type} : Outcome α → Option Err
  | .err e => some e
  | _ => none

/-- The payload a call returned, if it returned one. -/
def Outcome.value? {α : Type} : Outcome α → Option α
  | .ok a => some a
  | _ => none

/-! ## Recording the calls made to the collaborators -/

/-- One call to a collaborator, with its arguments and the error it returned. -/
inductive Event where
  | nsGet (name : String) (err : Option Err)
  | nsCreate (name : String) (err : Option Err)
  | secretGet (ns name : String) (err : Option Err)
  | secretCreate (secret : Secret) (err : Option Err)
  | secretUpdate (secret : Secret) (err : Option Err)
  | secretDelete (ns name : String) (err : Option Err)
  | storeCreate (schemaID : String) (data : Payload) (err : Option Err)
  | storeByID (schemaID id : String) (err : Option Err)
  | storeUpdate (schemaID : String) (data : Payload) (id : String) (err : Option Err)
  | storeDelete (schemaID id : String) (err : Option Err)
  | storeList (schemaID opt : String) (err : Option Err)
  | storeWatch (schemaID opt : String) (err : Option Err)

/-- The call is a write to the secret backend (a create or an update). -/
def Event.isSecretWrite : Event → Bool
  | .secretCreate _ _ => true
  | .secretUpdate _ _ => true
  | _ => false

/-- The call is the delegate store's `Create`. -/
def Event.isStoreCreate : Event → Bool
  | .storeCreate _ _ _ => true
  | _ => false

/-- The call is the delegate store's `Update`. -/
def Event.isStoreUpdate : Event → Bool
  | .storeUpdate _ _ _ _ => true
  | _ => false

/-- The call goes to the namespace or the secret backend. -/
def Event.isBackendCall : Event → Bool
  | .nsGet _ _ => true
  | .nsCreate _ _ => true
  | .secretGet _ _ _ => true
  | .secretCreate _ _ => true
  | .secretUpdate _ _ => true
  | .secretDelete _ _ _ => true
  | _ => false

/-- The error the recorded call returned. -/
def Event.err : Event → Option Err
  | .nsGet _ e => e
  | .nsCreate _ e => e
  | .secretGet _ _ e => e
  | .secretCreate _ e => e
  | .secretUpdate _ e => e
  | .secretDelete _ _ e => e
  | .storeCreate _ _ e => e
  | .storeByID _ _ e => e
  | .storeUpdate _ _ _ e => e
  | .storeDelete _ _ e => e
  | .storeList _ _ e => e
  | .storeWatch _ _ e => e

/-- Run one call on the underlying state and append its event to the log. -/
def record {σ α : Type} (call : σ → α × σ) (event : α → Event) (st : σ × List Event) :
    α × σ × List Event :=
  let (r, s) := call st.1
  (r, s, st.2 ++ [event r])

/-- A namespace client that logs every call. -/
def recordedNamespaces {σ : Type} (n : NamespaceInterface σ) :
    NamespaceInterface (σ × List Event) where
  Get name := record (n.Get name) (fun r => .nsGet name (errOf r))
  Create name := record (n.Create name) (fun r => .nsCreate name (errOf r))

/-- A secret client that logs every call. -/
def recordedSecrets {σ : Type} (c : SecretInterface σ) :
    SecretInterface (σ × List Event) where
  GetNamespaced ns name := record (c.GetNamespaced ns name) (fun r => .secretGet ns name (errOf r))
  Create secret := record (c.Create secret) (fun r => .secretCreate secret (errOf r))
  Update secret := record (c.Update secret) (fun r => .secretUpdate secret (errOf r))
  DeleteNamespaced ns name := record (c.DeleteNamespaced ns name) (fun r => .secretDelete ns name r)

/-- A delegate store that logs every call. -/
def recordedStore {σ : Type} (d : Store σ) : Store (σ × List Event) where
  Create schemaID data := record (d.Create schemaID data) (fun r => .storeCreate schemaID data (errOf r))
  ByID schemaID id := record (d.ByID schemaID id) (fun r => .storeByID schemaID id (errOf r))
  Update schemaID data id :=
    record (d.Update schemaID data id) (fun r => .storeUpdate schemaID data id (errOf r))
  Delete schemaID id := record (d.Delete schemaID id) (fun r => .storeDelete schemaID id (errOf r))
  Watch schemaID opt := record (d.Watch schemaID opt) (fun r => .storeWatch schemaID opt (errOf r))
  List schemaID opt := record (d.List schemaID opt) (fun r => .storeList schemaID opt (errOf r))

/-- The same password store over collaborators that log every call. -/
def recorded {σ : Type} (p : PasswordStore σ) : PasswordStore (σ × List Event) where
  Fields := p.Fields
  Stores := p.Stores.map (fun e => (e.1, recordedStore e.2))
  secretStore := recordedSecrets p.secretStore
  nsStore := recordedNamespaces p.nsStore

/-! ## A backend that stores and returns what was written -/

/-- The state of the in-memory collaborators: the namespaces, the secret
entries and the resources, the latter keyed by schema ID and resource id. -/
structure Mem where
  namespaces : List String
  secrets : List Secret
  resources : List ((String × String) × Payload)

/-- The secret entry at `(ns, name)`. -/
def Mem.secretAt (m : Mem) (ns name : String) : Option Secret :=
  m.secrets.find? (fun x => x.Namespace == ns && x.Name == name)

/-- The keys `(namespace, name)` of the stored secret entries. -/
def Mem.keys (m : Mem) : List (String × String) :=
  m.secrets.map (fun x => (x.Namespace, x.Name))

/-- The number of secret entries at `(ns, name)`. -/
def Mem.secretCount (m : Mem) (ns name : String) : Nat :=
  m.keys.countP (fun k => k.1 == ns && k.2 == name)

/-- The resource at `(schemaID, id)`. -/
def Mem.resourceAt (m : Mem) (schemaID id : String) : Option Payload :=
  m.resources.lookup (schemaID, id)

/-- The in-memory namespace client. -/
def memNamespaces : NamespaceInterface Mem where
  Get name m :=
    if name ∈ m.namespaces then (.ok (), m) else (.error (.status .NotFound name), m)
  Create name m :=
    if name ∈ m.namespaces then (.error (.status .AlreadyExists name), m)
    else (.ok (), { m with namespaces := m.namespaces ++ [name] })

/-- The in-memory secret client: an entry is returned exactly as it was stored. -/
def memSecrets : SecretInterface Mem where
  GetNamespaced ns name m :=
    match m.secretAt ns name with
    | some x => (.ok x, m)
    | none => (.error (.status .NotFound name), m)
  Create secret m :=
    match m.secretAt secret.Namespace secret.Name with
    | some _ => (.error (.status .AlreadyExists secret.Name), m)
    | none => (.ok secret, { m with secrets := m.secrets ++ [secret] })
  Update secret m :=
    match m.secretAt secret.Namespace secret.Name with
    | none => (.error (.status .NotFound secret.Name), m)
    | some _ =>
      (.ok secret, { m with secrets := m.secrets.map (fun x =>
        if x.Namespace == secret.Namespace && x.Name == secret.Name then secret else x) })
  DeleteNamespaced ns name m :=
    match m.secretAt ns name with
    | none => (some (.status .NotFound name), m)
    | some _ =>
      (none, { m with secrets := m.secrets.filter (fun x => !(x.Namespace == ns && x.Name == name)) })

/-- The in-memory delegate store: `Create` files the payload under its `id`
attribute and returns it, `ByID` returns what is filed. -/
def memDelegate : Store Mem where
  Create schemaID data m :=
    let id := ToString ((data.lookup "id").getD .null)
    (.ok data, { m with resources := ((schemaID, id), data) ::
      m.resources.filter (fun e => !(e.1 == (schemaID, id))) })
  ByID schemaID id m :=
    match m.resourceAt schemaID id with
    | some data => (.ok data, m)
    | none => (.error (.status .NotFound id), m)
  Update schemaID data id m :=
    match m.resourceAt schemaID id with
    | none => (.error (.status .NotFound id), m)
    | some _ =>
      (.ok data, { m with resources := ((schemaID, id), data) ::
        m.resources.filter (fun e => !(e.1 == (schemaID, id))) })
  Delete schemaID id m :=
    match m.resourceAt schemaID id with
    | none => (.error (.status .NotFound id), m)
    | some data =>
      (.ok data, { m with resources := m.resources.filter (fun e => !(e.1 == (schemaID, id))) })
  Watch schemaID _ m :=
    (.ok ((m.resources.filter (fun e => e.1.1 == schemaID)).map (fun e => e.2)), m)
  List schemaID _ m :=
    (.ok ((m.resources.filter (fun e => e.1.1 == schemaID)).map (fun e => e.2)), m)

/-- The password store over the in-memory collaborators, serving the resource
types listed in `fields`. -/
def memPasswordStore (fields : List (String × Payload)) : PasswordStore Mem where
  Fields := fields
  Stores := fields.map (fun e => (e.1, memDelegate))
  secretStore := memSecrets
  nsStore := memNamespaces

/-! ## The scenarios of the specification -/

/-- The field tree of scenario 1, `{clientSecret: password}`. -/
def clientSecretTree : Payload := [("clientSecret", .str separator)]

/-- The payload of scenario 1. -/
def gh1 : Payload :=
  [("name", .str "gh1"), ("id", .str "proj1:gh1"), ("clientSecret", .str "s3cr3t")]

/-- The store of scenario 1: one resource type with the tree of scenario 1. -/
def scenarioStore : PasswordStore Mem :=
  memPasswordStore [("githubConfig", clientSecretTree)]

/-- A backend in which the namespaces `proj1` and `gh1` exist and nothing is stored. -/
def scenarioMem : Mem :=
  { namespaces := ["proj1", "gh1"], secrets := [], resources := [] }

/-- A namespace client whose every call is refused. -/
def forbiddenNamespaces : NamespaceInterface Mem where
  Get name m := (.error (.status .Forbidden name), m)
  Create name m := (.error (.status .Forbidden name), m)

/-- The store of scenario 1 over a namespace backend that refuses every call. -/
def forbiddenStore : PasswordStore Mem :=
  { scenarioStore with nsStore := forbiddenNamespaces }

/-- A backend in which nothing exists yet. -/
def emptyMem : Mem :=
  { namespaces := [], secrets := [], resources := [] }

/-- The field tree of scenario 4, `{users: {password: password}}`. -/
def usersTree : Payload := [("users", .obj [("password", .str separator)])]

/-- A field tree with two password fields in one object, visited `a` then `b`. -/
def siblingsTree : Payload := [("a", .str separator), ("b", .str separator)]

/-- A payload for `siblingsTree`. -/
def siblingsPayload : Payload := [("a", .str "x"), ("b", .str "y")]

/-- The field tree of scenario 3, `{auth: {password: password}}`. -/
def authTree : Payload := [("auth", .obj [("password", .str separator)])]

/-- The payload of scenario 3. -/
def authPayload : Payload := [("auth", .obj [("password", .str "pw")])]

/-- The secret entry that `createOrUpdateSecrets` builds for an already
lower-cased name: one key, the name, holding the plaintext. -/
def secretEntry (ns name data : String) : Secret :=
  { Name := name, Namespace := ns, Data := [], StringData := [(name, data)],
    SecretType := "Opaque" }

/-- A payload of scenario 4: two users with different passwords. -/
def usersPayload : Payload :=
  [("name", .str "team"),
   ("users", .arr [.obj [("password", .str "p1")], .obj [("password", .str "p2")]])]

/-- The store of scenario 4: one resource type with the tree of scenario 4. -/
def usersStore : PasswordStore Mem :=
  memPasswordStore [("team", usersTree)]

/-- A backend in which the reserved namespace exists and nothing is stored. -/
def mgmtMem : Mem :=
  { namespaces := ["mgmt-secrets"], secrets := [], resources := [] }

/-- A secret client whose every call is refused. -/
def forbiddenSecrets : SecretInterface Mem where
  GetNamespaced _ name m := (.error (.status .Forbidden name), m)
  Create secret m := (.error (.status .Forbidden secret.Name), m)
  Update secret m := (.error (.status .Forbidden secret.Name), m)
  DeleteNamespaced _ name m := (some (.status .Forbidden name), m)

/-- The store of scenario 1 over a secret backend that refuses every call. -/
def refusingStore : PasswordStore Mem :=
  { scenarioStore with secretStore := forbiddenSecrets }

/-- The payload of scenario 1 after redaction. -/
def gh1Redacted : Payload :=
  [("name", .str "gh1"), ("id", .str "proj1:gh1"), ("clientSecret", .str "gh1:gh1")]

/-- A backend that holds the redacted resource of scenario 1 and its secret. -/
def redactedMem : Mem :=
  { namespaces := ["proj1", "gh1"],
    secrets := [secretEntry "gh1" "gh1" "s3cr3t"],
    resources := [(("githubConfig", "proj1:gh1"), gh1Redacted)] }

/-- Two paths part ways: at some position that both have, they name different
fields, so neither is a prefix of the other. -/
def diverge : List String → List String → Bool
  | a :: as, b :: bs => if a == b then diverge as bs else true
  | _, _ => false

/-- The field tree of a resource type with two nested password fields,
`{auth: {password: password}, db: {secret: password}}`. -/
def twoFieldsTree : Payload :=
  [("auth", .obj [("password", .str separator)]), ("db", .obj [("secret", .str separator)])]

/-- A payload for `twoFieldsTree`. -/
def twoFieldsPayload : Payload :=
  [("id", .str "c1"), ("auth", .obj [("password", .str "pw")]),
   ("db", .obj [("secret", .str "s3")])]

/-- A backend that holds the namespace `c1` and the resource `c1` of type `conn`. -/
def connMem : Mem :=
  { namespaces := ["c1"], secrets := [], resources := [(("conn", "c1"), twoFieldsPayload)] }

/-- A backend that holds the reserved namespace and the resource `t1` of type `team`. -/
def teamMem : Mem :=
  { namespaces := ["mgmt-secrets"], secrets := [], resources := [(("team", "t1"), usersPayload)] }

/-- The method `PasswordStore.Delete`. -/
def Delete {σ : Type} (p : PasswordStore σ) (schemaID : String) (id : String)
    (s : σ) : Outcome Payload × σ :=
  match p.Stores.lookup schemaID with
  | none => (.panic, s)
  | some store =>
    let (r, s) := store.Delete schemaID id s
    (Outcome.ofExcept r, s)

/-- The method `PasswordStore.List` (kept under the name of the struct, so that
the name of the list type stays free). -/
def PasswordStore.List {σ : Type} (p : PasswordStore σ) (schemaID : String) (opt : String)
    (s : σ) : Outcome (List Payload) × σ :=
  match p.Stores.lookup schemaID with
  | none => (.panic, s)
  | some store =>
    let (r, s) := store.List schemaID opt s
    (Outcome.ofExcept r, s)

/-- The method `PasswordStore.Watch`. -/
def Watch {σ : Type} (p : PasswordStore σ) (schemaID : String) (opt : String)
    (s : σ) : Outcome (List Payload) × σ :=
  match p.Stores.lookup schemaID with
  | none => (.panic, s)
  | some store =>
    let (r, s) := store.Watch schemaID opt s
    (Outcome.ofExcept r, s)

/-! ## Schemas and the field tree builder -/

/-- The two API versions that `SetPasswordStore` looks schemas up in,
`managementschema.Version` and `projectschema.Version`. -/
inductive Version where
  | management
  | project
deriving DecidableEq, Repr

/-- The struct `types.Field`, of which only `Type` is read (`FieldType` is its `Type`). -/
structure Field where
  FieldType : String
deriving DecidableEq, Repr

/-- The `Store` of a schema: nil, a store of its own, or the password store that
`SetPasswordStore` built. -/
inductive SchemaStore (σ : Type) where
  | nil
  | plain (store : Store σ)
  | password

/-- The fields of `types.Schema` that the store touches; `ResourceFields` is a
map and is held in the order in which `range` visits it. -/
structure Schema (σ : Type) where
  ID : String
  Version : Version
  ResourceFields : List (String × Field)
  Store : SchemaStore σ

/-- The registry `*types.Schemas`, by its lookup `schemas.Schema(&version, name)`. -/
abbrev Schemas (σ : Type) := Version → String → Option (Schema σ)

/-- How a run of the field tree builder ends: with a value, in a run-time
panic, or cut off because the recursion went deeper than the fuel allows. -/
inductive Run (α : Type) where
  | done (a : α)
  | panic
  | outOfFuel

/-- The function `strings.HasPrefix`. -/
def HasPrefix (s pre : String) : Bool :=
  pre.data.isPrefixOf s.data

/-- The type that `getFields` looks up for a field: for a type that starts with
`array`, the second piece of the split at `[` without its last character; `none`
when `Split(fieldType, "[")[1]` or the slice `fieldType[:len(fieldType)-1]` is
out of range. -/
def elementType (fieldType : String) : Option String :=
  if HasPrefix fieldType "array" then
    match Split fieldType '[' with
    | _ :: second :: _ =>
      if second.data.isEmpty then none else some ⟨second.data.dropLast⟩
    | _ => none
  else some fieldType

/-- The loop of `getFields` over the fields still to visit, with the map built
so far; `getFieldsOf` is the recursive call. -/
def getFieldsLoop {σ : Type} (schemas : Schemas σ) (getFieldsOf : Schema σ → Run Payload) :
    List (String × Field) → Payload → Run Payload
  | [], data => .done data
  | (name, field) :: rest, data =>
    match elementType field.FieldType with
    | none => .panic
    | some fieldType =>
      match schemas .management fieldType with
      | some checkSchema =>
        match getFieldsOf checkSchema with
        | .done value =>
          if value.length > 0 then
            getFieldsLoop schemas getFieldsOf rest (setKey data name (.obj value))
          else getFieldsLoop schemas getFieldsOf rest data
        | .panic => .panic
        | .outOfFuel => .outOfFuel
      | none =>
        if field.FieldType == "password" then
          getFieldsLoop schemas getFieldsOf rest (setKey data name (.str separator))
        else getFieldsLoop schemas getFieldsOf rest data

/-- The function `getFields`, with a bound on the depth of its recursion. -/
def getFields {σ : Type} (schemas : Schemas σ) : Nat → Schema σ → Run Payload
  | 0, _ => .outOfFuel
  | fuel + 1, schema =>
    getFieldsLoop schemas (getFields schemas fuel) schema.ResourceFields []

/-- The assignment `m[key] = val` on a map with string keys. -/
def assign {β : Type} (m : List (String × β)) (key : String) (val : β) : List (String × β) :=
  match m with
  | [] => [(key, val)]
  | (k, v) :: rest => if k == key then (k, val) :: rest else (k, v) :: assign rest key val

/-- The map `modifyProjectTypes` of `SetPasswordStore`. -/
def modifyProjectTypes : List String := ["githubPipelineConfig", "gitlabPipelineConfig"]

/-- The slice `pwdTypes` of `SetPasswordStore`. -/
def pwdTypes : List String := []

/-- The registry after `schema.Store = pwdStore` for the schema `(version, id)`. -/
def installPasswordStore {σ : Type} (schemas : Schemas σ) (version : Version) (id : String) :
    Schemas σ :=
  fun v name =>
    (schemas v name).map (fun schema =>
      if schema.Version == version && schema.ID == id then { schema with Store := .password }
      else schema)

/-- The loop of `SetPasswordStore` over the store types still to visit. A nil
schema is dereferenced; a schema whose `Store` is nil or already the password
store is registered without a delegate, so that a call through it crashes. -/
def setPasswordStoreLoop {σ : Type} (fuel : Nat) :
    List String → Schemas σ → PasswordStore σ → Run (Schemas σ × PasswordStore σ)
  | [], schemas, pwdStore => .done (schemas, pwdStore)
  | storeType :: rest, schemas, pwdStore =>
    let version : Version :=
      if modifyProjectTypes.contains storeType then .project else .management
    match schemas version storeType with
    | none => .panic
    | some schema =>
      match getFields schemas fuel schema with
      | .done data =>
        let stores :=
          match schema.Store with
          | .plain store => assign pwdStore.Stores schema.ID store
          | _ => pwdStore.Stores.filter (fun e => !(e.1 == schema.ID))
        setPasswordStoreLoop fuel rest (installPasswordStore schemas schema.Version schema.ID)
          { pwdStore with Stores := stores, Fields := assign pwdStore.Fields schema.ID data }
      | .panic => .panic
      | .outOfFuel => .outOfFuel

/-- The function `SetPasswordStore`: the registry as it leaves it and the
password store it built. -/
def SetPasswordStore {σ : Type} (fuel : Nat) (schemas : Schemas σ)
    (secretStore : SecretInterface σ) (nsStore : NamespaceInterface σ) :
    Run (Schemas σ × PasswordStore σ) :=
  setPasswordStoreLoop fuel pwdTypes schemas
    { Fields := [], Stores := [], secretStore := secretStore, nsStore := nsStore }

/-- A payload of scenario 1 whose password field holds a string with an empty
namespace part. -/
def emptyNamespacePayload : Payload :=
  [("name", .str "gh1"), ("id", .str "proj1:gh1"), ("clientSecret", .str ":x")]

/-- A payload whose password field holds a reference into the reserved
namespace with a colon in the name. -/
def colonNamePayload : Payload :=
  [("name", .str "gh1"), ("clientSecret", .str "mgmt-secrets:a:b")]

/-- A backend that holds the reserved namespace, the secret `a:b` in it and the
resource `r1` whose password field refers to that secret. -/
def colonNameMem : Mem :=
  { namespaces := ["mgmt-secrets"],
    secrets := [secretEntry "mgmt-secrets" "a:b" "pw"],
    resources := [(("githubConfig", "r1"), colonNamePayload)] }

/-- The secret name as the specification words it: the string form of the
payload's `name` attribute if the key is there, else the resource type id, a
dash and the last path segment. -/
def specName (data : Payload) (id : String) (paths : List String) : String :=
  match data.lookup "name" with
  | some v => ToString v
  | none => id ++ "-" ++ paths.getLastD ""

/-- The namespace as the specification words it, with the empty second part
sent to the default: for an `id` with exactly one colon, what follows the colon
if that is not empty; for a non-empty `id` without a colon, the `id`; the
reserved default in every other case. -/
def specNamespace (data : Payload) : String :=
  match data.lookup "id" with
  | none => "mgmt-secrets"
  | some v =>
    let s := (ToString v).data
    if s.count ':' = 1 then
      if (s.dropWhile (fun c => c != ':')).drop 1 = [] then "mgmt-secrets"
      else ⟨(s.dropWhile (fun c => c != ':')).drop 1⟩
    else if s.count ':' = 0 ∧ s ≠ [] then ⟨s⟩
    else "mgmt-secrets"

/-- A payload whose `id` ends in a colon. -/
def trailingColonPayload : Payload :=
  [("id", .str "proj1:"), ("clientSecret", .str "s3cr3t")]

/-! ## Wording of the field tree -/

mutual
/-- The field tree has only password leaves and non-empty subtrees of the same
kind. -/
def prunedTree : List (String × Value) → Bool
  | [] => true
  | (_, v) :: rest => prunedNode v && prunedTree rest
/-- The node is a password leaf or a non-empty pruned subtree. -/
def prunedNode : Value → Bool
  | .str s => s == separator
  | .obj m => !m.isEmpty && prunedTree m
  | _ => false
end

/-- The type `t` unwraps to `T`: a type that does not start with `array` is its
own element type, and the array-of-`T` marker `array[T]` has element type `T`. -/
def unwraps (t T : String) : Prop :=
  (HasPrefix t "array" = false ∧ T = t)
    ∨ (t = "array[" ++ T ++ "]" ∧ '[' ∉ T.data)

/-- The type is a plain type name or an array-of-`T` marker `array[T]`. -/
def wellFormedType (t : String) : Prop :=
  HasPrefix t "array" = false ∨ ∃ T, t = "array[" ++ T ++ "]" ∧ '[' ∉ T.data

/-- The schema is the one given or one that the registry resolves a type to. -/
def known {σ : Type} (schemas : Schemas σ) (schema S : Schema σ) : Prop :=
  S = schema ∨ ∃ T, schemas .management T = some S

/-- The entry that one field contributes to the tree of its schema, given the
trees of the schemas in the registry. -/
def fieldEntry {σ : Type} (schemas : Schemas σ) (treeOf : Schema σ → Payload)
    (nf : String × Field) : Option (String × Value) :=
  match elementType nf.2.FieldType with
  | none => none
  | some fieldType =>
    match schemas .management fieldType with
    | some checkSchema =>
      if (treeOf checkSchema).length > 0 then some (nf.1, .obj (treeOf checkSchema)) else none
    | none => if nf.2.FieldType == "password" then some (nf.1, .str separator) else none

/-- A registry in which `password` names a composite type without fields. -/
def passwordTypeSchemas : Schemas Mem := fun v name =>
  if v = .management ∧ name = "password" then
    some { ID := "password", Version := .management, Store := .nil, ResourceFields := [] }
  else none

/-- A schema with one field, of type `password`. -/
def loginSchema : Schema Mem :=
  { ID := "login", Version := .management, Store := .nil,
    ResourceFields := [("secret", ⟨"password"⟩)] }

/-- The schema `githubConfig` of the example registry: a name, a password, a
list of credentials and an owner. -/
def githubConfigSchema : Schema Mem :=
  { ID := "githubConfig", Version := .management, Store := .plain memDelegate,
    ResourceFields := [("name", ⟨"string"⟩), ("clientSecret", ⟨"password"⟩),
      ("credentials", ⟨"array[credential]"⟩), ("owner", ⟨"user"⟩)] }

/-- The schema `credential` of the example registry: a user and a password. -/
def credentialSchema : Schema Mem :=
  { ID := "credential", Version := .management, Store := .nil,
    ResourceFields := [("user", ⟨"string"⟩), ("password", ⟨"password"⟩)] }

/-- The schema `user` of the example registry: a login, no password. -/
def userSchema : Schema Mem :=
  { ID := "user", Version := .management, Store := .nil,
    ResourceFields := [("login", ⟨"string"⟩)] }

/-- A registry for the examples, with the three schemas above. -/
def exampleSchemas : Schemas Mem := fun v name =>
  if v = .management ∧ name = "githubConfig" then some githubConfigSchema
  else if v = .management ∧ name = "credential" then some credentialSchema
  else if v = .management ∧ name = "user" then some userSchema
  else none

/-- A rank for the example registry: `githubConfig` above the types it refers to. -/
def exampleRank (S : Schema Mem) : Nat :=
  if S.ID = "githubConfig" then 1 else 0

/-- The tree that `getFields` returns for a schema when run with fuel just
above the schema's rank (the empty map if that run does not end with a tree). -/
def treeAt {σ : Type} (schemas : Schemas σ) (rank : Schema σ → Nat) (S : Schema σ) : Payload :=
  match getFields schemas (rank S + 1) S with
  | .done tree => tree
  | _ => []

/-- The call returned an error that the redaction code handles and goes on
from: the not-found of a namespace or secret `Get`, which is answered by a
create, and the already-exists of the namespace `Create`. -/
def Event.tolerated : Event → Bool
  | .nsGet _ (some e) => IsNotFound e
  | .nsCreate _ (some e) => IsAlreadyExists e
  | .secretGet _ _ (some e) => IsNotFound e
  | _ => false

/-- The call went to the namespace or the secret backend and returned an error
that the redaction code does not handle. -/
def Event.fatal (ev : Event) : Bool :=
  ev.isBackendCall && ev.err.isSome && !ev.tolerated

/-- A backend that holds the plaintext resource of scenario 1 and no secret. -/
def plainMem : Mem :=
  { namespaces := ["proj1", "gh1"], secrets := [],
    resources := [(("githubConfig", "proj1:gh1"), gh1)] }

/-! ## Paths as slices over shared backing arrays -/

/-- A Go slice of strings: the backing array it points into and its length. -/
structure Slice where
  array : Nat
  len : Nat
deriving DecidableEq, Repr

/-- The backing arrays allocated so far, by address; the capacity of an array
is the number of its cells, and `next` is the address of the next allocation. -/
structure Arrays where
  cells : Nat → List String
  next : Nat

/-- The capacity that the Go runtime (`growslice`) gives to the new array when a
full slice of strings takes one more element: 1 for the nil slice, then twice
the old capacity (the rule for slices of fewer than 256 elements). -/
def growCap (oldCap : Nat) : Nat :=
  if oldCap = 0 then 1 else 2 * oldCap

/-- The strings of a slice. -/
def Slice.read (arrays : Arrays) (s : Slice) : List String :=
  (arrays.cells s.array).take s.len

/-- The built-in `append(s, x)`: with room left the string is written into the
cell behind the slice, in the backing array that other slices may share;
without room the strings move to a new array. -/
def sliceAppend (arrays : Arrays) (s : Slice) (x : String) : Arrays × Slice :=
  let c := arrays.cells s.array
  if s.len < c.length then
    ({ arrays with cells := fun a => if a = s.array then c.set s.len x else arrays.cells a },
      ⟨s.array, s.len + 1⟩)
  else
    ({ cells := fun a =>
          if a = arrays.next then
            c.take s.len ++ x :: List.replicate (growCap c.length - (s.len + 1)) ""
          else arrays.cells a,
       next := arrays.next + 1 },
      ⟨arrays.next, s.len + 1⟩)

/-- No array allocated yet; address 0 is kept for the nil slice. -/
def noArrays : Arrays := { cells := fun _ => [], next := 1 }

/-- The nil slice `var path []string`. -/
def nilSlice : Slice := ⟨0, 0⟩

mutual
/-- The function `buildFieldData` with `path` as a Go slice: `append(path, key1)`
may write into the backing array that paths recorded earlier point into. -/
def buildFieldDataShared (data1 : List (String × Value)) (data2 : Payload)
    (arrays : Arrays) (fieldData : List (Slice × String)) (path : Slice) :
    Arrays × List (Slice × String) :=
  match data1 with
  | [] => (arrays, fieldData)
  | (key1, val1) :: rest =>
    match data2.lookup key1 with
    | none => buildFieldDataShared rest data2 arrays fieldData path
    | some val2 =>
      if ToString val1 == separator then
        let val := ToString val2
        if val != "" && rancherReferenced val then
          buildFieldDataShared rest data2 arrays fieldData path
        else
          buildFieldDataShared rest data2 (sliceAppend arrays path key1).1
            (fieldData ++ [((sliceAppend arrays path key1).2, val)])
            (sliceAppend arrays path key1).2
      else
        match ToMapSlice val2 with
        | none =>
          buildFieldDataShared rest data2
            (buildFieldDataSharedIn val1 (ToMapInterface val2) (sliceAppend arrays path key1).1
              fieldData (sliceAppend arrays path key1).2).1
            (buildFieldDataSharedIn val1 (ToMapInterface val2) (sliceAppend arrays path key1).1
              fieldData (sliceAppend arrays path key1).2).2 path
        | some valArr =>
          buildFieldDataShared rest data2
            (valArr.foldl (fun acc each =>
              buildFieldDataSharedIn val1 each (sliceAppend acc.1 path key1).1 acc.2
                (sliceAppend acc.1 path key1).2) (arrays, fieldData)).1
            (valArr.foldl (fun acc each =>
              buildFieldDataSharedIn val1 each (sliceAppend acc.1 path key1).1 acc.2
                (sliceAppend acc.1 path key1).2) (arrays, fieldData)).2 path
/-- The recursive call `buildFieldData(convert.ToMapInterface(val1), ...)`. -/
def buildFieldDataSharedIn (val1 : Value) (data2 : Payload)
    (arrays : Arrays) (fieldData : List (Slice × String)) (path : Slice) :
    Arrays × List (Slice × String) :=
  match val1 with
  | .obj m => buildFieldDataShared m data2 arrays fieldData path
  | _ => (arrays, fieldData)
end

/-- A recorded slice with the strings its backing array holds. -/
def resolve (arrays : Arrays) (e : Slice × String) : fieldInfo :=
  ⟨e.1.read arrays, e.2⟩

/-- The field data as `replacePasswords` and `assignBack` read it after the
walk: every recorded slice with the strings its backing array holds then. -/
def recordedFieldData (data1 : Payload) (data2 : Payload) : List fieldInfo :=
  let r := buildFieldDataShared data1 data2 noArrays [] nilSlice
  r.2.map (resolve r.1)

/-- A field tree with two password fields seven names deep,
`a.b.c.d.e.C.X` and `a.b.c.d.e.D.Y`. -/
def deepTree : Payload :=
  [("a", .obj [("b", .obj [("c", .obj [("d", .obj [("e", .obj
    [("C", .obj [("X", .str separator)]), ("D", .obj [("Y", .str separator)])])])])])])]

/-- A payload for `deepTree` that holds `C.X` and, under `D`, a field `X`
that is no password field. -/
def deepPayload : Payload :=
  [("a", .obj [("b", .obj [("c", .obj [("d", .obj [("e", .obj
    [("C", .obj [("X", .str "x")]), ("D", .obj [("X", .str "other")])])])])])])]

/-- The lengths a slice can have in an array of `cap` cells that was allocated
by `sliceAppend`: the nil slice in no array, or more than half of a power of two. -/
def Tight (cap len : Nat) : Prop :=
  (cap = 0 ∧ len = 0) ∨ ∃ j, cap = 2 ^ j ∧ cap < 2 * len ∧ len ≤ cap

/-- The slice points into an allocated array and has a length that fits it. -/
def Slice.Ok (arrays : Arrays) (s : Slice) : Prop :=
  s.array < arrays.next ∧ Tight (arrays.cells s.array).length s.len

/-- The arrays `after` are the arrays `before` with more allocations and with
writes only behind the slice `path`, in its own array. -/
def Arrays.keeps (before after : Arrays) (path : Slice) : Prop :=
  before.next ≤ after.next
    ∧ (∀ a, a < before.next → (after.cells a).length = (before.cells a).length)
    ∧ ∀ a i, a < before.next → (a ≠ path.array ∨ i < path.len) →
        (after.cells a)[i]? = (before.cells a)[i]?

/-- The slice `s` was made from `path` by one or more appends that started in
the arrays `before`: it is longer in the same array, or in a later array. -/
def Slice.beyond (s : Slice) (before : Arrays) (path : Slice) : Prop :=
  before.next ≤ s.array ∨ (s.array = path.array ∧ path.len < s.len)

/-- An append to `path` or to a slice made from it does not write into `s`. -/
def Slice.clear (path s : Slice) : Prop :=
  s.array ≠ path.array ∨ s.len ≤ path.len

/-- What a stretch of the walk over shared arrays does, next to the same stretch
`L` of the walk over lists: from the arrays `H`, the field data `fd` and the
path `P` it arrives at `r`, having written only behind `P` and having added
field data made from `P`; and when no recorded path has more than six names and
`fd` was clear of `P`, the added field data read what the walk over lists adds. -/
def Spec (H : Arrays) (fd : List (Slice × String)) (P : Slice)
    (r : Arrays × List (Slice × String)) (L : List fieldInfo → List fieldInfo) : Prop :=
  H.keeps r.1 P ∧ ∃ new, r.2 = fd ++ new ∧ (∀ e ∈ new, e.1.Ok r.1 ∧ e.1.beyond H P) ∧
    ((∀ e ∈ r.2, e.1.len ≤ 6) → (∀ e ∈ fd, P.clear e.1) →
      ∀ fdl, L fdl = fdl ++ new.map (resolve r.1))

/-- When no recorded path has more than six names and `fd` was clear of `P`, all
the field data of `r` is clear of `P`. -/
def Clears (fd : List (Slice × String)) (P : Slice) (r : Arrays × List (Slice × String)) : Prop :=
  (∀ e ∈ r.2, e.1.len ≤ 6) → (∀ e ∈ fd, P.clear e.1) → ∀ e ∈ r.2, P.clear e.1

/-! # Theorems -/

/-! ## Facade: Create and ByID -/

/-- C1, evaluated on scenario 1 over the in-memory backend in which the
namespace exists: `Create` stores the plaintext at `(gh1, gh1)` and persists the
reference `gh1:gh1`, and `ByID` of the created resource then fails, because
`assignBack` reads the fixed entry `(mgmt-secrets, githubconfig-clientsecret)`
instead of the entry the reference names; the plaintext is not returned. -/
theorem create_then_byID_scenario :
    (Create scenarioStore "githubConfig" gh1 scenarioMem).1 =
        .ok [("name", .str "gh1"), ("id", .str "proj1:gh1"), ("clientSecret", .str "gh1:gh1")]
      ∧ ((Create scenarioStore "githubConfig" gh1 scenarioMem).2.secretAt "gh1" "gh1").map
          (fun x => x.StringData) = some [("gh1", "s3cr3t")]
      ∧ (ByID scenarioStore "githubConfig" "proj1:gh1"
          (Create scenarioStore "githubConfig" gh1 scenarioMem).2).1 =
        .err (.errorString "error getting secret for field gh1:gh1") :=
  ⟨rfl, rfl, rfl⟩

/-- C2, as the code behaves: whenever `replacePasswords` returns an error during
`Create`, the error is dropped, the delegate store's `Create` is called with the
payload as the failed redaction left it, and its result is what `Create`
returns. -/
theorem create_ignores_redaction_error {σ : Type} (p : PasswordStore σ) (schemaID : String)
    (data data1 : Payload) (s s1 : σ) (e : Err) (store : Store σ)
    (hstore : p.Stores.lookup schemaID = some store)
    (hfail : replacePasswords p data schemaID s = (.err e, data1, s1)) :
    Create p schemaID data s =
      (Outcome.ofExcept (store.Create schemaID data1 s1).1, (store.Create schemaID data1 s1).2) := by
  simp [Create, hfail, hstore]

/-- Witness of C2 on scenario 1 with a namespace backend that refuses the
`Get`: redaction fails, and `Create` still calls the delegate with the
plaintext payload and reports success. -/
theorem create_ignores_redaction_error_witness :
    replacePasswords (recorded forbiddenStore) gh1 "githubConfig" (scenarioMem, []) =
        (.err (.status .Forbidden "gh1"), gh1, scenarioMem,
          [.nsGet "gh1" (some (.status .Forbidden "gh1"))])
      ∧ Create (recorded forbiddenStore) "githubConfig" gh1 (scenarioMem, []) =
        (.ok gh1,
          { scenarioMem with resources := [(("githubConfig", "proj1:gh1"), gh1)] },
          [.nsGet "gh1" (some (.status .Forbidden "gh1")), .storeCreate "githubConfig" gh1 none]) :=
  ⟨rfl,
   create_ignores_redaction_error (recorded forbiddenStore) "githubConfig" gh1 gh1
     (scenarioMem, []) (scenarioMem, [.nsGet "gh1" (some (.status .Forbidden "gh1"))])
     (.status .Forbidden "gh1") (recordedStore memDelegate) rfl rfl⟩

/-! ## Secret manager -/

/-- C3, as the code behaves: when the namespace `Get` reports not-found and the
namespace `Create` succeeds or reports already-exists, `createOrUpdateSecrets`
returns the not-found error of the `Get` right after the namespace `Create`; the
secret backend is not called. -/
theorem createOrUpdateSecrets_missing_namespace {σ : Type} (p : PasswordStore σ)
    (data name ns : String) (s s1 : σ) (e : Err)
    (hget : p.nsStore.Get ns s = (.error e, s1))
    (hnf : IsNotFound e = true)
    (hcreate : ∀ e2, errOf (p.nsStore.Create ns s1).1 = some e2 → IsAlreadyExists e2 = true) :
    createOrUpdateSecrets p data name ns s = (some e, (p.nsStore.Create ns s1).2) := by
  have herr : errOf (Except.error e : Except Err Unit) = some e := rfl
  unfold createOrUpdateSecrets
  simp only [hget, herr, hnf, if_true]
  cases hc : errOf (p.nsStore.Create ns s1).1 with
  | none => rfl
  | some e2 => simp [hcreate e2 hc]

/-- Witness of C3 on the empty in-memory backend: the namespace is created, the
call returns not-found, and no secret entry is written. -/
theorem createOrUpdateSecrets_missing_namespace_witness :
    createOrUpdateSecrets (recorded scenarioStore) "pw" "n" "ns" (emptyMem, []) =
      (some (.status .NotFound "ns"),
        { emptyMem with namespaces := ["ns"] },
        [.nsGet "ns" (some (.status .NotFound "ns")), .nsCreate "ns" none]) :=
  createOrUpdateSecrets_missing_namespace (recorded scenarioStore) "pw" "n" "ns"
    (emptyMem, []) (emptyMem, [.nsGet "ns" (some (.status .NotFound "ns"))])
    (.status .NotFound "ns") rfl rfl (fun e2 h => by
      have : errOf ((recorded scenarioStore).nsStore.Create "ns"
          (emptyMem, [Event.nsGet "ns" (some (.status .NotFound "ns"))])).1 = none := rfl
      rw [this] at h
      cases h)

/-! ## Field walker -/

/-- C7, evaluated on an object with two password fields: the pair of the
second field carries the path `[a, b]`, the first field's name followed by its
own, and the payload has nothing at that path; the pair of scenario 3 is as
the claim says. -/
theorem buildFieldData_siblings :
    buildFieldData siblingsTree siblingsPayload [] [] = [⟨["a"], "x"⟩, ⟨["a", "b"], "y"⟩]
      ∧ (GetValue siblingsPayload ["a", "b"]).map ToString = none
      ∧ (GetValue siblingsPayload ["b"]).map ToString = some "y"
      ∧ buildFieldData authTree authPayload [] [] = [⟨["auth", "password"], "pw"⟩] := by
  decide

/-! ## Reference codec -/

/-- Cutting at the first separator: a separator-free prefix, the separator and
any rest give back the prefix and the rest. -/
theorem splitNChars_two (sep : Char) (a b : List Char) (ha : sep ∉ a) :
    splitNChars sep 2 (a ++ sep :: b) = [a, b] := by
  induction a with
  | nil => simp [splitNChars]
  | cons c cs ih =>
    have hc : c ≠ sep := fun h => ha (by simp [h])
    have hcs : sep ∉ cs := fun h => ha (by simp [h])
    simp [splitNChars, hc, ih hcs]

/-- Decoding a reference whose namespace has no colon gives the namespace and
the lower-cased name. -/
theorem splitN_reference (ns name : String) (hns : ':' ∉ ns.data) :
    SplitN (reference ns name) ':' 2 = [ns, ToLower name] := by
  have hdata : (reference ns name).data = ns.data ++ ':' :: (ToLower name).data := by
    simp [reference, String.data_append]
  simp [SplitN, hdata, splitNChars_two _ _ _ hns]

/-- C10: for every namespace and name without a colon, splitting the reference
`namespace + ":" + lowercase(name)` on its first colon into at most two parts
yields exactly two parts, the namespace and the lower-cased name. -/
theorem decode_encode (ns name : String) (hns : ':' ∉ ns.data) (_hname : ':' ∉ name.data) :
    SplitN (reference ns name) ':' 2 = [ns, ToLower name]
      ∧ (SplitN (reference ns name) ':' 2).length = 2 := by
  rw [splitN_reference ns name hns]
  exact ⟨rfl, rfl⟩

/-- Witness of C10 at namespace `proj1` and name `GH1-ClientSecret`. -/
theorem decode_encode_witness :
    SplitN (reference "proj1" "GH1-ClientSecret") ':' 2 = ["proj1", "gh1-clientsecret"]
      ∧ (SplitN (reference "proj1" "GH1-ClientSecret") ':' 2).length = 2 :=
  decode_encode "proj1" "GH1-ClientSecret" (by decide) (by decide)

/-! ## Secret manager over the in-memory backend -/

/-- The secret entry that `createOrUpdateSecrets` builds. -/
theorem secretAt_append_self (m : Mem) (x : Secret)
    (hnone : m.secretAt x.Namespace x.Name = none) :
    Mem.secretAt { m with secrets := m.secrets ++ [x] } x.Namespace x.Name = some x := by
  unfold Mem.secretAt at *
  simp [List.find?_append, hnone]

/-- First call on a backend that has the namespace and no entry yet: one
`Create` of the entry, nothing else written. -/
theorem createOrUpdateSecrets_mem_create (fields : List (String × Payload))
    (data name ns : String) (m : Mem) (tr : List Event)
    (hns : ns ∈ m.namespaces) (hnone : m.secretAt ns (ToLower name) = none) :
    createOrUpdateSecrets (recorded (memPasswordStore fields)) data name ns (m, tr) =
      (none,
        { m with secrets := m.secrets ++ [secretEntry ns (ToLower name) data] },
        tr ++ [.nsGet ns none,
          .secretGet ns (ToLower name) (some (.status .NotFound (ToLower name))),
          .secretCreate (secretEntry ns (ToLower name) data) none]) := by
  simp [createOrUpdateSecrets, recorded, recordedNamespaces, recordedSecrets, record,
    memPasswordStore, memNamespaces, memSecrets, hns, hnone, errOf, IsNotFound, secretEntry]

/-- Call on a backend that has the namespace and an entry with the very same
payload: no write, the state is left as it is. -/
theorem createOrUpdateSecrets_mem_same (fields : List (String × Payload))
    (data name ns : String) (m : Mem) (tr : List Event) (x : Secret)
    (hns : ns ∈ m.namespaces) (hsome : m.secretAt ns (ToLower name) = some x)
    (hsame : x.StringData = [(ToLower name, data)]) :
    createOrUpdateSecrets (recorded (memPasswordStore fields)) data name ns (m, tr) =
      (none, m, tr ++ [.nsGet ns none, .secretGet ns (ToLower name) none]) := by
  simp [createOrUpdateSecrets, recorded, recordedNamespaces, recordedSecrets, record,
    memPasswordStore, memNamespaces, memSecrets, hns, hsome, hsame, errOf, DeepEqual]

/-- C9: on the in-memory backend, with the namespace present and no entry at
`(namespace, lowercase(name))`, two calls of `createOrUpdateSecrets` with the
same arguments make exactly one secret write, the `Create` of the first call;
the second call reads the entry, writes nothing, returns no error and leaves
the backend state as the first call left it. -/
theorem createOrUpdateSecrets_twice (fields : List (String × Payload))
    (data name ns : String) (m : Mem)
    (hns : ns ∈ m.namespaces) (hnone : m.secretAt ns (ToLower name) = none) :
    let p := recorded (memPasswordStore fields)
    let secret : Secret := secretEntry ns (ToLower name) data
    let first := createOrUpdateSecrets p data name ns (m, [])
    let second := createOrUpdateSecrets p data name ns first.2
    first.1 = none
      ∧ first.2.2 = [.nsGet ns none,
          .secretGet ns (ToLower name) (some (.status .NotFound (ToLower name))),
          .secretCreate secret none]
      ∧ second.1 = none
      ∧ second.2.1 = first.2.1
      ∧ second.2.2 = first.2.2 ++ [.nsGet ns none, .secretGet ns (ToLower name) none]
      ∧ second.2.2.countP Event.isSecretWrite = 1 := by
  intro p secret first second
  have h1 := createOrUpdateSecrets_mem_create fields data name ns m [] hns hnone
  have hat := secretAt_append_self m secret hnone
  have h2 := createOrUpdateSecrets_mem_same fields data name ns
    { m with secrets := m.secrets ++ [secret] }
    [.nsGet ns none, .secretGet ns (ToLower name) (some (.status .NotFound (ToLower name))),
      .secretCreate secret none] secret hns hat rfl
  have hfirst : first = (none, { m with secrets := m.secrets ++ [secret] },
      [.nsGet ns none, .secretGet ns (ToLower name) (some (.status .NotFound (ToLower name))),
        .secretCreate secret none]) := by
    simpa using h1
  have hsecond : second = (none, { m with secrets := m.secrets ++ [secret] },
      [.nsGet ns none, .secretGet ns (ToLower name) (some (.status .NotFound (ToLower name))),
        .secretCreate secret none] ++ [.nsGet ns none, .secretGet ns (ToLower name) none]) := by
    show createOrUpdateSecrets p data name ns first.2 = _
    rw [hfirst]
    exact h2
  rw [hsecond, hfirst]
  refine ⟨rfl, rfl, rfl, rfl, rfl, ?_⟩
  simp [Event.isSecretWrite]

/-- Witness of C9: the secret of scenario 1 written twice into the backend of
scenario 1. -/
theorem createOrUpdateSecrets_twice_witness :
    let p := recorded (memPasswordStore [("githubConfig", clientSecretTree)])
    let secret : Secret := secretEntry "gh1" (ToLower "gh1") "s3cr3t"
    let first := createOrUpdateSecrets p "s3cr3t" "gh1" "gh1" (scenarioMem, [])
    let second := createOrUpdateSecrets p "s3cr3t" "gh1" "gh1" first.2
    first.1 = none
      ∧ first.2.2 = [.nsGet "gh1" none,
          .secretGet "gh1" (ToLower "gh1") (some (.status .NotFound (ToLower "gh1"))),
          .secretCreate secret none]
      ∧ second.1 = none
      ∧ second.2.1 = first.2.1
      ∧ second.2.2 = first.2.2 ++ [.nsGet "gh1" none, .secretGet "gh1" (ToLower "gh1") none]
      ∧ second.2.2.countP Event.isSecretWrite = 1 :=
  createOrUpdateSecrets_twice [("githubConfig", clientSecretTree)] "s3cr3t" "gh1" "gh1"
    scenarioMem (by decide) rfl

/-! ## Scenario 1 -/

/-- C5 as stated fails on scenario 1, even where both namespaces exist: after
`replacePasswords` there is no entry `{gh1-clientsecret: s3cr3t}` at
`(proj1, gh1-clientsecret)` and `clientSecret` is not `proj1:gh1-clientsecret`. -/
theorem scenario1_not_as_stated :
    ¬ (((replacePasswords scenarioStore gh1 "githubConfig" scenarioMem).2.2.secretAt
            "proj1" "gh1-clientsecret").map (fun x => x.StringData) =
          some [("gh1-clientsecret", "s3cr3t")]
        ∧ (GetValue (replacePasswords scenarioStore gh1 "githubConfig" scenarioMem).2.1
            ["clientSecret"]).map ToString = some "proj1:gh1-clientsecret") := by
  decide

/-- C5, amended: on scenario 1 over a backend in which the namespace `gh1`
exists, `replacePasswords` stores the entry `{gh1: s3cr3t}` at namespace `gh1`
(the part of the id after the colon) and name `gh1` (the payload's `name`), and
overwrites `clientSecret` with the reference `gh1:gh1`. -/
theorem scenario1_redaction :
    replacePasswords scenarioStore gh1 "githubConfig" scenarioMem =
      (.ok (),
        [("name", .str "gh1"), ("id", .str "proj1:gh1"), ("clientSecret", .str "gh1:gh1")],
        { scenarioMem with secrets := [secretEntry "gh1" "gh1" "s3cr3t"] }) :=
  rfl

/-! ## Scenario 4: an array of objects -/

/-- No entry at a key means no stored secret carries that key. -/
theorem secretAt_none_iff (m : Mem) (ns name : String) :
    m.secretAt ns name = none ↔
      ∀ x ∈ m.secrets, (x.Namespace == ns && x.Name == name) = false := by
  unfold Mem.secretAt
  simp [List.find?_eq_none]

/-- Call on a backend that has the namespace and an entry with another
payload: one `Update` that replaces the payload of that entry. -/
theorem createOrUpdateSecrets_mem_update (fields : List (String × Payload))
    (data name ns : String) (m : Mem) (tr : List Event) (x : Secret)
    (hns : ns ∈ m.namespaces) (hsome : m.secretAt ns (ToLower name) = some x)
    (hkey : x.Namespace = ns ∧ x.Name = ToLower name)
    (hdiff : DeepEqual x.StringData [(ToLower name, data)] = false) :
    createOrUpdateSecrets (recorded (memPasswordStore fields)) data name ns (m, tr) =
      (none,
        { m with secrets := m.secrets.map (fun y =>
            if y.Namespace == ns && y.Name == ToLower name
            then { x with StringData := [(ToLower name, data)] } else y) },
        tr ++ [.nsGet ns none, .secretGet ns (ToLower name) none,
          .secretUpdate { x with StringData := [(ToLower name, data)] } none]) := by
  simp [createOrUpdateSecrets, recorded, recordedNamespaces, recordedSecrets, record,
    memPasswordStore, memNamespaces, memSecrets, hns, hsome, hdiff, errOf, hkey.1, hkey.2]

/-- The walker on the tree of scenario 4 and a payload with two users: one pair
per element, both with the collapsed path `[users, password]`. -/
theorem buildFieldData_users (data u1 u2 : Payload) (v1 v2 : Value)
    (husers : data.lookup "users" = some (.arr [.obj u1, .obj u2]))
    (h1 : u1.lookup "password" = some v1) (h2 : u2.lookup "password" = some v2)
    (hr1 : rancherReferenced (ToString v1) = false)
    (hr2 : rancherReferenced (ToString v2) = false) :
    buildFieldData usersTree data [] [] =
      [⟨["users", "password"], ToString v1⟩, ⟨["users", "password"], ToString v2⟩] := by
  have hleaf : (ToString (.str separator) == separator) = true := by decide
  have hnode : (ToString (.obj [("password", .str separator)]) == separator) = false := by
    decide
  simp [usersTree, buildFieldData, buildFieldDataIn, husers, hleaf, hnode, ToMapSlice, allMaps,
    h1, h2, hr1, hr2]

/-- C6, amended: for the tree `{users: {password: Leaf}}` and every payload
whose `users` value is a sequence of two objects with different password
plaintexts (neither of the form `mgmt-secrets:x`), on the in-memory backend
holding the derived namespace and no entry at the derived key,
`replacePasswords` makes two secret writes at the one key
`(namespace, lowercase(name))`: a `Create` with the first element's plaintext,
then an `Update` with the second's. One entry results, holding the second
plaintext, and the payload is left as it was. -/
theorem replacePasswords_users (typeID : String) (data u1 u2 : Payload) (v1 v2 : Value)
    (m : Mem) (name : String)
    (husers : data.lookup "users" = some (.arr [.obj u1, .obj u2]))
    (h1 : u1.lookup "password" = some v1) (h2 : u2.lookup "password" = some v2)
    (hdiff : ToString v1 ≠ ToString v2)
    (hr1 : rancherReferenced (ToString v1) = false)
    (hr2 : rancherReferenced (ToString v2) = false)
    (hname : secretName data typeID ⟨["users", "password"], ToString v1⟩ = some name)
    (hns : secretNamespace data ∈ m.namespaces)
    (hnone : m.secretAt (secretNamespace data) (ToLower name) = none) :
    replacePasswords (recorded (memPasswordStore [(typeID, usersTree)])) data typeID (m, []) =
      (.ok (), data,
        { m with secrets :=
            m.secrets ++ [secretEntry (secretNamespace data) (ToLower name) (ToString v2)] },
        [.nsGet (secretNamespace data) none,
         .secretGet (secretNamespace data) (ToLower name)
            (some (.status .NotFound (ToLower name))),
         .secretCreate (secretEntry (secretNamespace data) (ToLower name) (ToString v1)) none,
         .nsGet (secretNamespace data) none,
         .secretGet (secretNamespace data) (ToLower name) none,
         .secretUpdate (secretEntry (secretNamespace data) (ToLower name) (ToString v2)) none])
      := by
  have hwalk : buildFieldData (fieldsOf (recorded (memPasswordStore [(typeID, usersTree)]))
      typeID) data [] [] =
      [⟨["users", "password"], ToString v1⟩, ⟨["users", "password"], ToString v2⟩] := by
    have : fieldsOf (recorded (memPasswordStore [(typeID, usersTree)])) typeID = usersTree := by
      simp [fieldsOf, recorded, memPasswordStore, List.lookup]
    rw [this]
    exact buildFieldData_users data u1 u2 v1 v2 husers h1 h2 hr1 hr2
  have hname2 : secretName data typeID ⟨["users", "password"], ToString v2⟩ = some name := by
    simpa [secretName] using hname
  have hput : ∀ val : Value, PutValue data val ["users", "password"] = data := by
    intro val
    simp [PutValue, husers]
  have hfirst := createOrUpdateSecrets_mem_create [(typeID, usersTree)] (ToString v1) name
    (secretNamespace data) m [] hns hnone
  have hat := secretAt_append_self m
    (secretEntry (secretNamespace data) (ToLower name) (ToString v1)) hnone
  have hde : DeepEqual
      (secretEntry (secretNamespace data) (ToLower name) (ToString v1)).StringData
      [(ToLower name, ToString v2)] = false := by
    simp [DeepEqual, secretEntry, List.lookup, Ne.symm hdiff]
  have hsecond := createOrUpdateSecrets_mem_update [(typeID, usersTree)] (ToString v2) name
    (secretNamespace data)
    { m with secrets :=
        m.secrets ++ [secretEntry (secretNamespace data) (ToLower name) (ToString v1)] }
    ([] ++ [.nsGet (secretNamespace data) none,
      .secretGet (secretNamespace data) (ToLower name)
        (some (.status .NotFound (ToLower name))),
      .secretCreate (secretEntry (secretNamespace data) (ToLower name) (ToString v1)) none])
    (secretEntry (secretNamespace data) (ToLower name) (ToString v1)) hns hat ⟨rfl, rfl⟩ hde
  have hmap : (m.secrets ++ [secretEntry (secretNamespace data) (ToLower name) (ToString v1)]).map
      (fun y => if y.Namespace == secretNamespace data && y.Name == ToLower name
        then { secretEntry (secretNamespace data) (ToLower name) (ToString v1) with
          StringData := [(ToLower name, ToString v2)] } else y) =
      m.secrets ++ [secretEntry (secretNamespace data) (ToLower name) (ToString v2)] := by
    rw [List.map_append]
    congr 1
    · have hall := (secretAt_none_iff m _ _).1 hnone
      calc List.map _ m.secrets = List.map id m.secrets := by
            apply List.map_congr_left
            intro y hy
            simp [hall y hy]
        _ = m.secrets := List.map_id _
    · simp [secretEntry]
  unfold replacePasswords
  rw [hwalk]
  simp only [handlePasswordFields, hname, hname2, hfirst, hput, hsecond, hmap]
  rfl

/-- Witness of C6 on the payload of scenario 4. -/
theorem replacePasswords_users_witness :
    replacePasswords (recorded (memPasswordStore [("team", usersTree)])) usersPayload "team"
        (mgmtMem, []) =
      (.ok (), usersPayload,
        { mgmtMem with secrets :=
            mgmtMem.secrets ++ [secretEntry (secretNamespace usersPayload) (ToLower "team")
              (ToString (.str "p2"))] },
        [.nsGet (secretNamespace usersPayload) none,
         .secretGet (secretNamespace usersPayload) (ToLower "team")
            (some (.status .NotFound (ToLower "team"))),
         .secretCreate (secretEntry (secretNamespace usersPayload) (ToLower "team")
            (ToString (.str "p1"))) none,
         .nsGet (secretNamespace usersPayload) none,
         .secretGet (secretNamespace usersPayload) (ToLower "team") none,
         .secretUpdate (secretEntry (secretNamespace usersPayload) (ToLower "team")
            (ToString (.str "p2"))) none]) :=
  replacePasswords_users "team" usersPayload [("password", .str "p1")] [("password", .str "p2")]
    (.str "p1") (.str "p2") mgmtMem "team" rfl rfl rfl (by decide) (by decide) (by decide)
    rfl (by decide) rfl

/-- C6 as stated fails on scenario 4: after `replacePasswords` the secret
backend holds no two entries with different keys; it holds a single entry, at
`(mgmt-secrets, team)`, with the second plaintext. -/
theorem scenario4_single_entry :
    (replacePasswords usersStore usersPayload "team" mgmtMem).2.2.secrets =
        [secretEntry "mgmt-secrets" "team" "p2"]
      ∧ ¬ ∃ a b, a ∈ (replacePasswords usersStore usersPayload "team" mgmtMem).2.2.secrets
          ∧ b ∈ (replacePasswords usersStore usersPayload "team" mgmtMem).2.2.secrets
          ∧ (a.Namespace, a.Name) ≠ (b.Namespace, b.Name) := by
  have h : (replacePasswords usersStore usersPayload "team" mgmtMem).2.2.secrets =
      [secretEntry "mgmt-secrets" "team" "p2"] := rfl
  refine ⟨h, ?_⟩
  rw [h]
  rintro ⟨a, b, ha, hb, hne⟩
  simp only [List.mem_singleton] at ha hb
  exact hne (by rw [ha, hb])

/-! ## Errors of the collaborators -/

/-- The namespace `Get` of the logging store. -/
theorem recorded_nsGet {σ : Type} (p : PasswordStore σ) (ns : String) (st : σ × List Event) :
    (recorded p).nsStore.Get ns st =
      ((p.nsStore.Get ns st.1).1, (p.nsStore.Get ns st.1).2,
        st.2 ++ [.nsGet ns (errOf (p.nsStore.Get ns st.1).1)]) := rfl

/-- The namespace `Create` of the logging store. -/
theorem recorded_nsCreate {σ : Type} (p : PasswordStore σ) (ns : String) (st : σ × List Event) :
    (recorded p).nsStore.Create ns st =
      ((p.nsStore.Create ns st.1).1, (p.nsStore.Create ns st.1).2,
        st.2 ++ [.nsCreate ns (errOf (p.nsStore.Create ns st.1).1)]) := rfl

/-- The secret `GetNamespaced` of the logging store. -/
theorem recorded_secretGet {σ : Type} (p : PasswordStore σ) (ns name : String)
    (st : σ × List Event) :
    (recorded p).secretStore.GetNamespaced ns name st =
      ((p.secretStore.GetNamespaced ns name st.1).1, (p.secretStore.GetNamespaced ns name st.1).2,
        st.2 ++ [.secretGet ns name (errOf (p.secretStore.GetNamespaced ns name st.1).1)]) := rfl

/-- The secret `Create` of the logging store. -/
theorem recorded_secretCreate {σ : Type} (p : PasswordStore σ) (x : Secret)
    (st : σ × List Event) :
    (recorded p).secretStore.Create x st =
      ((p.secretStore.Create x st.1).1, (p.secretStore.Create x st.1).2,
        st.2 ++ [.secretCreate x (errOf (p.secretStore.Create x st.1).1)]) := rfl

/-- The secret `Update` of the logging store. -/
theorem recorded_secretUpdate {σ : Type} (p : PasswordStore σ) (x : Secret)
    (st : σ × List Event) :
    (recorded p).secretStore.Update x st =
      ((p.secretStore.Update x st.1).1, (p.secretStore.Update x st.1).2,
        st.2 ++ [.secretUpdate x (errOf (p.secretStore.Update x st.1).1)]) := rfl

/-- The error of a failed result. -/
theorem errOf_error {α : Type} (e : Err) : errOf (Except.error e : Except Err α) = some e := rfl

/-- The error of a successful result. -/
theorem errOf_ok {α : Type} (a : α) : errOf (Except.ok a : Except Err α) = none := rfl

/-- An error returned by `createOrUpdateSecrets` is the error of one of the
backend calls it made. -/
theorem createOrUpdateSecrets_error_logged {σ : Type} (p : PasswordStore σ)
    (data name ns : String) (st st1 : σ × List Event) (e : Err)
    (h : createOrUpdateSecrets (recorded p) data name ns st = (some e, st1)) :
    ∃ ev ∈ st1.2, ev.err = some e := by
  rcases hg : p.nsStore.Get ns st.1 with ⟨rg, sg⟩
  cases rg with
  | error eg =>
    rcases hc : p.nsStore.Create ns sg with ⟨rc, sc⟩
    by_cases hnf : IsNotFound eg = true
    · cases rc with
      | error ec =>
        by_cases hae : IsAlreadyExists ec = true
        · simp [createOrUpdateSecrets, recorded_nsGet, recorded_nsCreate, hg, hc, errOf_error, errOf_ok, hnf,
            hae] at h
          obtain ⟨rfl, rfl⟩ := h
          exact ⟨.nsGet ns (some eg), by simp, rfl⟩
        · simp [createOrUpdateSecrets, recorded_nsGet, recorded_nsCreate, hg, hc, errOf_error, errOf_ok, hnf,
            hae] at h
          obtain ⟨rfl, rfl⟩ := h
          exact ⟨.nsCreate ns (some ec), by simp, rfl⟩
      | ok _ =>
        simp [createOrUpdateSecrets, recorded_nsGet, recorded_nsCreate, hg, hc, errOf_error, errOf_ok, hnf] at h
        obtain ⟨rfl, rfl⟩ := h
        exact ⟨.nsGet ns (some eg), by simp, rfl⟩
    · simp [createOrUpdateSecrets, recorded_nsGet, hg, errOf_error, errOf_ok, hnf] at h
      obtain ⟨rfl, rfl⟩ := h
      exact ⟨.nsGet ns (some eg), by simp, rfl⟩
  | ok _ =>
    rcases hs : p.secretStore.GetNamespaced ns (ToLower name) sg with ⟨rs, ss⟩
    cases rs with
    | error es =>
      by_cases hnf : IsNotFound es = true
      · simp [createOrUpdateSecrets, recorded_nsGet, recorded_secretGet, recorded_secretCreate,
          hg, hs, errOf_error, errOf_ok, hnf] at h
        obtain ⟨h1, rfl⟩ := h
        exact ⟨.secretCreate (secretEntry ns (ToLower name) data)
          (errOf (p.secretStore.Create (secretEntry ns (ToLower name) data) ss).1),
          by simp [secretEntry], h1⟩
      · simp [createOrUpdateSecrets, recorded_nsGet, recorded_secretGet, hg, hs, errOf_error,
          errOf_ok, hnf] at h
        obtain ⟨rfl, rfl⟩ := h
        exact ⟨.secretGet ns (ToLower name) (some es), by simp, rfl⟩
    | ok existing =>
      by_cases hde : DeepEqual existing.StringData [(ToLower name, data)] = true
      · simp [createOrUpdateSecrets, recorded_nsGet, recorded_secretGet, hg, hs, errOf_error,
          errOf_ok, hde] at h
      · simp [createOrUpdateSecrets, recorded_nsGet, recorded_secretGet, recorded_secretUpdate,
          hg, hs, errOf_error, errOf_ok, hde] at h
        obtain ⟨h1, rfl⟩ := h
        exact ⟨.secretUpdate { existing with StringData := [(ToLower name, data)] }
          (errOf (p.secretStore.Update { existing with StringData := [(ToLower name, data)] }
            ss).1), by simp, h1⟩

/-- An error returned by `handlePasswordFields` is the error of one of the
backend calls made. -/
theorem handlePasswordFields_error_logged {σ : Type} (p : PasswordStore σ)
    (fieldData : List fieldInfo) :
    ∀ (data : Payload) (id : String) (st : σ × List Event) (data1 : Payload)
      (st1 : σ × List Event) (e : Err),
      handlePasswordFields (recorded p) fieldData data id st = (.err e, data1, st1) →
      ∃ ev ∈ st1.2, ev.err = some e := by
  induction fieldData with
  | nil =>
    intro data id st data1 st1 e h
    simp [handlePasswordFields] at h
  | cons info rest ih =>
    intro data id st data1 st1 e h
    unfold handlePasswordFields at h
    cases hn : secretName data id info with
    | none => simp [hn] at h
    | some name =>
      rcases hc : createOrUpdateSecrets (recorded p) info.value name (secretNamespace data) st
        with ⟨r, st2⟩
      cases r with
      | some e2 =>
        simp only [hn, hc] at h
        injection h with h1 h2
        injection h1 with h1
        injection h2 with h2 h3
        subst h1 h3
        exact createOrUpdateSecrets_error_logged p _ _ _ _ _ _ hc
      | none =>
        simp only [hn, hc] at h
        exact ih _ _ _ _ _ _ h

/-- The delegate registered for a schema in the logging store. -/
theorem recorded_stores_lookup {σ : Type} (p : PasswordStore σ) (schemaID : String) :
    (recorded p).Stores.lookup schemaID = (p.Stores.lookup schemaID).map recordedStore := by
  unfold recorded
  simp only
  induction p.Stores with
  | nil => rfl
  | cons x xs ih =>
    obtain ⟨k, v⟩ := x
    by_cases hk : schemaID == k
    · simp [List.lookup, hk]
    · simp [List.lookup, hk, ih]

/-- An error returned by the loop of `assignBack` is a new error that names the
field value; the error of the failed secret `Get` is only in the log. -/
theorem assignBackLoop_error {σ : Type} (p : PasswordStore σ) (fieldData : List fieldInfo) :
    ∀ (data : Payload) (st : σ × List Event) (data1 : Payload) (st1 : σ × List Event) (e : Err),
      assignBackLoop (recorded p) fieldData data st = (.err e, data1, st1) →
      ∃ value e0, e = .errorString ("error getting secret for field " ++ value)
        ∧ Event.secretGet "mgmt-secrets" "githubconfig-clientsecret" (some e0) ∈ st1.2 := by
  induction fieldData with
  | nil =>
    intro data st data1 st1 e h
    simp [assignBackLoop] at h
  | cons info rest ih =>
    intro data st data1 st1 e h
    unfold assignBackLoop at h
    by_cases hsplit : ((SplitN info.value ':' 2).length != 2) = true
    · simp only [hsplit, if_true] at h
      exact ih _ _ _ _ _ h
    · simp only [hsplit] at h
      rcases hg : p.secretStore.GetNamespaced "mgmt-secrets" "githubconfig-clientsecret" st.1
        with ⟨r, s2⟩
      cases r with
      | error e0 =>
        simp [getSecret, recorded_secretGet, hg, errOf_error] at h
        obtain ⟨rfl, _, rfl⟩ := h
        exact ⟨info.value, e0, rfl, by simp⟩
      | ok secret =>
        simp [getSecret, recorded_secretGet, hg, errOf_ok] at h
        exact ih _ _ _ _ _ h

/-- A log that had no unhandled backend error and is extended by calls of which
only the last may have one: an unhandled error in the extended log is that of
the last call. -/
theorem fatal_append (pre evs : List Event) (r : Option Err)
    (hpre : ∀ ev ∈ pre, ev.fatal = false)
    (hevs : ∀ ev ∈ evs, ev.fatal = true → r = ev.err ∧ evs.getLast? = some ev) :
    ∀ ev ∈ pre ++ evs, ev.fatal = true → r = ev.err ∧ (pre ++ evs).getLast? = some ev := by
  intro ev hev hf
  rcases List.mem_append.1 hev with h | h
  · rw [hpre ev h] at hf
    exact absurd hf (by decide)
  · obtain ⟨h1, h2⟩ := hevs ev h hf
    refine ⟨h1, ?_⟩
    cases evs with
    | nil => simp at h
    | cons a as =>
      rw [List.getLast?_append_of_ne_nil _ (List.cons_ne_nil a as)]
      exact h2

/-- An unhandled backend error ends `createOrUpdateSecrets` at that call and is
the error returned; a run that returns no error met none. -/
theorem createOrUpdateSecrets_fatal {σ : Type} (p : PasswordStore σ)
    (data name ns : String) (st st1 : σ × List Event) (r : Option Err)
    (h : createOrUpdateSecrets (recorded p) data name ns st = (r, st1))
    (hpre : ∀ ev ∈ st.2, ev.fatal = false) :
    (∀ ev ∈ st1.2, ev.fatal = true → r = ev.err ∧ st1.2.getLast? = some ev)
      ∧ (r = none → ∀ ev ∈ st1.2, ev.fatal = false) := by
  rcases hg : p.nsStore.Get ns st.1 with ⟨rg, sg⟩
  cases rg with
  | error eg =>
    rcases hc : p.nsStore.Create ns sg with ⟨rc, sc⟩
    by_cases hnf : IsNotFound eg = true
    · cases rc with
      | error ec =>
        by_cases hae : IsAlreadyExists ec = true
        · simp [createOrUpdateSecrets, recorded_nsGet, recorded_nsCreate, hg, hc, errOf_error, errOf_ok, hnf,
            hae] at h
          obtain ⟨rfl, rfl⟩ := h
          refine ⟨?_, by simp⟩
          have := fatal_append st.2 [.nsGet ns (some eg), .nsCreate ns (some ec)] (some eg) hpre
            (by simp [Event.fatal, Event.isBackendCall, Event.err, Event.tolerated, hnf, hae])
          simpa using this
        · simp [createOrUpdateSecrets, recorded_nsGet, recorded_nsCreate, hg, hc, errOf_error, errOf_ok, hnf,
            hae] at h
          obtain ⟨rfl, rfl⟩ := h
          refine ⟨?_, by simp⟩
          have := fatal_append st.2 [.nsGet ns (some eg), .nsCreate ns (some ec)] (some ec) hpre
            (by simp [Event.fatal, Event.isBackendCall, Event.err, Event.tolerated, hnf, hae])
          simpa using this
      | ok _ =>
        simp [createOrUpdateSecrets, recorded_nsGet, recorded_nsCreate, hg, hc, errOf_error, errOf_ok, hnf] at h
        obtain ⟨rfl, rfl⟩ := h
        refine ⟨?_, by simp⟩
        have := fatal_append st.2 [.nsGet ns (some eg), .nsCreate ns none] (some eg) hpre
          (by simp [Event.fatal, Event.isBackendCall, Event.err, Event.tolerated, hnf])
        simpa using this
    · simp [createOrUpdateSecrets, recorded_nsGet, hg, errOf_error, errOf_ok, hnf] at h
      obtain ⟨rfl, rfl⟩ := h
      refine ⟨?_, by simp⟩
      have := fatal_append st.2 [.nsGet ns (some eg)] (some eg) hpre
        (by simp [Event.fatal, Event.isBackendCall, Event.err, Event.tolerated, hnf])
      simpa using this
  | ok _ =>
    rcases hs : p.secretStore.GetNamespaced ns (ToLower name) sg with ⟨rs, ss⟩
    cases rs with
    | error es =>
      by_cases hnf : IsNotFound es = true
      · rcases hcr : p.secretStore.Create (secretEntry ns (ToLower name) data) ss with ⟨rc, sc⟩
        simp only [secretEntry] at hcr
        cases rc with
        | error ec =>
          simp [createOrUpdateSecrets, recorded_nsGet, recorded_secretGet, recorded_secretCreate,
            hg, hs, hcr, errOf_error, errOf_ok, hnf] at h
          obtain ⟨rfl, rfl⟩ := h
          refine ⟨?_, by simp⟩
          have := fatal_append st.2 [.nsGet ns none, .secretGet ns (ToLower name) (some es),
            .secretCreate (secretEntry ns (ToLower name) data) (some ec)] (some ec) hpre
            (by simp [Event.fatal, Event.isBackendCall, Event.err, Event.tolerated, hnf])
          simpa [secretEntry] using this
        | ok _ =>
          simp [createOrUpdateSecrets, recorded_nsGet, recorded_secretGet, recorded_secretCreate,
            hg, hs, hcr, errOf_error, errOf_ok, hnf] at h
          obtain ⟨rfl, rfl⟩ := h
          have := fatal_append st.2 [.nsGet ns none, .secretGet ns (ToLower name) (some es),
            .secretCreate (secretEntry ns (ToLower name) data) none] none hpre
            (by simp [Event.fatal, Event.isBackendCall, Event.err, Event.tolerated, hnf])
          refine ⟨by simpa [secretEntry] using this, ?_⟩
          intro _ ev hev
          simp only [List.mem_append, List.mem_cons, List.mem_singleton, List.not_mem_nil,
            or_false] at hev
          rcases hev with hev | rfl | rfl | rfl
          · exact hpre ev hev
          · rfl
          · simp [Event.fatal, Event.isBackendCall, Event.err, Event.tolerated, hnf]
          · rfl
      · simp [createOrUpdateSecrets, recorded_nsGet, recorded_secretGet, hg, hs, errOf_error,
          errOf_ok, hnf] at h
        obtain ⟨rfl, rfl⟩ := h
        refine ⟨?_, by simp⟩
        have := fatal_append st.2 [.nsGet ns none, .secretGet ns (ToLower name) (some es)] (some es)
          hpre (by simp [Event.fatal, Event.isBackendCall, Event.err, Event.tolerated, hnf])
        simpa using this
    | ok existing =>
      by_cases hde : DeepEqual existing.StringData [(ToLower name, data)] = true
      · simp [createOrUpdateSecrets, recorded_nsGet, recorded_secretGet, hg, hs, errOf_error,
          errOf_ok, hde] at h
        obtain ⟨rfl, rfl⟩ := h
        have := fatal_append st.2 [.nsGet ns none, .secretGet ns (ToLower name) none] none hpre
          (by simp [Event.fatal, Event.isBackendCall, Event.err, Event.tolerated])
        refine ⟨by simpa using this, ?_⟩
        intro _ ev hev
        simp only [List.mem_append, List.mem_cons, List.mem_singleton, List.not_mem_nil,
          or_false] at hev
        rcases hev with hev | rfl | rfl
        · exact hpre ev hev
        · rfl
        · rfl
      · rcases hu : p.secretStore.Update { existing with StringData := [(ToLower name, data)] } ss
          with ⟨ru, su⟩
        cases ru with
        | error eu =>
          simp [createOrUpdateSecrets, recorded_nsGet, recorded_secretGet, recorded_secretUpdate,
            hg, hs, hu, errOf_error, errOf_ok, hde] at h
          obtain ⟨rfl, rfl⟩ := h
          refine ⟨?_, by simp⟩
          have := fatal_append st.2 [.nsGet ns none, .secretGet ns (ToLower name) none,
            .secretUpdate { existing with StringData := [(ToLower name, data)] } (some eu)]
            (some eu) hpre
            (by simp [Event.fatal, Event.isBackendCall, Event.err, Event.tolerated])
          simpa using this
        | ok _ =>
          simp [createOrUpdateSecrets, recorded_nsGet, recorded_secretGet, recorded_secretUpdate,
            hg, hs, hu, errOf_error, errOf_ok, hde] at h
          obtain ⟨rfl, rfl⟩ := h
          have := fatal_append st.2 [.nsGet ns none, .secretGet ns (ToLower name) none,
            .secretUpdate { existing with StringData := [(ToLower name, data)] } none]
            none hpre
            (by simp [Event.fatal, Event.isBackendCall, Event.err, Event.tolerated])
          refine ⟨by simpa using this, ?_⟩
          intro _ ev hev
          simp only [List.mem_append, List.mem_cons, List.mem_singleton, List.not_mem_nil,
            or_false] at hev
          rcases hev with hev | rfl | rfl | rfl
          · exact hpre ev hev
          · rfl
          · rfl
          · rfl

/-- An unhandled backend error is an error of a namespace or secret call that is
not tolerated. -/
theorem fatal_iff (ev : Event) :
    ev.fatal = true ↔ ev.isBackendCall = true ∧ (∃ e, ev.err = some e) ∧ ev.tolerated = false := by
  unfold Event.fatal
  cases h : ev.err <;> simp

/-- An unhandled backend error ends `handlePasswordFields` at that call and is
the error returned. -/
theorem handlePasswordFields_fatal {σ : Type} (p : PasswordStore σ)
    (fieldData : List fieldInfo) :
    ∀ (data : Payload) (id : String) (st : σ × List Event) (r : Outcome Unit) (data1 : Payload)
      (st1 : σ × List Event),
      handlePasswordFields (recorded p) fieldData data id st = (r, data1, st1) →
      (∀ ev ∈ st.2, ev.fatal = false) →
      ∀ ev ∈ st1.2, ev.fatal = true →
        ∃ e, ev.err = some e ∧ r = .err e ∧ st1.2.getLast? = some ev := by
  induction fieldData with
  | nil =>
    intro data id st r data1 st1 h hpre ev hev hf
    simp only [handlePasswordFields, Prod.mk.injEq] at h
    obtain ⟨_, _, rfl⟩ := h
    rw [hpre ev hev] at hf
    exact absurd hf (by decide)
  | cons info rest ih =>
    intro data id st r data1 st1 h hpre ev hev hf
    unfold handlePasswordFields at h
    cases hn : secretName data id info with
    | none =>
      simp only [hn, Prod.mk.injEq] at h
      obtain ⟨_, _, rfl⟩ := h
      rw [hpre ev hev] at hf
      exact absurd hf (by decide)
    | some name =>
      rcases hc : createOrUpdateSecrets (recorded p) info.value name (secretNamespace data) st
        with ⟨rc, st2⟩
      obtain ⟨h1, h2⟩ := createOrUpdateSecrets_fatal p _ _ _ _ _ _ hc hpre
      cases rc with
      | some e2 =>
        simp only [hn, hc, Prod.mk.injEq] at h
        obtain ⟨rfl, _, rfl⟩ := h
        obtain ⟨h3, h4⟩ := h1 ev hev hf
        exact ⟨e2, h3.symm, rfl, h4⟩
      | none =>
        simp only [hn, hc] at h
        exact ih _ _ _ _ _ _ h (h2 rfl) ev hev hf

/-- A failed secret `Get` ends the loop of `assignBack` at that call, and the
error returned is a new one. -/
theorem assignBackLoop_failed {σ : Type} (p : PasswordStore σ) (fieldData : List fieldInfo) :
    ∀ (data : Payload) (st : σ × List Event) (r : Outcome Unit) (data1 : Payload)
      (st1 : σ × List Event),
      assignBackLoop (recorded p) fieldData data st = (r, data1, st1) →
      (∀ ev ∈ st.2, ev.err = none) →
      ∀ ev ∈ st1.2, ∀ e0, ev.err = some e0 →
        ev = .secretGet "mgmt-secrets" "githubconfig-clientsecret" (some e0)
          ∧ (∃ value, r = .err (.errorString ("error getting secret for field " ++ value)))
          ∧ st1.2.getLast? = some ev := by
  induction fieldData with
  | nil =>
    intro data st r data1 st1 h hpre ev hev e0 he
    simp only [assignBackLoop, Prod.mk.injEq] at h
    obtain ⟨_, _, rfl⟩ := h
    rw [hpre ev hev] at he
    exact absurd he (by simp)
  | cons info rest ih =>
    intro data st r data1 st1 h hpre ev hev e0 he
    unfold assignBackLoop at h
    by_cases hsplit : ((SplitN info.value ':' 2).length != 2) = true
    · simp only [hsplit, if_true] at h
      exact ih _ _ _ _ _ h hpre ev hev e0 he
    · simp only [hsplit] at h
      rcases hg : p.secretStore.GetNamespaced "mgmt-secrets" "githubconfig-clientsecret" st.1
        with ⟨rg, s2⟩
      cases rg with
      | error eg =>
        simp [getSecret, recorded_secretGet, hg, errOf_error] at h
        obtain ⟨rfl, _, rfl⟩ := h
        simp only [List.mem_append, List.mem_singleton] at hev
        rcases hev with hev | rfl
        · rw [hpre ev hev] at he
          exact absurd he (by simp)
        · simp only [Event.err, Option.some.injEq] at he
          subst he
          exact ⟨rfl, ⟨info.value, rfl⟩, by simp⟩
      | ok secret =>
        simp [getSecret, recorded_secretGet, hg, errOf_ok] at h
        refine ih _ _ _ _ _ h ?_ ev hev e0 he
        intro ev2 hev2
        simp only [List.mem_append, List.mem_singleton] at hev2
        rcases hev2 with hev2 | rfl
        · exact hpre ev2 hev2
        · rfl

/-- C8, amended. While `Update` is served, an error returned by a namespace or
secret backend call, other than the ones the code handles (the not-found of a
`Get`, the already-exists of the namespace `Create`), ends the `Update` at that
call and is itself the error the caller gets; and an error that `Update` returns
is always the error of one of the calls made, never a newly built one. While
`ByID` is served, the delegate's error is returned as it is, but a failed secret
`Get` of `assignBack` ends the call with the new error `error getting secret for
field <value>`, which stands in for the backend's. -/
theorem update_error_verbatim_byID_error_replaced {σ : Type} (p : PasswordStore σ)
    (schemaID : String) (s : σ) :
    (∀ (data : Payload) (id : String) (r : Outcome Payload) (st1 : σ × List Event),
        Update (recorded p) schemaID data id (s, []) = (r, st1) →
        ∀ ev ∈ st1.2, ∀ e, ev.isBackendCall = true → ev.err = some e → ev.tolerated = false →
          r = .err e ∧ st1.2.getLast? = some ev)
      ∧ (∀ (data : Payload) (id : String) (e : Err) (st1 : σ × List Event),
        Update (recorded p) schemaID data id (s, []) = (.err e, st1) →
        ∃ ev ∈ st1.2, ev.err = some e)
      ∧ (∀ (id : String) (r : Outcome Payload) (st1 : σ × List Event),
        ByID (recorded p) schemaID id (s, []) = (r, st1) →
        ∀ ev ∈ st1.2, ∀ e0, ev.err = some e0 →
          ((ev = .storeByID schemaID id (some e0) ∧ r = .err e0)
            ∨ (ev = .secretGet "mgmt-secrets" "githubconfig-clientsecret" (some e0)
                ∧ ∃ value, r = .err (.errorString ("error getting secret for field " ++ value))))
          ∧ st1.2.getLast? = some ev)
      ∧ (∀ (id : String) (e : Err) (st1 : σ × List Event),
        ByID (recorded p) schemaID id (s, []) = (.err e, st1) →
        Event.storeByID schemaID id (some e) ∈ st1.2
          ∨ ∃ value e0, e = .errorString ("error getting secret for field " ++ value)
              ∧ Event.secretGet "mgmt-secrets" "githubconfig-clientsecret" (some e0) ∈ st1.2) := by
  refine ⟨?_, ?_, ?_, ?_⟩
  · intro data id r st1 h ev hev e hb he ht
    have hf : ev.fatal = true := (fatal_iff ev).2 ⟨hb, ⟨e, he⟩, ht⟩
    unfold Update at h
    rcases hr : replacePasswords (recorded p) data schemaID (s, []) with ⟨r2, d1, st2⟩
    have hfatal := handlePasswordFields_fatal p _ _ _ _ _ _ _ hr (by simp)
    cases r2 with
    | ok _ =>
      simp only [hr, recorded_stores_lookup] at h
      cases hl : p.Stores.lookup schemaID with
      | none =>
        simp only [hl, Option.map_none', Prod.mk.injEq] at h
        obtain ⟨_, rfl⟩ := h
        obtain ⟨e2, _, h3, _⟩ := hfatal ev hev hf
        exact absurd h3 (by simp)
      | some store =>
        simp only [hl, Option.map_some'] at h
        simp only [recordedStore, record, Prod.mk.injEq] at h
        obtain ⟨_, rfl⟩ := h
        simp only [List.mem_append, List.mem_singleton] at hev
        rcases hev with hev | rfl
        · obtain ⟨e2, _, h3, _⟩ := hfatal ev hev hf
          exact absurd h3 (by simp)
        · simp [Event.isBackendCall] at hb
    | err e2 =>
      simp only [hr, Prod.mk.injEq] at h
      obtain ⟨rfl, rfl⟩ := h
      obtain ⟨e3, h2, h3, h4⟩ := hfatal ev hev hf
      rw [he] at h2
      injection h2 with h2
      subst h2
      injection h3 with h3
      subst h3
      exact ⟨rfl, h4⟩
    | panic =>
      simp only [hr, Prod.mk.injEq] at h
      obtain ⟨_, rfl⟩ := h
      obtain ⟨e2, _, h3, _⟩ := hfatal ev hev hf
      exact absurd h3 (by simp)
  · intro data id e st1 h
    unfold Update at h
    rcases hr : replacePasswords (recorded p) data schemaID (s, []) with ⟨r, d1, st2⟩
    cases r with
    | ok _ =>
      simp only [hr, recorded_stores_lookup] at h
      cases hl : p.Stores.lookup schemaID with
      | none => simp [hl] at h
      | some store =>
        simp only [hl, Option.map_some'] at h
        rcases hu : store.Update schemaID d1 id st2.1 with ⟨ru, su⟩
        cases ru with
        | error eu =>
          simp [recordedStore, record, hu, Outcome.ofExcept, errOf_error] at h
          obtain ⟨rfl, rfl⟩ := h
          exact ⟨.storeUpdate schemaID d1 id (some eu), by simp, rfl⟩
        | ok out =>
          simp [recordedStore, record, hu, Outcome.ofExcept] at h
    | err e2 =>
      simp only [hr] at h
      injection h with h1 h2
      injection h1 with h1
      subst h1 h2
      exact handlePasswordFields_error_logged p _ _ _ _ _ _ _ hr
    | panic => simp [hr] at h
  · intro id r st1 h ev hev e0 he
    unfold ByID at h
    simp only [recorded_stores_lookup] at h
    cases hl : p.Stores.lookup schemaID with
    | none =>
      simp only [hl, Option.map_none', Prod.mk.injEq] at h
      obtain ⟨_, rfl⟩ := h
      simp at hev
    | some store =>
      simp only [hl, Option.map_some'] at h
      rcases hb : store.ByID schemaID id s with ⟨rb, sb⟩
      cases rb with
      | error eb =>
        simp [recordedStore, record, hb, errOf_error] at h
        obtain ⟨rfl, rfl⟩ := h
        simp only [List.mem_singleton] at hev
        subst hev
        simp only [Event.err, Option.some.injEq] at he
        subst he
        exact ⟨Or.inl ⟨rfl, rfl⟩, rfl⟩
      | ok data =>
        simp only [recordedStore, record, hb, errOf_ok, List.nil_append] at h
        rcases ha : assignBack (recorded p) data schemaID
          (sb, [Event.storeByID schemaID id none]) with ⟨ra, da, sa⟩
        have hfail := assignBackLoop_failed p _ _ _ _ _ _ ha (by simp [Event.err])
        have hsa : st1 = sa := by
          cases ra <;> simp only [ha, Prod.mk.injEq] at h <;> exact h.2.symm
        subst hsa
        obtain ⟨h1, ⟨value, h2⟩, h3⟩ := hfail ev hev e0 he
        subst h2
        simp only [ha, Prod.mk.injEq] at h
        exact ⟨Or.inr ⟨h1, value, h.1.symm⟩, h3⟩
  · intro id e st1 h
    unfold ByID at h
    simp only [recorded_stores_lookup] at h
    cases hl : p.Stores.lookup schemaID with
    | none => simp [hl] at h
    | some store =>
      simp only [hl, Option.map_some'] at h
      rcases hb : store.ByID schemaID id s with ⟨rb, sb⟩
      cases rb with
      | error eb =>
        simp [recordedStore, record, hb, errOf_error] at h
        obtain ⟨rfl, rfl⟩ := h
        exact Or.inl (by simp)
      | ok data =>
        simp only [recordedStore, record, hb, errOf_ok, List.nil_append] at h
        rcases ha : assignBack (recorded p) data schemaID
          (sb, [Event.storeByID schemaID id none]) with ⟨ra, da, sa⟩
        cases ra with
        | ok _ => simp [ha] at h
        | panic => simp [ha] at h
        | err ea =>
          simp only [ha] at h
          injection h with h1 h2
          injection h1 with h1
          subst h1 h2
          exact Or.inr (assignBackLoop_error p _ _ _ _ _ _ ha)

/-- Witness of C8 on scenario 1 over a secret backend that refuses every call:
`Update` ends at the refused secret `Get` and returns the refusal itself, `ByID`
ends at the refused secret `Get` of `assignBack` and returns a new error. -/
theorem update_error_verbatim_byID_error_replaced_witness :
    (Update (recorded refusingStore) "githubConfig" gh1 "proj1:gh1" (redactedMem, []) =
        (.err (.status .Forbidden "gh1"), redactedMem,
          [Event.nsGet "gh1" none,
            Event.secretGet "gh1" "gh1" (some (.status .Forbidden "gh1"))])
      ∧ (Outcome.err (.status .Forbidden "gh1") : Outcome Payload) = .err (.status .Forbidden "gh1")
      ∧ List.getLast? [Event.nsGet "gh1" none,
            Event.secretGet "gh1" "gh1" (some (.status .Forbidden "gh1"))] =
          some (Event.secretGet "gh1" "gh1" (some (.status .Forbidden "gh1"))))
      ∧ (ByID (recorded refusingStore) "githubConfig" "proj1:gh1" (redactedMem, []) =
          (.err (.errorString "error getting secret for field gh1:gh1"), redactedMem,
            [Event.storeByID "githubConfig" "proj1:gh1" none,
              Event.secretGet "mgmt-secrets" "githubconfig-clientsecret"
                (some (.status .Forbidden "githubconfig-clientsecret"))])
        ∧ ((Event.secretGet "mgmt-secrets" "githubconfig-clientsecret"
                (some (.status .Forbidden "githubconfig-clientsecret")) =
              .storeByID "githubConfig" "proj1:gh1"
                (some (.status .Forbidden "githubconfig-clientsecret"))
            ∧ (Outcome.err (.errorString "error getting secret for field gh1:gh1") :
                Outcome Payload) = .err (.status .Forbidden "githubconfig-clientsecret"))
          ∨ (Event.secretGet "mgmt-secrets" "githubconfig-clientsecret"
                (some (.status .Forbidden "githubconfig-clientsecret")) =
              .secretGet "mgmt-secrets" "githubconfig-clientsecret"
                (some (.status .Forbidden "githubconfig-clientsecret"))
            ∧ ∃ value, (Outcome.err (.errorString "error getting secret for field gh1:gh1") :
                Outcome Payload) = .err (.errorString ("error getting secret for field " ++ value))))
        ∧ List.getLast? [Event.storeByID "githubConfig" "proj1:gh1" none,
              Event.secretGet "mgmt-secrets" "githubconfig-clientsecret"
                (some (.status .Forbidden "githubconfig-clientsecret"))] =
            some (Event.secretGet "mgmt-secrets" "githubconfig-clientsecret"
              (some (.status .Forbidden "githubconfig-clientsecret")))) :=
  ⟨⟨rfl, (update_error_verbatim_byID_error_replaced refusingStore "githubConfig" redactedMem).1
      gh1 "proj1:gh1" (.err (.status .Forbidden "gh1"))
      (redactedMem, [Event.nsGet "gh1" none,
        Event.secretGet "gh1" "gh1" (some (.status .Forbidden "gh1"))]) rfl
      (Event.secretGet "gh1" "gh1" (some (.status .Forbidden "gh1"))) (by simp)
      (.status .Forbidden "gh1") rfl rfl rfl⟩,
   ⟨rfl, (update_error_verbatim_byID_error_replaced refusingStore "githubConfig" redactedMem).2.2.1
      "proj1:gh1" (.err (.errorString "error getting secret for field gh1:gh1"))
      (redactedMem, [Event.storeByID "githubConfig" "proj1:gh1" none,
        Event.secretGet "mgmt-secrets" "githubconfig-clientsecret"
          (some (.status .Forbidden "githubconfig-clientsecret"))]) rfl
      (Event.secretGet "mgmt-secrets" "githubconfig-clientsecret"
        (some (.status .Forbidden "githubconfig-clientsecret"))) (by simp)
      (.status .Forbidden "githubconfig-clientsecret") rfl⟩⟩

/-- C8 as stated fails by design in two places. When the secret `Get` made by
`assignBack` returns the error `Forbidden`, `ByID` returns the new error `error
getting secret for field gh1:gh1`, which is not the backend's error. And when the
secret `Get` made while `Update` redacts returns a not-found error, `Update`
creates the entry and succeeds: that error is not returned at all. -/
theorem byID_replaces_backend_error :
    (ByID (recorded refusingStore) "githubConfig" "proj1:gh1" (redactedMem, []) =
        (.err (.errorString "error getting secret for field gh1:gh1"), redactedMem,
          [Event.storeByID "githubConfig" "proj1:gh1" none,
            Event.secretGet "mgmt-secrets" "githubconfig-clientsecret"
              (some (.status .Forbidden "githubconfig-clientsecret"))])
      ∧ Err.errorString "error getting secret for field gh1:gh1" ≠
          .status .Forbidden "githubconfig-clientsecret")
    ∧ Update (recorded scenarioStore) "githubConfig" gh1 "proj1:gh1" (plainMem, []) =
        (.ok gh1Redacted, redactedMem,
          [Event.nsGet "gh1" none,
            Event.secretGet "gh1" "gh1" (some (.status .NotFound "gh1")),
            Event.secretCreate (secretEntry "gh1" "gh1" "s3cr3t") none,
            Event.storeUpdate "githubConfig" gh1Redacted "proj1:gh1" none]) :=
  ⟨⟨rfl, by decide⟩, rfl⟩

/-! ## Writing into and reading from a payload -/

/-- The first entry of a map answers the lookup of its key. -/
theorem lookup_cons_self {β : Type} (k : String) (v : β) (rest : List (String × β)) :
    List.lookup k ((k, v) :: rest) = some v := by
  simp [List.lookup]

/-- An entry with another key is skipped by the lookup. -/
theorem lookup_cons_ne {β : Type} (a k : String) (v : β) (rest : List (String × β))
    (h : a ≠ k) : List.lookup a ((k, v) :: rest) = List.lookup a rest := by
  have hb : (a == k) = false := by simpa using h
  simp [List.lookup, hb]

/-- After `data[key] = val`, the key holds `val`. -/
theorem lookup_setKey_self (data : Payload) (key : String) (val : Value) :
    (setKey data key val).lookup key = some val := by
  induction data with
  | nil => simp [setKey, lookup_cons_self]
  | cons x rest ih =>
    obtain ⟨k, v⟩ := x
    by_cases hk : k = key
    · subst hk
      simp [setKey, lookup_cons_self]
    · have hk2 : key ≠ k := fun h => hk h.symm
      simp [setKey, hk, lookup_cons_ne _ _ _ _ hk2, ih]

/-- After `data[key] = val`, every other key holds what it held. -/
theorem lookup_setKey_ne (data : Payload) (key other : String) (val : Value)
    (h : other ≠ key) : (setKey data key val).lookup other = data.lookup other := by
  induction data with
  | nil => simp [setKey, lookup_cons_ne _ _ _ _ h]
  | cons x rest ih =>
    obtain ⟨k, v⟩ := x
    by_cases hk : k = key
    · subst hk
      simp [setKey, lookup_cons_ne _ _ _ _ h]
    · by_cases ho : other = k
      · subst ho
        simp [setKey, hk, lookup_cons_self]
      · simp [setKey, hk, lookup_cons_ne _ _ _ _ ho, ih]

/-- Nothing can be read from the nil map. -/
theorem GetValue_nil (keys : List String) : GetValue [] keys = none := by
  induction keys with
  | nil => rfl
  | cons k ks ih =>
    cases ks with
    | nil => rfl
    | cons k2 ks2 => simpa [GetValue] using ih

/-- Reading at a path of two or more keys goes through the value at the first key. -/
theorem GetValue_cons_cons (data : Payload) (k k2 : String) (ks : List String) :
    GetValue data (k :: k2 :: ks) =
      GetValue (ToMapInterface ((data.lookup k).getD .null)) (k2 :: ks) := by
  cases h : data.lookup k with
  | none => simp [GetValue, h, ToMapInterface]
  | some v => simp [GetValue, h]

/-- A `PutValue` at one path leaves what is read at a diverging path. -/
theorem GetValue_PutValue_diverge (val : Value) (p : List String) :
    ∀ (data : Payload) (q : List String), diverge p q = true →
      GetValue (PutValue data val p) q = GetValue data q := by
  induction p with
  | nil => intro data q h; simp [diverge] at h
  | cons k ks ih =>
    intro data q h
    cases q with
    | nil => simp [diverge] at h
    | cons b bs =>
      by_cases hkb : k = b
      · subst hkb
        simp only [diverge, beq_self_eq_true, if_true] at h
        cases ks with
        | nil => simp [diverge] at h
        | cons k2 ks2 =>
          cases bs with
          | nil => simp [diverge] at h
          | cons b2 bs2 =>
            rw [GetValue_cons_cons, GetValue_cons_cons]
            cases hl : data.lookup k with
            | none =>
              simp only [PutValue, hl, lookup_setKey_self, Option.getD_some, Option.getD_none,
                ToMapInterface]
              exact ih [] (b2 :: bs2) h
            | some v =>
              cases v with
              | obj m =>
                simp only [PutValue, hl, lookup_setKey_self, Option.getD_some, ToMapInterface]
                exact ih m (b2 :: bs2) h
              | null => simp [PutValue, hl]
              | bool _ => simp [PutValue, hl]
              | num _ => simp [PutValue, hl]
              | str _ => simp [PutValue, hl]
              | arr _ => simp [PutValue, hl]
      · have hbk : b ≠ k := fun h => hkb h.symm
        have hlook : (PutValue data val (k :: ks)).lookup b = data.lookup b := by
          cases ks with
          | nil => simp [PutValue, lookup_setKey_ne _ _ _ _ hbk]
          | cons k2 ks2 =>
            cases hl : data.lookup k with
            | none => simp [PutValue, hl, lookup_setKey_ne _ _ _ _ hbk]
            | some v =>
              cases v <;> simp [PutValue, hl, lookup_setKey_ne _ _ _ _ hbk]
        cases bs with
        | nil => simpa [GetValue] using hlook
        | cons b2 bs2 => rw [GetValue_cons_cons, GetValue_cons_cons, hlook]

/-- A `PutValue` at a path where the payload has a value is read back there. -/
theorem GetValue_PutValue_self (val : Value) (p : List String) :
    ∀ (data : Payload), GetValue data p ≠ none → GetValue (PutValue data val p) p = some val := by
  induction p with
  | nil => intro data h; simp [GetValue] at h
  | cons k ks ih =>
    intro data h
    cases ks with
    | nil => simp [PutValue, GetValue, lookup_setKey_self]
    | cons k2 ks2 =>
      rw [GetValue_cons_cons] at h
      rw [GetValue_cons_cons]
      cases hl : data.lookup k with
      | none => simp [hl, ToMapInterface, GetValue_nil] at h
      | some v =>
        cases v with
        | obj m =>
          simp only [hl, Option.getD_some, ToMapInterface] at h
          simp only [PutValue, hl, lookup_setKey_self, Option.getD_some, ToMapInterface]
          exact ih m h
        | null => simp [hl, ToMapInterface, GetValue_nil] at h
        | bool _ => simp [hl, ToMapInterface, GetValue_nil] at h
        | num _ => simp [hl, ToMapInterface, GetValue_nil] at h
        | str _ => simp [hl, ToMapInterface, GetValue_nil] at h
        | arr _ => simp [hl, ToMapInterface, GetValue_nil] at h

/-! ## The secret entries of the in-memory backend -/

/-- The entry found at a key is stored and carries that key. -/
theorem secretAt_some (m : Mem) (ns name : String) (x : Secret)
    (h : m.secretAt ns name = some x) : x ∈ m.secrets ∧ x.Namespace = ns ∧ x.Name = name := by
  unfold Mem.secretAt at h
  have hp := List.find?_some h
  have hm := List.mem_of_find?_eq_some h
  simp only [Bool.and_eq_true, beq_iff_eq] at hp
  exact ⟨hm, hp.1, hp.2⟩

/-- No entry at a key means the key is not among the stored keys. -/
theorem secretAt_none_keys (m : Mem) (ns name : String) (h : m.secretAt ns name = none) :
    (ns, name) ∉ m.keys := by
  intro hmem
  unfold Mem.keys at hmem
  rw [List.mem_map] at hmem
  obtain ⟨x, hx, hkey⟩ := hmem
  have hall := (secretAt_none_iff m ns name).1 h x hx
  simp only [Prod.mk.injEq] at hkey
  simp [hkey.1, hkey.2] at hall

/-- A successful `createOrUpdateSecrets` on the in-memory backend: the namespace
exists, and the entry was created, found unchanged, or updated in place. -/
theorem createOrUpdateSecrets_mem_ok (fields : List (String × Payload))
    (data name ns : String) (m m1 : Mem)
    (h : createOrUpdateSecrets (memPasswordStore fields) data name ns m = (none, m1)) :
    (m.secretAt ns (ToLower name) = none
        ∧ m1 = { m with secrets := m.secrets ++ [secretEntry ns (ToLower name) data] })
      ∨ ∃ x, m.secretAt ns (ToLower name) = some x
          ∧ (m1 = m ∨ m1 = { m with secrets := m.secrets.map (fun y =>
              if y.Namespace == ns && y.Name == ToLower name
              then { x with StringData := [(ToLower name, data)] } else y) }) := by
  by_cases hns : ns ∈ m.namespaces
  · cases hs : m.secretAt ns (ToLower name) with
    | none =>
      left
      simp [createOrUpdateSecrets, memPasswordStore, memNamespaces, memSecrets, hns, hs,
        errOf, IsNotFound] at h
      exact ⟨rfl, by rw [← h]; rfl⟩
    | some x =>
      right
      refine ⟨x, rfl, ?_⟩
      have hx := secretAt_some m ns (ToLower name) x hs
      by_cases hde : DeepEqual x.StringData [(ToLower name, data)] = true
      · left
        simp [createOrUpdateSecrets, memPasswordStore, memNamespaces, memSecrets, hns, hs,
          errOf, hde] at h
        exact h.symm
      · right
        simp [createOrUpdateSecrets, memPasswordStore, memNamespaces, memSecrets, hns, hs,
          errOf, hde, hx.2.1, hx.2.2] at h
        simp [← h, hx.2.1, hx.2.2]
  · simp [createOrUpdateSecrets, memPasswordStore, memNamespaces, hns, errOf, IsNotFound,
      IsAlreadyExists] at h

/-- A successful `createOrUpdateSecrets` on the in-memory backend leaves an
entry at its key, keeps the keys that were there and keeps them distinct. -/
theorem createOrUpdateSecrets_mem_keys (fields : List (String × Payload))
    (data name ns : String) (m m1 : Mem)
    (h : createOrUpdateSecrets (memPasswordStore fields) data name ns m = (none, m1)) :
    (ns, ToLower name) ∈ m1.keys ∧ (∀ k ∈ m.keys, k ∈ m1.keys)
      ∧ (m.keys.Nodup → m1.keys.Nodup) := by
  rcases createOrUpdateSecrets_mem_ok fields data name ns m m1 h with ⟨hnone, rfl⟩ | ⟨x, hs, hm⟩
  · have hk := secretAt_none_keys m ns (ToLower name) hnone
    have hkeys : Mem.keys { m with secrets := m.secrets ++ [secretEntry ns (ToLower name) data] }
        = m.keys ++ [(ns, ToLower name)] := by
      simp [Mem.keys, secretEntry]
    rw [hkeys]
    refine ⟨by simp, fun k hk => by simp [hk], fun hnd => ?_⟩
    rw [List.nodup_append]
    exact ⟨hnd, List.nodup_singleton _, by
      intro a ha hb
      simp only [List.mem_singleton] at hb
      exact hk (hb ▸ ha)⟩
  · have hx := secretAt_some m ns (ToLower name) x hs
    have hin : (ns, ToLower name) ∈ m.keys := by
      unfold Mem.keys
      rw [List.mem_map]
      exact ⟨x, hx.1, by rw [hx.2.1, hx.2.2]⟩
    rcases hm with rfl | rfl
    · exact ⟨hin, fun k hk => hk, fun hnd => hnd⟩
    · have hkeys : Mem.keys { m with secrets := m.secrets.map (fun y =>
          if y.Namespace == ns && y.Name == ToLower name
          then { x with StringData := [(ToLower name, data)] } else y) } = m.keys := by
        unfold Mem.keys
        simp only [List.map_map]
        apply List.map_congr_left
        intro y _
        by_cases hy : (y.Namespace == ns && y.Name == ToLower name) = true
        · have hy2 := hy
          simp only [Bool.and_eq_true, beq_iff_eq] at hy2
          simp [hy, hx.2.1, hx.2.2, hy2.1, hy2.2]
        · simp only [Bool.and_eq_true, beq_iff_eq] at hy
          simp [hy]
      rw [hkeys]
      exact ⟨hin, fun k hk => hk, fun hnd => hnd⟩

/-! ## Redaction over the in-memory backend -/

/-- No piece cut by `Split` contains the separator. -/
theorem splitChars_no_sep (sep : Char) (cs : List Char) :
    ∀ piece ∈ splitChars sep cs, sep ∉ piece := by
  induction cs with
  | nil =>
    intro piece h
    simp [splitChars] at h
    simp [h]
  | cons c rest ih =>
    intro piece h
    by_cases hc : c = sep
    · simp only [splitChars, hc, if_true, List.mem_cons] at h
      rcases h with rfl | h
      · simp
      · exact ih piece h
    · simp only [splitChars, hc, if_false] at h
      cases hs : splitChars sep rest with
      | nil =>
        simp only [hs, List.mem_singleton] at h
        subst h
        simp [Ne.symm hc]
      | cons p ps =>
        simp only [hs, List.mem_cons] at h
        rcases h with rfl | h
        · have hp := ih p (by simp [hs])
          simp [Ne.symm hc, hp]
        · exact ih piece (by simp [hs, h])

/-- The namespace chosen from the payload's `id` never contains a colon. -/
theorem secretNamespace_no_colon (data : Payload) : ':' ∉ (secretNamespace data).data := by
  have hdef : ':' ∉ ("mgmt-secrets" : String).data := by decide
  have key : ∀ ns : String, ':' ∉ ns.data →
      ':' ∉ (if ns == "" then "mgmt-secrets" else ns).data := by
    intro ns h
    by_cases hn : (ns == "") = true
    · simp only [hn, if_true]; exact hdef
    · simp only [hn]; exact h
  unfold secretNamespace
  apply key
  cases hl : data.lookup "id" with
  | none => simp
  | some val =>
    simp only [Split]
    have hno := splitChars_no_sep ':' (ToString val).data
    cases hs : splitChars ':' (ToString val).data with
    | nil => simp
    | cons a as =>
      cases as with
      | nil =>
        simp only [List.map_cons, List.map_nil]
        exact hno a (by simp [hs])
      | cons b bs =>
        cases bs with
        | nil =>
          simp only [List.map_cons, List.map_nil]
          exact hno b (by simp [hs])
        | cons c cs => simp

/-- A successful `handlePasswordFields` over the in-memory backend: stored keys
stay and stay distinct; the payload reads the same at every path that diverges
from all recorded paths; and a recorded path that reads a value in the payload
and diverges from every other recorded path ends up holding a reference whose
key has an entry. -/
theorem handlePasswordFields_mem_ok (fields : List (String × Payload))
    (fieldData : List fieldInfo) :
    ∀ (data : Payload) (id : String) (m : Mem) (data1 : Payload) (m1 : Mem),
      handlePasswordFields (memPasswordStore fields) fieldData data id m = (.ok (), data1, m1) →
      (∀ k ∈ m.keys, k ∈ m1.keys) ∧ (m.keys.Nodup → m1.keys.Nodup)
        ∧ (∀ q, (∀ o ∈ fieldData, diverge o.paths q = true) →
            GetValue data1 q = GetValue data q)
        ∧ (∀ pre info post, fieldData = pre ++ info :: post →
            (∀ o ∈ pre ++ post, diverge o.paths info.paths = true) →
            GetValue data info.paths ≠ none →
            ∃ ns name, GetValue data1 info.paths = some (.str (reference ns name))
              ∧ ':' ∉ ns.data ∧ (ns, ToLower name) ∈ m1.keys) := by
  induction fieldData with
  | nil =>
    intro data id m data1 m1 h
    simp only [handlePasswordFields, Prod.mk.injEq] at h
    obtain ⟨_, rfl, rfl⟩ := h
    refine ⟨fun k hk => hk, fun h => h, fun q _ => rfl, ?_⟩
    intro pre info post hsplit
    cases pre <;> simp at hsplit
  | cons info0 rest ih =>
    intro data id m data1 m1 h
    unfold handlePasswordFields at h
    cases hn : secretName data id info0 with
    | none => simp [hn] at h
    | some name =>
      rcases hc : createOrUpdateSecrets (memPasswordStore fields) info0.value name
        (secretNamespace data) m with ⟨r, m2⟩
      cases r with
      | some e => simp [hn, hc] at h
      | none =>
        simp only [hn, hc] at h
        obtain ⟨hmono, hnodup, hframe, hmain⟩ := ih _ _ _ _ _ h
        obtain ⟨hkey, hmono2, hnodup2⟩ :=
          createOrUpdateSecrets_mem_keys fields info0.value name (secretNamespace data) m m2 hc
        refine ⟨fun k hk => hmono k (hmono2 k hk), fun hnd => hnodup (hnodup2 hnd), ?_, ?_⟩
        · intro q hq
          rw [hframe q (fun o ho => hq o (List.mem_cons_of_mem _ ho))]
          exact GetValue_PutValue_diverge _ _ _ _ (hq info0 (List.mem_cons_self _ _))
        · intro pre info post hsplit hsep hread
          cases pre with
          | nil =>
            simp only [List.nil_append, List.cons.injEq] at hsplit
            obtain ⟨rfl, rfl⟩ := hsplit
            refine ⟨secretNamespace data, name, ?_, secretNamespace_no_colon data,
              hmono _ hkey⟩
            rw [hframe info0.paths (fun o ho => hsep o (by simpa using ho))]
            exact GetValue_PutValue_self _ _ _ hread
          | cons p0 pre1 =>
            simp only [List.cons_append, List.cons.injEq] at hsplit
            obtain ⟨rfl, rfl⟩ := hsplit
            have h0 : diverge info0.paths info.paths = true :=
              hsep info0 (by simp)
            apply hmain pre1 info post rfl
            · intro o ho
              exact hsep o (by
                simp only [List.cons_append, List.mem_cons]
                exact Or.inr ho)
            · rw [GetValue_PutValue_diverge _ _ _ _ h0]
              exact hread

/-- Among distinct keys, a key that is there is there once. -/
theorem countP_key_eq_one (keys : List (String × String)) (ns name : String)
    (hnd : keys.Nodup) (hmem : (ns, name) ∈ keys) :
    keys.countP (fun k => k.1 == ns && k.2 == name) = 1 := by
  induction keys with
  | nil => simp at hmem
  | cons k rest ih =>
    rw [List.nodup_cons] at hnd
    by_cases hk : k = (ns, name)
    · subst hk
      have hzero : rest.countP (fun k => k.1 == ns && k.2 == name) = 0 := by
        rw [List.countP_eq_zero]
        intro a ha hp
        simp only [Bool.and_eq_true, beq_iff_eq] at hp
        have : a = (ns, name) := Prod.ext hp.1 hp.2
        exact hnd.1 (this ▸ ha)
      simp [List.countP_cons, hzero]
    · have hrest : (ns, name) ∈ rest := by
        rcases List.mem_cons.1 hmem with h | h
        · exact absurd h.symm hk
        · exact h
      have hp : (k.1 == ns && k.2 == name) = false := by
        rw [Bool.eq_false_iff]
        intro hp
        simp only [Bool.and_eq_true, beq_iff_eq] at hp
        exact hk (Prod.ext hp.1 hp.2)
      simp [List.countP_cons, hp, ih hnd.2 hrest]

/-! ## Slices and their backing arrays -/

/-- In an array of a tight slice, a slice two longer has seven names or more. -/
theorem tight_two_more {c n m : Nat} (hn : Tight c n) (hm : Tight c m) (h : n + 2 ≤ m) :
    7 ≤ m := by
  rcases hn with ⟨hc, hn0⟩ | ⟨j, hj, h1, h2⟩
  · rcases hm with ⟨_, hm0⟩ | ⟨j2, hj2, h3, h4⟩
    · omega
    · omega
  · rcases hm with ⟨hc0, hm0⟩ | ⟨j2, hj2, h3, h4⟩
    · omega
    · match j, hj with
      | 0, hj => simp at hj; omega
      | 1, hj => simp at hj; omega
      | 2, hj => simp at hj; omega
      | j + 3, hj =>
        have h8 : 2 ^ (j + 3) = 8 * 2 ^ j := by ring
        have h1j : 1 ≤ 2 ^ j := Nat.one_le_two_pow
        omega

/-- A tight slice fits its array. -/
theorem tight_le {c n : Nat} (h : Tight c n) : n ≤ c := by
  rcases h with ⟨h1, h2⟩ | ⟨j, _, _, h3⟩
  · omega
  · exact h3

/-- Nothing changes when nothing is done. -/
theorem keeps_refl (H : Arrays) (P : Slice) : H.keeps H P :=
  ⟨Nat.le_refl _, fun _ _ => rfl, fun _ _ _ _ => rfl⟩

/-- Writes behind a slice made from `P` are writes behind `P`. -/
theorem keeps_trans {H H1 H2 : Arrays} {P Q : Slice}
    (h1 : H.keeps H1 P) (h2 : H1.keeps H2 Q)
    (hq : H.next ≤ Q.array ∨ (Q.array = P.array ∧ P.len ≤ Q.len)) : H.keeps H2 P := by
  obtain ⟨n1, c1, w1⟩ := h1
  obtain ⟨n2, c2, w2⟩ := h2
  refine ⟨Nat.le_trans n1 n2, ?_, ?_⟩
  · intro a ha
    rw [c2 a (Nat.lt_of_lt_of_le ha n1), c1 a ha]
  · intro a i ha hai
    rw [w2 a i (Nat.lt_of_lt_of_le ha n1) ?_, w1 a i ha hai]
    rcases hq with hq | ⟨hq1, hq2⟩
    · exact Or.inl (by omega)
    · rcases hai with hai | hai
      · exact Or.inl (by rw [hq1]; exact hai)
      · exact Or.inr (by omega)

/-- A slice that was fine stays fine. -/
theorem ok_keeps {H H1 : Arrays} {P s : Slice} (hs : s.Ok H) (h : H.keeps H1 P) :
    s.Ok H1 := by
  obtain ⟨n1, c1, _⟩ := h
  exact ⟨Nat.lt_of_lt_of_le hs.1 n1, by rw [c1 _ hs.1]; exact hs.2⟩

/-- The strings of a slice that the writes stay clear of are kept. -/
theorem read_keeps {H H1 : Arrays} {P s : Slice} (hs : s.Ok H) (h : H.keeps H1 P)
    (hc : P.clear s) : s.read H1 = s.read H := by
  obtain ⟨_, c1, w1⟩ := h
  unfold Slice.read
  apply List.ext_getElem?
  intro i
  by_cases hi : i < s.len
  · rw [List.getElem?_take_of_lt hi, List.getElem?_take_of_lt hi]
    apply w1 _ _ hs.1
    rcases hc with hc | hc
    · exact Or.inl hc
    · exact Or.inr (by omega)
  · rw [List.getElem?_take_eq_none (by omega), List.getElem?_take_eq_none (by omega)]

/-- The length of what a slice reads. -/
theorem read_length {H : Arrays} {s : Slice} (hs : s.Ok H) : (s.read H).length = s.len := by
  unfold Slice.read
  rw [List.length_take]
  exact Nat.min_eq_left (tight_le hs.2)

/-- Writing behind the first `n` cells keeps them. -/
theorem take_set_succ (c : List String) (n : Nat) (x : String) (h : n < c.length) :
    (c.set n x).take (n + 1) = c.take n ++ [x] := by
  induction c generalizing n with
  | nil => simp at h
  | cons a as ih =>
    cases n with
    | zero => simp
    | succ n =>
      simp only [List.length_cons, Nat.add_lt_add_iff_right] at h
      simp [List.set, List.take, ih n h]

/-- What `append` does to the arrays and what it returns: nothing is written
but the cell behind the slice, the new slice is fine, one longer, reads the old
strings and the new one, and lies behind the old slice or in a new array. -/
theorem sliceAppend_spec (H : Arrays) (P : Slice) (k : String) (hP : P.Ok H) :
    H.keeps (sliceAppend H P k).1 P
      ∧ (sliceAppend H P k).2.Ok (sliceAppend H P k).1
      ∧ (sliceAppend H P k).2.len = P.len + 1
      ∧ (sliceAppend H P k).2.read (sliceAppend H P k).1 = P.read H ++ [k]
      ∧ (H.next ≤ (sliceAppend H P k).2.array ∨ (sliceAppend H P k).2.array = P.array) := by
  obtain ⟨hlt, ht⟩ := hP
  have hle := tight_le ht
  by_cases hroom : P.len < (H.cells P.array).length
  · have hdef : sliceAppend H P k =
        ({ H with cells := fun a =>
            if a = P.array then (H.cells P.array).set P.len k else H.cells a },
          ⟨P.array, P.len + 1⟩) := by
      simp [sliceAppend, hroom]
    rw [hdef]
    refine ⟨⟨Nat.le_refl _, ?_, ?_⟩, ⟨hlt, ?_⟩, rfl, ?_, Or.inr rfl⟩
    · intro a _
      by_cases ha : a = P.array
      · simp [ha]
      · simp [ha]
    · intro a i _ hai
      by_cases ha : a = P.array
      · subst ha
        rcases hai with hai | hai
        · exact absurd rfl hai
        · simp only [if_true]
          rw [List.getElem?_set_ne (by omega)]
      · simp [ha]
    · simp only [if_true, List.length_set]
      rcases ht with ⟨h0, _⟩ | ⟨j, hj, h1, h2⟩
      · omega
      · exact Or.inr ⟨j, hj, by omega, by omega⟩
    · simp only [Slice.read, if_true]
      exact take_set_succ _ _ _ hroom
  · have hfull : P.len = (H.cells P.array).length := by omega
    have hdef : sliceAppend H P k =
        ({ cells := fun a =>
            if a = H.next then
              (H.cells P.array).take P.len ++
                k :: List.replicate (growCap (H.cells P.array).length - (P.len + 1)) ""
            else H.cells a,
           next := H.next + 1 },
          ⟨H.next, P.len + 1⟩) := by
      simp [sliceAppend, hroom]
    rw [hdef]
    refine ⟨⟨Nat.le_succ _, ?_, ?_⟩, ⟨Nat.lt_succ_self _, ?_⟩, rfl, ?_, Or.inl (Nat.le_refl _)⟩
    · intro a ha
      have : a ≠ H.next := by omega
      simp [this]
    · intro a i ha _
      have : a ≠ H.next := by omega
      simp [this]
    · simp only [if_true, List.length_append, List.length_take, List.length_cons,
        List.length_replicate]
      rcases ht with ⟨h0, hn0⟩ | ⟨j, hj, h1, h2⟩
      · refine Or.inr ⟨0, ?_, ?_, ?_⟩ <;> simp [growCap, h0, hn0]
      · have hpos : 1 ≤ 2 ^ j := Nat.one_le_two_pow
        have hne : (H.cells P.array).length ≠ 0 := by omega
        have h2j : 2 ^ (j + 1) = 2 * 2 ^ j := by ring
        refine Or.inr ⟨j + 1, ?_, ?_, ?_⟩ <;> simp only [growCap, hne, if_false] <;> omega
    · simp only [Slice.read, if_true]
      rw [List.take_append_eq_append_take]
      simp [hfull]

/-- A stretch under `P` whose field data stay clear of `P`, followed by another
stretch under `P`. -/
theorem spec_seq {H : Arrays} {fd : List (Slice × String)} {P : Slice}
    {r1 r2 : Arrays × List (Slice × String)} {L1 L2 : List fieldInfo → List fieldInfo}
    (s1 : Spec H fd P r1 L1) (c1 : Clears fd P r1) (s2 : Spec r1.1 r1.2 P r2 L2) :
    Spec H fd P r2 (fun fdl => L2 (L1 fdl)) := by
  obtain ⟨k1, new1, e1, o1, f1⟩ := s1
  obtain ⟨k2, new2, e2, o2, f2⟩ := s2
  refine ⟨keeps_trans k1 k2 (Or.inr ⟨rfl, Nat.le_refl _⟩), new1 ++ new2, ?_, ?_, ?_⟩
  · rw [e2, e1, List.append_assoc]
  · intro e he
    rcases List.mem_append.1 he with he | he
    · exact ⟨ok_keeps (o1 e he).1 k2, (o1 e he).2⟩
    · refine ⟨(o2 e he).1, ?_⟩
      rcases (o2 e he).2 with h | h
      · exact Or.inl (Nat.le_trans k1.1 h)
      · exact Or.inr h
  · intro hb hc fdl
    have hb1 : ∀ e ∈ r1.2, e.1.len ≤ 6 := by
      intro e he
      exact hb e (by rw [e2]; exact List.mem_append_left _ he)
    have hc1 := c1 hb1 hc
    show L2 (L1 fdl) = _
    rw [f2 hb hc1, f1 hb1 hc, List.map_append, List.append_assoc]
    congr 2
    apply List.map_congr_left
    intro e he
    have hmem : e ∈ r1.2 := by rw [e1]; exact List.mem_append_right _ he
    show resolve r1.1 e = resolve r2.1 e
    unfold resolve
    rw [read_keeps (o1 e he).1 k2 (hc1 e hmem)]

/-- Two stretches whose field data stay clear of `P`. -/
theorem clears_seq {fd : List (Slice × String)} {P : Slice}
    {r1 r2 : Arrays × List (Slice × String)} {L2 : List fieldInfo → List fieldInfo}
    (c1 : Clears fd P r1) (s2 : Spec r1.1 r1.2 P r2 L2) (c2 : Clears r1.2 P r2) :
    Clears fd P r2 := by
  obtain ⟨_, new2, e2, _, _⟩ := s2
  intro hb hc
  have hb1 : ∀ e ∈ r1.2, e.1.len ≤ 6 := by
    intro e he
    exact hb e (by rw [e2]; exact List.mem_append_left _ he)
  exact c2 hb (c1 hb1 hc)

/-- The stretch `buildFieldData(..., append(path, key1))` seen from the caller:
it writes behind the caller's path, and with no recorded path of more than six
names its field data stay clear of the caller's later appends. -/
theorem spec_child {H : Arrays} {fd : List (Slice × String)} {P : Slice} (k : String)
    {r : Arrays × List (Slice × String)} {L : List String → List fieldInfo → List fieldInfo}
    (hP : P.Ok H) (hfd : ∀ e ∈ fd, e.1.Ok H)
    (s : Spec (sliceAppend H P k).1 fd (sliceAppend H P k).2 r
      (L ((sliceAppend H P k).2.read (sliceAppend H P k).1))) :
    Spec H fd P r (L (P.read H ++ [k])) ∧ Clears fd P r := by
  obtain ⟨ka, oka, hlen, hread, harr⟩ := sliceAppend_spec H P k hP
  obtain ⟨k1, new, e1, o1, f1⟩ := s
  have hkeeps : H.keeps r.1 P := by
    refine keeps_trans ka k1 ?_
    rcases harr with h | h
    · exact Or.inl h
    · exact Or.inr ⟨h, by omega⟩
  refine ⟨⟨hkeeps, new, e1, ?_, ?_⟩, ?_⟩
  · intro e he
    refine ⟨(o1 e he).1, ?_⟩
    rcases (o1 e he).2 with h | ⟨h1, h2⟩
    · exact Or.inl (Nat.le_trans ka.1 h)
    · rcases harr with h | h
      · exact Or.inl (by omega)
      · exact Or.inr ⟨by rw [h1, h], by omega⟩
  · intro hb hc fdl
    rw [← hread]
    apply f1 hb
    intro e he
    rcases harr with h | h
    · exact Or.inl (by have := (hfd e he).1; omega)
    · rcases hc e he with h2 | h2
      · exact Or.inl (by rw [h]; exact h2)
      · exact Or.inr (by omega)
  · intro hb hc e he
    rw [e1] at he
    rcases List.mem_append.1 he with he | he
    · exact hc e he
    · rcases (o1 e he).2 with h | ⟨h1, h2⟩
      · exact Or.inl (by have := hP.1; have := ka.1; omega)
      · rcases harr with h | h
        · exact Or.inl (by have := hP.1; omega)
        · exfalso
          have hcap := hkeeps.2.1 P.array hP.1
          have ht := (o1 e he).1.2
          rw [h1, h, hcap] at ht
          have h7 := tight_two_more hP.2 ht (by omega)
          have h6 := hb e (by rw [e1]; exact List.mem_append_right _ he)
          omega

/-- A stretch that does nothing. -/
theorem spec_refl (H : Arrays) (fd : List (Slice × String)) (P : Slice) :
    Spec H fd P (H, fd) (fun fdl => fdl) :=
  ⟨keeps_refl H P, [], by simp, by simp, by simp⟩

/-- After a stretch all field data are fine. -/
theorem spec_ok {H : Arrays} {fd : List (Slice × String)} {P : Slice}
    {r : Arrays × List (Slice × String)} {L : List fieldInfo → List fieldInfo}
    (s : Spec H fd P r L) (hfd : ∀ e ∈ fd, e.1.Ok H) : ∀ e ∈ r.2, e.1.Ok r.1 := by
  obtain ⟨k1, new, e1, o1, _⟩ := s
  intro e he
  rw [e1] at he
  rcases List.mem_append.1 he with he | he
  · exact ok_keeps (hfd e he) k1
  · exact (o1 e he).1

/-- The walk over shared arrays next to the walk over lists: it writes only
behind its path, and as long as no recorded path has more than six names, the
field data it adds read what the walk over lists adds. -/
theorem buildFieldDataShared_spec (data1 : List (String × Value)) (data2 : Payload)
    (H : Arrays) (fd : List (Slice × String)) (P : Slice) :
    P.Ok H → (∀ e ∈ fd, e.1.Ok H) →
      Spec H fd P (buildFieldDataShared data1 data2 H fd P)
        (fun fdl => buildFieldData data1 data2 fdl (P.read H)) := by
  refine buildFieldDataShared.induct
    (motive_1 := fun data1 data2 H fd P =>
      P.Ok H → (∀ e ∈ fd, e.1.Ok H) →
        Spec H fd P (buildFieldDataShared data1 data2 H fd P)
          (fun fdl => buildFieldData data1 data2 fdl (P.read H)))
    (motive_2 := fun val1 data2 H fd P =>
      P.Ok H → (∀ e ∈ fd, e.1.Ok H) →
        Spec H fd P (buildFieldDataSharedIn val1 data2 H fd P)
          (fun fdl => buildFieldDataIn val1 data2 fdl (P.read H)))
    ?_ ?_ ?_ ?_ ?_ ?_ ?_ ?_ data1 data2 H fd P
  · intro data2 H fd P m ih hP hfd
    simpa [buildFieldDataSharedIn, buildFieldDataIn] using ih hP hfd
  · intro t data2 H fd P hno hP hfd
    cases t with
    | obj m => exact absurd rfl (fun e => hno m e)
    | null => simpa [buildFieldDataSharedIn, buildFieldDataIn] using spec_refl H fd P
    | bool _ => simpa [buildFieldDataSharedIn, buildFieldDataIn] using spec_refl H fd P
    | num _ => simpa [buildFieldDataSharedIn, buildFieldDataIn] using spec_refl H fd P
    | str _ => simpa [buildFieldDataSharedIn, buildFieldDataIn] using spec_refl H fd P
    | arr _ => simpa [buildFieldDataSharedIn, buildFieldDataIn] using spec_refl H fd P
  · intro data2 H fd P hP hfd
    simpa [buildFieldDataShared, buildFieldData] using spec_refl H fd P
  · intro data2 H fd P k v rest hl ih hP hfd
    simpa [buildFieldDataShared, buildFieldData, hl] using ih hP hfd
  · intro data2 H fd P k v rest val2 hl hleaf val hskip ih hP hfd
    have hskip2 : (ToString val2 != "" && rancherReferenced (ToString val2)) = true := hskip
    simpa [buildFieldDataShared, buildFieldData, hl, hleaf, hskip2] using ih hP hfd
  · intro data2 H fd P k v rest val2 hl hleaf val hskip ih hP hfd
    have hskip2 : ¬ (ToString val2 != "" && rancherReferenced (ToString val2)) = true := hskip
    obtain ⟨ka, oka, hlen, hread, harr⟩ := sliceAppend_spec H P k hP
    have hfd1 : ∀ e ∈ fd ++ [((sliceAppend H P k).2, ToString val2)],
        e.1.Ok (sliceAppend H P k).1 := by
      intro e he
      rcases List.mem_append.1 he with he | he
      · exact ok_keeps (hfd e he) ka
      · simp only [List.mem_singleton] at he
        subst he
        exact oka
    obtain ⟨k1, new2, e1, o1, f1⟩ := ih oka hfd1
    have hw : buildFieldDataShared ((k, v) :: rest) data2 H fd P =
        buildFieldDataShared rest data2 (sliceAppend H P k).1
          (fd ++ [((sliceAppend H P k).2, ToString val2)]) (sliceAppend H P k).2 := by
      rw [buildFieldDataShared]
      simp only [hl, hleaf, if_true, hskip2]
      rfl
    have hl2 : ∀ fdl, buildFieldData ((k, v) :: rest) data2 fdl (P.read H) =
        buildFieldData rest data2 (fdl ++ [⟨P.read H ++ [k], ToString val2⟩])
          (P.read H ++ [k]) := by
      intro fdl
      rw [buildFieldData]
      simp only [hl, hleaf, if_true, hskip2]
      rfl
    rw [hw]
    refine ⟨keeps_trans ka k1 ?_, ((sliceAppend H P k).2, ToString val2) :: new2, ?_, ?_, ?_⟩
    · rcases harr with h | h
      · exact Or.inl h
      · exact Or.inr ⟨h, by omega⟩
    · rw [e1, List.append_assoc]
      rfl
    · intro e he
      rcases List.mem_cons.1 he with he | he
      · subst he
        refine ⟨ok_keeps oka k1, ?_⟩
        rcases harr with h | h
        · exact Or.inl h
        · exact Or.inr ⟨h, by show P.len < (sliceAppend H P k).2.len; omega⟩
      · refine ⟨(o1 e he).1, ?_⟩
        rcases (o1 e he).2 with h | ⟨h1, h2⟩
        · exact Or.inl (Nat.le_trans ka.1 h)
        · rcases harr with h | h
          · exact Or.inl (by omega)
          · exact Or.inr ⟨by rw [h1, h], by omega⟩
    · intro hb hc fdl
      have hc1 : ∀ e ∈ fd ++ [((sliceAppend H P k).2, ToString val2)],
          (sliceAppend H P k).2.clear e.1 := by
        intro e he
        rcases List.mem_append.1 he with he | he
        · rcases harr with h | h
          · exact Or.inl (by have := (hfd e he).1; omega)
          · rcases hc e he with h2 | h2
            · exact Or.inl (by rw [h]; exact h2)
            · exact Or.inr (by omega)
        · simp only [List.mem_singleton] at he
          subst he
          exact Or.inr (Nat.le_refl _)
      show buildFieldData ((k, v) :: rest) data2 fdl (P.read H) = _
      rw [hl2, ← hread]
      refine (f1 hb hc1 _).trans ?_
      rw [List.append_assoc]
      congr 1
      simp only [List.singleton_append, List.map_cons, List.cons.injEq, and_true]
      unfold resolve
      rw [read_keeps oka k1 (Or.inr (Nat.le_refl _))]
  · intro data2 H fd P k v rest val2 hl hleaf hslice ih2 ih hP hfd
    obtain ⟨ka, oka, hlen, hread, harr⟩ := sliceAppend_spec H P k hP
    have hfdA : ∀ e ∈ fd, e.1.Ok (sliceAppend H P k).1 := fun e he => ok_keeps (hfd e he) ka
    obtain ⟨s1, c1⟩ := spec_child k
      (L := fun path fdl => buildFieldDataIn v (ToMapInterface val2) fdl path) hP hfd
      (ih2 oka hfdA)
    have hP1 := ok_keeps hP s1.1
    have hfd1 := spec_ok s1 hfd
    have s2 := ih hP1 hfd1
    rw [read_keeps hP s1.1 (Or.inr (Nat.le_refl _))] at s2
    have hw : buildFieldDataShared ((k, v) :: rest) data2 H fd P =
        buildFieldDataShared rest data2
          (buildFieldDataSharedIn v (ToMapInterface val2) (sliceAppend H P k).1 fd
            (sliceAppend H P k).2).1
          (buildFieldDataSharedIn v (ToMapInterface val2) (sliceAppend H P k).1 fd
            (sliceAppend H P k).2).2 P := by
      rw [buildFieldDataShared]
      simp only [hl, hleaf, hslice]
      rfl
    have hL : (fun fdl => buildFieldData ((k, v) :: rest) data2 fdl (P.read H)) =
        (fun fdl => buildFieldData rest data2
          (buildFieldDataIn v (ToMapInterface val2) fdl (P.read H ++ [k])) (P.read H)) := by
      funext fdl
      rw [buildFieldData]
      simp only [hl, hleaf, hslice]
      rfl
    rw [hw, hL]
    exact spec_seq s1 c1 s2
  · intro data2 H fd P k v rest val2 hl hleaf valArr hslice ih2 ih hP hfd
    have hfold : ∀ (arr : List Payload) (H1 : Arrays) (fd1 : List (Slice × String)),
        P.Ok H1 → (∀ e ∈ fd1, e.1.Ok H1) →
        Spec H1 fd1 P
            (arr.foldl (fun acc each =>
              buildFieldDataSharedIn v each (sliceAppend acc.1 P k).1 acc.2
                (sliceAppend acc.1 P k).2) (H1, fd1))
            (fun fdl => arr.foldl
              (fun acc each => buildFieldDataIn v each acc (P.read H1 ++ [k])) fdl)
          ∧ Clears fd1 P
            (arr.foldl (fun acc each =>
              buildFieldDataSharedIn v each (sliceAppend acc.1 P k).1 acc.2
                (sliceAppend acc.1 P k).2) (H1, fd1)) := by
      intro arr
      induction arr with
      | nil =>
        intro H1 fd1 _ _
        exact ⟨by simpa using spec_refl H1 fd1 P, fun _ hc => by simpa using hc⟩
      | cons each more iharr =>
        intro H1 fd1 hP1 hfd1
        obtain ⟨kb, okb, _, _, _⟩ := sliceAppend_spec H1 P k hP1
        have hfdB : ∀ e ∈ fd1, e.1.Ok (sliceAppend H1 P k).1 :=
          fun e he => ok_keeps (hfd1 e he) kb
        obtain ⟨s1, c1⟩ := spec_child k
          (L := fun path fdl => buildFieldDataIn v each fdl path) hP1 hfd1
          (ih2 (H1, fd1) each okb hfdB)
        obtain ⟨s2, c2⟩ := iharr _ _ (ok_keeps hP1 s1.1) (spec_ok s1 hfd1)
        rw [read_keeps hP1 s1.1 (Or.inr (Nat.le_refl _))] at s2
        simp only [List.foldl_cons]
        exact ⟨spec_seq s1 c1 s2, clears_seq c1 s2 c2⟩
    obtain ⟨s1, c1⟩ := hfold valArr H fd hP hfd
    have hP1 := ok_keeps hP s1.1
    have hfd1 := spec_ok s1 hfd
    have s2 := ih hP1 hfd1
    rw [read_keeps hP s1.1 (Or.inr (Nat.le_refl _))] at s2
    have hw : buildFieldDataShared ((k, v) :: rest) data2 H fd P =
        buildFieldDataShared rest data2
          (valArr.foldl (fun acc each =>
            buildFieldDataSharedIn v each (sliceAppend acc.1 P k).1 acc.2
              (sliceAppend acc.1 P k).2) (H, fd)).1
          (valArr.foldl (fun acc each =>
            buildFieldDataSharedIn v each (sliceAppend acc.1 P k).1 acc.2
              (sliceAppend acc.1 P k).2) (H, fd)).2 P := by
      rw [buildFieldDataShared]
      simp only [hl, hleaf, hslice]
      rfl
    have hL : (fun fdl => buildFieldData ((k, v) :: rest) data2 fdl (P.read H)) =
        (fun fdl => buildFieldData rest data2
          (valArr.foldl (fun acc each => buildFieldDataIn v each acc (P.read H ++ [k])) fdl)
          (P.read H)) := by
      funext fdl
      rw [buildFieldData]
      simp only [hl, hleaf, hslice]
      rfl
    rw [hw, hL]
    exact spec_seq s1 c1 s2

/-- As long as no recorded path has more than six names, the field data that Go
records, with its paths in shared backing arrays, are the field data of the walk
over lists. -/
theorem recordedFieldData_eq (data1 data2 : Payload)
    (h : ∀ o ∈ recordedFieldData data1 data2, o.paths.length ≤ 6) :
    recordedFieldData data1 data2 = buildFieldData data1 data2 [] [] := by
  have hP : nilSlice.Ok noArrays := ⟨by decide, Or.inl ⟨rfl, rfl⟩⟩
  obtain ⟨_, new, e1, o1, f1⟩ :=
    buildFieldDataShared_spec data1 data2 noArrays [] nilSlice hP (by simp)
  rw [List.nil_append] at e1
  have hb : ∀ e ∈ (buildFieldDataShared data1 data2 noArrays [] nilSlice).2, e.1.len ≤ 6 := by
    intro e he
    have hmem : resolve (buildFieldDataShared data1 data2 noArrays [] nilSlice).1 e ∈
        recordedFieldData data1 data2 := List.mem_map_of_mem _ he
    have hlen := h _ hmem
    rw [e1] at he
    have hok := (o1 e he).1
    unfold resolve at hlen
    simp only [read_length hok] at hlen
    exact hlen
  have hlist : buildFieldData data1 data2 [] (nilSlice.read noArrays) =
      [] ++ new.map (resolve (buildFieldDataShared data1 data2 noArrays [] nilSlice).1) :=
    f1 hb (by simp) []
  rw [List.nil_append] at hlist
  have hnil : nilSlice.read noArrays = [] := rfl
  rw [hnil] at hlist
  rw [hlist]
  unfold recordedFieldData
  simp only [e1]

/-- From seven names on the bound is needed: in the tree `a.b.c.d.e.{C.X, D.Y}`
the path recorded for `C.X` shares its backing array of eight cells with the
path handed on for `D`, whose `append` overwrites the sixth name. -/
theorem recordedFieldData_deep :
    recordedFieldData deepTree deepPayload = [⟨["a", "b", "c", "d", "e", "D", "X"], "x"⟩]
      ∧ buildFieldData deepTree deepPayload [] [] =
          [⟨["a", "b", "c", "d", "e", "C", "X"], "x"⟩] := by
  decide

/-- C4, amended. On the in-memory backend with distinct secret keys, for a
field tree and payload for which the walker, with its paths as Go slices over
shared backing arrays, records paths of at most six names each (the paths that
no later `append` overwrites), after `Update` returns successfully, every
password field that the walker recorded under a path that reads a value in the
payload (so it is reached through nested objects only) and that diverges from
every other recorded path holds a string `namespace:lowercase(name)`; this
string splits on its first colon into exactly that namespace and name, and
exactly one secret entry exists at that key. -/
theorem update_redacts_recorded_field (fields : List (String × Payload))
    (schemaID : String) (data : Payload) (id : String) (m : Mem) (out : Payload) (m1 : Mem)
    (pre post : List fieldInfo) (info : fieldInfo)
    (hnodup : m.keys.Nodup)
    (hok : Update (memPasswordStore fields) schemaID data id m = (.ok out, m1))
    (hwalk : recordedFieldData (fieldsOf (memPasswordStore fields) schemaID) data =
      pre ++ info :: post)
    (hshort : ∀ o ∈ pre ++ info :: post, o.paths.length ≤ 6)
    (hsep : ∀ o ∈ pre ++ post, diverge o.paths info.paths = true)
    (hread : GetValue data info.paths ≠ none) :
    ∃ ns name, GetValue out info.paths = some (.str (reference ns name))
      ∧ SplitN (reference ns name) ':' 2 = [ns, ToLower name]
      ∧ m1.secretCount ns (ToLower name) = 1 := by
  have hlist : buildFieldData (fieldsOf (memPasswordStore fields) schemaID) data [] [] =
      pre ++ info :: post := by
    rw [← recordedFieldData_eq _ _ (by rw [hwalk]; exact hshort)]
    exact hwalk
  unfold Update at hok
  rcases hr : replacePasswords (memPasswordStore fields) data schemaID m with ⟨r, d1, m2⟩
  cases r with
  | err e => simp [hr] at hok
  | panic => simp [hr] at hok
  | ok u =>
    simp only [hr] at hok
    cases hl : (memPasswordStore fields).Stores.lookup schemaID with
    | none => simp [hl] at hok
    | some store =>
      have hstore : store = memDelegate := by
        have hgen : ∀ (l : List (String × Payload)),
            List.lookup schemaID (l.map (fun e => (e.1, memDelegate))) = some store →
            store = memDelegate := by
          intro l
          induction l with
          | nil => intro h; simp [List.lookup] at h
          | cons x xs ihx =>
            intro h
            by_cases hx : schemaID = x.1
            · rw [List.map_cons, hx, lookup_cons_self] at h
              exact (Option.some.inj h).symm
            · rw [List.map_cons, lookup_cons_ne _ _ _ _ hx] at h
              exact ihx h
        exact hgen fields hl
      subst hstore
      simp only [hl] at hok
      unfold replacePasswords at hr
      rw [hlist] at hr
      obtain ⟨_, hnd, _, hmain⟩ :=
        handlePasswordFields_mem_ok fields (pre ++ info :: post) data schemaID m d1 m2 hr
      obtain ⟨ns, name, hget, hcolon, hkey⟩ := hmain pre info post rfl hsep hread
      cases hres : m2.resourceAt schemaID id with
      | none => simp [memDelegate, hres, Outcome.ofExcept] at hok
      | some old =>
        simp only [memDelegate, hres, Outcome.ofExcept, Prod.mk.injEq, Outcome.ok.injEq] at hok
        obtain ⟨rfl, rfl⟩ := hok
        refine ⟨ns, name, hget, splitN_reference ns name hcolon, ?_⟩
        exact countP_key_eq_one m2.keys ns (ToLower name) (hnd hnodup) hkey

/-- Witness of C4 on a resource with two nested password fields, at the field
`db.secret`: after `Update` both the payload and the backend are as stated. -/
theorem update_redacts_recorded_field_witness :
    ∃ ns name,
      GetValue [("id", .str "c1"), ("auth", .obj [("password", .str "c1:conn-password")]),
          ("db", .obj [("secret", .str "c1:conn-secret")])] ["db", "secret"] =
        some (.str (reference ns name))
      ∧ SplitN (reference ns name) ':' 2 = [ns, ToLower name]
      ∧ Mem.secretCount
          { connMem with
            secrets := [secretEntry "c1" "conn-password" "pw", secretEntry "c1" "conn-secret" "s3"],
            resources := [(("conn", "c1"),
              [("id", .str "c1"), ("auth", .obj [("password", .str "c1:conn-password")]),
                ("db", .obj [("secret", .str "c1:conn-secret")])])] }
          ns (ToLower name) = 1 :=
  update_redacts_recorded_field [("conn", twoFieldsTree)] "conn" twoFieldsPayload "c1" connMem
    _ _ [⟨["auth", "password"], "pw"⟩] [] ⟨["db", "secret"], "s3"⟩
    (by decide) rfl rfl (by decide) (by decide)
    (by simp [GetValue, twoFieldsPayload, List.lookup, ToMapInterface])

/-- C4 as stated fails for a password field inside the elements of an array:
`Update` of the payload of scenario 4 returns successfully and the payload it
hands on still holds the plaintexts `p1` and `p2`, which are no references. -/
theorem update_keeps_plaintext_in_array :
    (Update usersStore "team" usersPayload "t1" teamMem).1 = .ok usersPayload
      ∧ usersPayload.lookup "users" =
          some (.arr [.obj [("password", .str "p1")], .obj [("password", .str "p2")]])
      ∧ (SplitN "p1" ':' 2).length ≠ 2 ∧ (SplitN "p2" ':' 2).length ≠ 2 :=
  ⟨rfl, rfl, by decide, by decide⟩

/-! ## Delete of a secret -/

/-- C14: `deleteSecret` returns no error when the backend's delete succeeds,
no error when the backend reports not-found, and the backend's error unchanged
for every other failure; in each case the backend is left as its delete left
it. -/
theorem deleteSecret_idempotent {σ : Type} (p : PasswordStore σ) (name ns : String) (s : σ) :
    ((p.secretStore.DeleteNamespaced ns name s).1 = none →
        deleteSecret p name ns s = (none, (p.secretStore.DeleteNamespaced ns name s).2))
      ∧ (∀ e, (p.secretStore.DeleteNamespaced ns name s).1 = some e → IsNotFound e = true →
        deleteSecret p name ns s = (none, (p.secretStore.DeleteNamespaced ns name s).2))
      ∧ (∀ e, (p.secretStore.DeleteNamespaced ns name s).1 = some e → IsNotFound e = false →
        deleteSecret p name ns s = (some e, (p.secretStore.DeleteNamespaced ns name s).2)) := by
  refine ⟨fun h => ?_, fun e h hnf => ?_, fun e h hnf => ?_⟩
  · simp [deleteSecret, h]
  · simp [deleteSecret, h, hnf]
  · simp [deleteSecret, h, hnf]

/-- Witness of C14 on the in-memory backend: deleting the stored entry
succeeds, deleting an entry that is not there succeeds, and a refused delete
returns the refusal. -/
theorem deleteSecret_idempotent_witness :
    deleteSecret scenarioStore "gh1" "gh1" redactedMem =
        (none, (scenarioStore.secretStore.DeleteNamespaced "gh1" "gh1" redactedMem).2)
      ∧ deleteSecret scenarioStore "gh1" "gh1" scenarioMem =
        (none, (scenarioStore.secretStore.DeleteNamespaced "gh1" "gh1" scenarioMem).2)
      ∧ deleteSecret refusingStore "gh1" "gh1" scenarioMem =
        (some (.status .Forbidden "gh1"),
          (refusingStore.secretStore.DeleteNamespaced "gh1" "gh1" scenarioMem).2) :=
  ⟨(deleteSecret_idempotent scenarioStore "gh1" "gh1" redactedMem).1 rfl,
   (deleteSecret_idempotent scenarioStore "gh1" "gh1" scenarioMem).2.1
     (.status .NotFound "gh1") rfl rfl,
   (deleteSecret_idempotent refusingStore "gh1" "gh1" scenarioMem).2.2
     (.status .Forbidden "gh1") rfl rfl⟩

/-! ## Facade: pass-through operations -/

/-- C16: for a resource type registered in the facade, `Delete`, `List` and
`Watch` return exactly the result of the delegate store's operation of the same
name on the same arguments, and that one delegate call is the only call made:
no namespace or secret backend call, nothing resolved or altered. -/
theorem passthrough_delete_list_watch {σ : Type} (p : PasswordStore σ) (schemaID : String)
    (store : Store σ) (hstore : p.Stores.lookup schemaID = some store) (arg : String) (s : σ) :
    Delete (recorded p) schemaID arg (s, []) =
        (Outcome.ofExcept (store.Delete schemaID arg s).1, (store.Delete schemaID arg s).2,
          [Event.storeDelete schemaID arg (errOf (store.Delete schemaID arg s).1)])
      ∧ PasswordStore.List (recorded p) schemaID arg (s, []) =
        (Outcome.ofExcept (store.List schemaID arg s).1, (store.List schemaID arg s).2,
          [Event.storeList schemaID arg (errOf (store.List schemaID arg s).1)])
      ∧ Watch (recorded p) schemaID arg (s, []) =
        (Outcome.ofExcept (store.Watch schemaID arg s).1, (store.Watch schemaID arg s).2,
          [Event.storeWatch schemaID arg (errOf (store.Watch schemaID arg s).1)]) := by
  refine ⟨?_, ?_, ?_⟩
  · simp [Delete, recorded_stores_lookup, hstore, recordedStore, record]
  · simp [PasswordStore.List, recorded_stores_lookup, hstore, recordedStore, record]
  · simp [Watch, recorded_stores_lookup, hstore, recordedStore, record]

/-- Witness of C16 on the in-memory backend that holds the redacted resource of
scenario 1: `List` hands back the stored payload with its reference unresolved. -/
theorem passthrough_delete_list_watch_witness :
    Delete (recorded scenarioStore) "githubConfig" "proj1:gh1" (redactedMem, []) =
        (Outcome.ofExcept (memDelegate.Delete "githubConfig" "proj1:gh1" redactedMem).1,
          (memDelegate.Delete "githubConfig" "proj1:gh1" redactedMem).2,
          [Event.storeDelete "githubConfig" "proj1:gh1"
            (errOf (memDelegate.Delete "githubConfig" "proj1:gh1" redactedMem).1)])
      ∧ PasswordStore.List (recorded scenarioStore) "githubConfig" "proj1:gh1" (redactedMem, []) =
        (Outcome.ofExcept (memDelegate.List "githubConfig" "proj1:gh1" redactedMem).1,
          (memDelegate.List "githubConfig" "proj1:gh1" redactedMem).2,
          [Event.storeList "githubConfig" "proj1:gh1"
            (errOf (memDelegate.List "githubConfig" "proj1:gh1" redactedMem).1)])
      ∧ Watch (recorded scenarioStore) "githubConfig" "proj1:gh1" (redactedMem, []) =
        (Outcome.ofExcept (memDelegate.Watch "githubConfig" "proj1:gh1" redactedMem).1,
          (memDelegate.Watch "githubConfig" "proj1:gh1" redactedMem).2,
          [Event.storeWatch "githubConfig" "proj1:gh1"
            (errOf (memDelegate.Watch "githubConfig" "proj1:gh1" redactedMem).1)]) :=
  passthrough_delete_list_watch scenarioStore "githubConfig" memDelegate rfl "proj1:gh1"
    redactedMem

/-! ## Facade: Update -/

/-- The calls that `createOrUpdateSecrets` logs are calls to the namespace or
the secret backend. -/
theorem createOrUpdateSecrets_trace {σ : Type} (p : PasswordStore σ)
    (data name ns : String) (st st1 : σ × List Event) (r : Option Err)
    (h : createOrUpdateSecrets (recorded p) data name ns st = (r, st1))
    (hst : ∀ ev ∈ st.2, ev.isBackendCall = true) :
    ∀ ev ∈ st1.2, ev.isBackendCall = true := by
  rcases hg : p.nsStore.Get ns st.1 with ⟨rg, sg⟩
  cases rg with
  | error eg =>
    rcases hc : p.nsStore.Create ns sg with ⟨rc, sc⟩
    by_cases hnf : IsNotFound eg = true
    · cases rc with
      | error ec =>
        by_cases hae : IsAlreadyExists ec = true
        · simp [createOrUpdateSecrets, recorded_nsGet, recorded_nsCreate, hg, hc, errOf_error,
            errOf_ok, hnf, hae] at h
          obtain ⟨_, rfl⟩ := h
          intro ev hev
          simp only [List.mem_append, List.mem_cons, List.mem_singleton, List.not_mem_nil,
            or_false] at hev
          rcases hev with hev | rfl | rfl
          · exact hst ev hev
          · rfl
          · rfl
        · simp [createOrUpdateSecrets, recorded_nsGet, recorded_nsCreate, hg, hc, errOf_error,
            errOf_ok, hnf, hae] at h
          obtain ⟨_, rfl⟩ := h
          intro ev hev
          simp only [List.mem_append, List.mem_cons, List.mem_singleton, List.not_mem_nil,
            or_false] at hev
          rcases hev with hev | rfl | rfl
          · exact hst ev hev
          · rfl
          · rfl
      | ok _ =>
        simp [createOrUpdateSecrets, recorded_nsGet, recorded_nsCreate, hg, hc, errOf_error,
          errOf_ok, hnf] at h
        obtain ⟨_, rfl⟩ := h
        intro ev hev
        simp only [List.mem_append, List.mem_cons, List.mem_singleton, List.not_mem_nil,
          or_false] at hev
        rcases hev with hev | rfl | rfl
        · exact hst ev hev
        · rfl
        · rfl
    · simp [createOrUpdateSecrets, recorded_nsGet, hg, errOf_error, errOf_ok, hnf] at h
      obtain ⟨_, rfl⟩ := h
      intro ev hev
      simp only [List.mem_append, List.mem_cons, List.mem_singleton, List.not_mem_nil,
        or_false] at hev
      rcases hev with hev | rfl
      · exact hst ev hev
      · rfl
  | ok _ =>
    rcases hs : p.secretStore.GetNamespaced ns (ToLower name) sg with ⟨rs, ss⟩
    cases rs with
    | error es =>
      by_cases hnf : IsNotFound es = true
      · simp [createOrUpdateSecrets, recorded_nsGet, recorded_secretGet, recorded_secretCreate,
          hg, hs, errOf_error, errOf_ok, hnf] at h
        obtain ⟨_, rfl⟩ := h
        intro ev hev
        simp only [List.mem_append, List.mem_cons, List.mem_singleton, List.not_mem_nil,
          or_false] at hev
        rcases hev with hev | rfl | rfl | rfl
        · exact hst ev hev
        · rfl
        · rfl
        · rfl
      · simp [createOrUpdateSecrets, recorded_nsGet, recorded_secretGet, hg, hs, errOf_error,
          errOf_ok, hnf] at h
        obtain ⟨_, rfl⟩ := h
        intro ev hev
        simp only [List.mem_append, List.mem_cons, List.mem_singleton, List.not_mem_nil,
          or_false] at hev
        rcases hev with hev | rfl | rfl
        · exact hst ev hev
        · rfl
        · rfl
    | ok existing =>
      by_cases hde : DeepEqual existing.StringData [(ToLower name, data)] = true
      · simp [createOrUpdateSecrets, recorded_nsGet, recorded_secretGet, hg, hs, errOf_error,
          errOf_ok, hde] at h
        obtain ⟨_, rfl⟩ := h
        intro ev hev
        simp only [List.mem_append, List.mem_cons, List.mem_singleton, List.not_mem_nil,
          or_false] at hev
        rcases hev with hev | rfl | rfl
        · exact hst ev hev
        · rfl
        · rfl
      · simp [createOrUpdateSecrets, recorded_nsGet, recorded_secretGet, recorded_secretUpdate,
          hg, hs, errOf_error, errOf_ok, hde] at h
        obtain ⟨_, rfl⟩ := h
        intro ev hev
        simp only [List.mem_append, List.mem_cons, List.mem_singleton, List.not_mem_nil,
          or_false] at hev
        rcases hev with hev | rfl | rfl | rfl
        · exact hst ev hev
        · rfl
        · rfl
        · rfl

/-- The calls that `handlePasswordFields` logs are calls to the namespace or the
secret backend. -/
theorem handlePasswordFields_trace {σ : Type} (p : PasswordStore σ)
    (fieldData : List fieldInfo) :
    ∀ (data : Payload) (id : String) (st : σ × List Event) (r : Outcome Unit)
      (data1 : Payload) (st1 : σ × List Event),
      handlePasswordFields (recorded p) fieldData data id st = (r, data1, st1) →
      (∀ ev ∈ st.2, ev.isBackendCall = true) → ∀ ev ∈ st1.2, ev.isBackendCall = true := by
  induction fieldData with
  | nil =>
    intro data id st r data1 st1 h hst
    simp only [handlePasswordFields, Prod.mk.injEq] at h
    obtain ⟨_, _, rfl⟩ := h
    exact hst
  | cons info rest ih =>
    intro data id st r data1 st1 h hst
    unfold handlePasswordFields at h
    cases hn : secretName data id info with
    | none =>
      simp only [hn, Prod.mk.injEq] at h
      obtain ⟨_, _, rfl⟩ := h
      exact hst
    | some name =>
      rcases hc : createOrUpdateSecrets (recorded p) info.value name (secretNamespace data) st
        with ⟨r2, st2⟩
      have hst2 := createOrUpdateSecrets_trace p _ _ _ _ _ _ hc hst
      cases r2 with
      | some e2 =>
        simp only [hn, hc, Prod.mk.injEq] at h
        obtain ⟨_, _, rfl⟩ := h
        exact hst2
      | none =>
        simp only [hn, hc] at h
        exact ih _ _ _ _ _ _ h hst2

/-- C15: if `replacePasswords` returns an error, `Update` returns that same
error, with no payload, right where `replacePasswords` stopped, and the
delegate store's `Update` has not been called; if `replacePasswords` succeeds,
`Update` calls the delegate's `Update` with the mutated payload and returns
exactly its result. -/
theorem update_aborts_or_delegates {σ : Type} (p : PasswordStore σ) (schemaID : String)
    (data : Payload) (id : String) (s : σ) :
    (∀ (e : Err) (data1 : Payload) (st1 : σ × List Event),
        replacePasswords (recorded p) data schemaID (s, []) = (.err e, data1, st1) →
        Update (recorded p) schemaID data id (s, []) = (.err e, st1)
          ∧ ∀ ev ∈ st1.2, ev.isStoreUpdate = false)
      ∧ (∀ (u : Unit) (data1 : Payload) (st1 : σ × List Event) (store : Store σ),
        replacePasswords (recorded p) data schemaID (s, []) = (.ok u, data1, st1) →
        p.Stores.lookup schemaID = some store →
        Update (recorded p) schemaID data id (s, []) =
          (Outcome.ofExcept (store.Update schemaID data1 id st1.1).1,
            (store.Update schemaID data1 id st1.1).2,
            st1.2 ++ [Event.storeUpdate schemaID data1 id
              (errOf (store.Update schemaID data1 id st1.1).1)])) := by
  constructor
  · intro e data1 st1 h
    refine ⟨by simp [Update, h], ?_⟩
    intro ev hev
    have hb := handlePasswordFields_trace p _ _ _ _ _ _ _ h (by simp) ev hev
    cases ev <;> simp_all [Event.isBackendCall, Event.isStoreUpdate]
  · intro u data1 st1 store h hstore
    simp [Update, h, recorded_stores_lookup, hstore, recordedStore, record]

/-- Witness of C15 on scenario 1: over a secret backend that refuses every
call `Update` returns the refusal and the delegate is not called; over the
in-memory backend `Update` returns what the delegate returns for the redacted
payload. -/
theorem update_aborts_or_delegates_witness :
    (Update (recorded refusingStore) "githubConfig" gh1 "proj1:gh1" (redactedMem, []) =
          (.err (.status .Forbidden "gh1"), redactedMem,
            [Event.nsGet "gh1" none,
              Event.secretGet "gh1" "gh1" (some (.status .Forbidden "gh1"))])
        ∧ ∀ ev ∈ [Event.nsGet "gh1" none,
              Event.secretGet "gh1" "gh1" (some (.status .Forbidden "gh1"))],
            ev.isStoreUpdate = false)
      ∧ Update (recorded scenarioStore) "githubConfig" gh1 "proj1:gh1" (redactedMem, []) =
          (Outcome.ofExcept (memDelegate.Update "githubConfig" gh1Redacted "proj1:gh1"
              { redactedMem with secrets := [secretEntry "gh1" "gh1" "s3cr3t"] }).1,
            (memDelegate.Update "githubConfig" gh1Redacted "proj1:gh1"
              { redactedMem with secrets := [secretEntry "gh1" "gh1" "s3cr3t"] }).2,
            [Event.nsGet "gh1" none, Event.secretGet "gh1" "gh1" none] ++
              [Event.storeUpdate "githubConfig" gh1Redacted "proj1:gh1"
                (errOf (memDelegate.Update "githubConfig" gh1Redacted "proj1:gh1"
                  { redactedMem with secrets := [secretEntry "gh1" "gh1" "s3cr3t"] }).1)]) :=
  ⟨(update_aborts_or_delegates refusingStore "githubConfig" gh1 "proj1:gh1" redactedMem).1
      (.status .Forbidden "gh1") gh1
      (redactedMem, [Event.nsGet "gh1" none,
        Event.secretGet "gh1" "gh1" (some (.status .Forbidden "gh1"))]) rfl,
   (update_aborts_or_delegates scenarioStore "githubConfig" gh1 "proj1:gh1" redactedMem).2
      () gh1Redacted
      ({ redactedMem with secrets := [secretEntry "gh1" "gh1" "s3cr3t"] },
        [Event.nsGet "gh1" none, Event.secretGet "gh1" "gh1" none])
      memDelegate rfl rfl⟩

/-! ## Index safety of the name derivation -/

/-- The walker only ever adds field data with a non-empty path. -/
theorem buildFieldData_nonempty (data1 : List (String × Value)) (data2 : Payload)
    (fieldData : List fieldInfo) (path : List String) :
    (∀ info ∈ fieldData, info.paths ≠ []) →
      ∀ info ∈ buildFieldData data1 data2 fieldData path, info.paths ≠ [] := by
  refine buildFieldData.induct
    (motive_1 := fun data1 data2 fieldData path =>
      (∀ info ∈ fieldData, info.paths ≠ []) →
        ∀ info ∈ buildFieldData data1 data2 fieldData path, info.paths ≠ [])
    (motive_2 := fun val1 data2 fieldData path =>
      (∀ info ∈ fieldData, info.paths ≠ []) →
        ∀ info ∈ buildFieldDataIn val1 data2 fieldData path, info.paths ≠ [])
    ?_ ?_ ?_ ?_ ?_ ?_ ?_ ?_ data1 data2 fieldData path
  · intro data2 fieldData path m ih h
    simpa [buildFieldDataIn] using ih h
  · intro t data2 fieldData path hno h
    cases t with
    | obj m => exact absurd rfl (fun e => hno m e)
    | null => simpa [buildFieldDataIn] using h
    | bool _ => simpa [buildFieldDataIn] using h
    | num _ => simpa [buildFieldDataIn] using h
    | str _ => simpa [buildFieldDataIn] using h
    | arr _ => simpa [buildFieldDataIn] using h
  · intro data2 fieldData path h
    simpa [buildFieldData] using h
  · intro data2 fieldData path k v rest hl ih h
    simpa [buildFieldData, hl] using ih h
  · intro data2 fieldData path k v rest val2 hl hleaf val hskip ih h
    have hskip2 : (ToString val2 != "" && rancherReferenced (ToString val2)) = true := hskip
    simpa [buildFieldData, hl, hleaf, hskip2] using ih h
  · intro data2 fieldData path k v rest val2 hl hleaf val hskip ih h
    have hskip2 : ¬ (ToString val2 != "" && rancherReferenced (ToString val2)) = true := hskip
    have h2 : ∀ info ∈ fieldData ++ [⟨path ++ [k], ToString val2⟩], info.paths ≠ [] := by
      intro info hinfo
      rcases List.mem_append.1 hinfo with hi | hi
      · exact h info hi
      · simp only [List.mem_singleton] at hi
        subst hi
        simp
    have := ih h2
    rw [buildFieldData]
    simp only [hl, hleaf, if_true, hskip2]
    exact this
  · intro data2 fieldData path k v rest val2 hl hleaf hslice ih2 ih h
    have := ih (ih2 h)
    rw [buildFieldData]
    simp only [hl, hleaf, hslice]
    exact this
  · intro data2 fieldData path k v rest val2 hl hleaf valArr hslice ih2 ih h
    have hfold : ∀ (arr : List Payload) (acc : List fieldInfo),
        (∀ info ∈ acc, info.paths ≠ []) →
        ∀ info ∈ arr.foldl (fun acc each => buildFieldDataIn v each acc (path ++ [k])) acc,
          info.paths ≠ [] := by
      intro arr
      induction arr with
      | nil => intro acc hacc; simpa using hacc
      | cons each more iharr =>
        intro acc hacc
        simp only [List.foldl_cons]
        exact iharr _ (ih2 acc each hacc)
    have := ih (hfold valArr fieldData h)
    rw [buildFieldData]
    simp only [hl, hleaf, hslice]
    exact this

/-- With non-empty paths throughout, `handlePasswordFields` does not panic. -/
theorem handlePasswordFields_no_panic {σ : Type} (p : PasswordStore σ)
    (fieldData : List fieldInfo) :
    ∀ (data : Payload) (id : String) (s : σ), (∀ info ∈ fieldData, info.paths ≠ []) →
      (handlePasswordFields p fieldData data id s).1 ≠ Outcome.panic := by
  induction fieldData with
  | nil =>
    intro data id s _
    simp [handlePasswordFields]
  | cons info rest ih =>
    intro data id s h
    have hinfo := h info (List.mem_cons_self _ _)
    have hname : ∃ name, secretName data id info = some name := by
      unfold secretName
      cases data.lookup "name" with
      | some v => exact ⟨_, rfl⟩
      | none =>
        cases hlast : info.paths.getLast? with
        | some last => exact ⟨_, rfl⟩
        | none => exact absurd (List.getLast?_eq_none_iff.1 hlast) hinfo
    obtain ⟨name, hn⟩ := hname
    unfold handlePasswordFields
    simp only [hn]
    rcases hc : createOrUpdateSecrets p info.value name (secretNamespace data) s with ⟨r, s2⟩
    cases r with
    | some e => simp
    | none =>
      simp only
      exact ih _ _ _ (fun i hi => h i (List.mem_cons_of_mem _ hi))

/-- C19: for every field tree and payload, every `fieldInfo` that
`buildFieldData` returns has a non-empty path, so the access
`info.paths[len(info.paths)-1]` is in range and `replacePasswords` never ends in
an index-out-of-range panic. -/
theorem replacePasswords_index_safe {σ : Type} (p : PasswordStore σ)
    (data1 : List (String × Value)) (data : Payload) (id : String) (s : σ) :
    (∀ info ∈ buildFieldData data1 data [] [], info.paths ≠ [])
      ∧ (∀ info ∈ buildFieldData data1 data [] [],
          secretName data id info ≠ none)
      ∧ (replacePasswords p data id s).1 ≠ Outcome.panic := by
  have hne := buildFieldData_nonempty data1 data [] [] (by simp)
  refine ⟨hne, ?_, ?_⟩
  · intro info hinfo hnone
    unfold secretName at hnone
    cases hl : data.lookup "name" with
    | some v => simp [hl] at hnone
    | none =>
      cases hlast : info.paths.getLast? with
      | some last => simp [hl, hlast] at hnone
      | none => exact hne info hinfo (List.getLast?_eq_none_iff.1 hlast)
  · exact handlePasswordFields_no_panic p _ _ _ _
      (buildFieldData_nonempty (fieldsOf p id) data [] [] (by simp))

/-! ## Installation of the facade -/

/-- C20: for every schema registry, `SetPasswordStore` runs its loop over the
empty list `pwdTypes`: it ends at once, with the registry exactly as it was
(the `Store` of every schema unchanged) and with a password store that holds no
field tree and no delegate store, so no resource type is served through the
facade. -/
theorem SetPasswordStore_installs_nothing {σ : Type} (fuel : Nat) (schemas : Schemas σ)
    (secretStore : SecretInterface σ) (nsStore : NamespaceInterface σ) :
    pwdTypes = []
      ∧ SetPasswordStore fuel schemas secretStore nsStore =
        .done (schemas,
          { Fields := [], Stores := [], secretStore := secretStore, nsStore := nsStore }) :=
  ⟨rfl, rfl⟩

/-! ## Decoding in `assignBack` -/

/-- Cutting at the first separator never gives an empty list of pieces. -/
theorem splitNChars_two_ne_nil (sep : Char) (cs : List Char) : splitNChars sep 2 cs ≠ [] := by
  cases cs with
  | nil => simp [splitNChars]
  | cons c rest =>
    by_cases hc : c = sep
    · simp [splitNChars, hc]
    · cases h : splitNChars sep 2 rest <;> simp [splitNChars, hc, h]

/-- Cutting at the first separator gives two pieces exactly when there is a
separator. -/
theorem splitNChars_two_length (sep : Char) (cs : List Char) :
    (splitNChars sep 2 cs).length = 2 ↔ sep ∈ cs := by
  induction cs with
  | nil => simp [splitNChars]
  | cons c rest ih =>
    by_cases hc : c = sep
    · simp [splitNChars, hc]
    · have hne : ¬ sep = c := fun h => hc h.symm
      cases h : splitNChars sep 2 rest with
      | nil => exact absurd h (splitNChars_two_ne_nil sep rest)
      | cons piece pieces =>
        rw [h] at ih
        simp only [splitNChars, hc, if_false, h, List.length_cons, List.mem_cons, hne,
          false_or]
        simpa using ih

/-- C11, amended: the decode step of `assignBack` treats a value as a reference
exactly when it contains a colon, whatever stands before and after it. A value
without a colon is skipped: no secret is read and the payload is as it was. For
a value with a colon the secret backend is read, at the fixed entry. -/
theorem assignBack_decode {σ : Type} (p : PasswordStore σ) (info : fieldInfo)
    (rest : List fieldInfo) (data : Payload) (st : σ × List Event) :
    ((SplitN info.value ':' 2).length = 2 ↔ ':' ∈ info.value.data)
      ∧ (':' ∉ info.value.data →
          assignBackLoop (recorded p) (info :: rest) data st =
            assignBackLoop (recorded p) rest data st
          ∧ assignBackLoop (recorded p) [info] data st = (.ok (), data, st))
      ∧ (':' ∈ info.value.data →
          (assignBackLoop (recorded p) [info] data st).2.2.2 =
            st.2 ++ [Event.secretGet "mgmt-secrets" "githubconfig-clientsecret"
              (errOf (p.secretStore.GetNamespaced "mgmt-secrets" "githubconfig-clientsecret"
                st.1).1)]) := by
  have hlen : (SplitN info.value ':' 2).length = 2 ↔ ':' ∈ info.value.data := by
    simp [SplitN, splitNChars_two_length]
  refine ⟨hlen, fun hno => ?_, fun hyes => ?_⟩
  · have hne : ((SplitN info.value ':' 2).length != 2) = true := by
      simp [bne_iff_ne, hlen, hno]
    constructor
    · rw [assignBackLoop]
      simp only [hne, if_true]
    · rw [assignBackLoop]
      simp only [hne, if_true]
      rfl
  · have hne : ((SplitN info.value ':' 2).length != 2) = false := by
      simp [hlen, hyes]
    rw [assignBackLoop]
    simp only [hne]
    rcases hg : p.secretStore.GetNamespaced "mgmt-secrets" "githubconfig-clientsecret" st.1
      with ⟨r, s2⟩
    cases r with
    | error e => simp [getSecret, recorded_secretGet, hg, errOf_error]
    | ok secret => simp [getSecret, recorded_secretGet, hg, errOf_ok, assignBackLoop]

/-- Witness of C11: the value `s3cr3t` is skipped, the value `gh1:gh1` makes
`assignBack` read the secret backend. -/
theorem assignBack_decode_witness :
    (assignBackLoop (recorded scenarioStore) [⟨["clientSecret"], "s3cr3t"⟩] gh1
          (scenarioMem, []) =
        assignBackLoop (recorded scenarioStore) [] gh1 (scenarioMem, [])
      ∧ assignBackLoop (recorded scenarioStore) [⟨["clientSecret"], "s3cr3t"⟩] gh1
          (scenarioMem, []) = (.ok (), gh1, scenarioMem, []))
      ∧ (assignBackLoop (recorded scenarioStore) [⟨["clientSecret"], "gh1:gh1"⟩] gh1Redacted
          (redactedMem, [])).2.2.2 =
        [] ++ [Event.secretGet "mgmt-secrets" "githubconfig-clientsecret"
          (errOf (scenarioStore.secretStore.GetNamespaced "mgmt-secrets"
            "githubconfig-clientsecret" redactedMem).1)] :=
  ⟨(assignBack_decode scenarioStore ⟨["clientSecret"], "s3cr3t"⟩ [] gh1 (scenarioMem, [])).2.1
      (by decide),
   (assignBack_decode scenarioStore ⟨["clientSecret"], "gh1:gh1"⟩ [] gh1Redacted
      (redactedMem, [])).2.2 (by decide)⟩

/-- C11 as stated fails for a value with an empty namespace part: `:x` does not
split into two non-empty parts, yet `assignBack` takes it for a reference, reads
the secret backend and, the entry missing, returns an error. -/
theorem assignBack_reads_for_empty_part :
    SplitN ":x" ':' 2 = ["", "x"]
      ∧ assignBack (recorded scenarioStore) emptyNamespacePayload "githubConfig"
          (scenarioMem, []) =
        (.err (.errorString "error getting secret for field :x"), emptyNamespacePayload,
          scenarioMem,
          [Event.secretGet "mgmt-secrets" "githubconfig-clientsecret"
            (some (.status .NotFound "githubconfig-clientsecret"))]) :=
  ⟨by decide, rfl⟩

/-! ## The guard against double encoding -/

/-- C12, evaluated on a password field that holds the reference
`mgmt-secrets:a:b`, which the decode of `assignBack` accepts as
`(mgmt-secrets, a:b)`: `Update` does not skip the field, creates a secret whose
payload is the reference itself and overwrites the field with a new reference. -/
theorem update_rewraps_reference_with_colon :
    SplitN "mgmt-secrets:a:b" ':' 2 = ["mgmt-secrets", "a:b"]
      ∧ buildFieldData clientSecretTree colonNamePayload [] [] =
        [⟨["clientSecret"], "mgmt-secrets:a:b"⟩]
      ∧ Update (recorded scenarioStore) "githubConfig" colonNamePayload "r1" (colonNameMem, []) =
        (.ok [("name", .str "gh1"), ("clientSecret", .str "mgmt-secrets:gh1")],
          { colonNameMem with
            secrets := [secretEntry "mgmt-secrets" "a:b" "pw",
              secretEntry "mgmt-secrets" "gh1" "mgmt-secrets:a:b"],
            resources := [(("githubConfig", "r1"),
              [("name", .str "gh1"), ("clientSecret", .str "mgmt-secrets:gh1")])] },
          [Event.nsGet "mgmt-secrets" none,
           Event.secretGet "mgmt-secrets" "gh1" (some (.status .NotFound "gh1")),
           Event.secretCreate (secretEntry "mgmt-secrets" "gh1" "mgmt-secrets:a:b") none,
           Event.storeUpdate "githubConfig"
             [("name", .str "gh1"), ("clientSecret", .str "mgmt-secrets:gh1")] "r1" none]) :=
  ⟨by decide, by decide, rfl⟩

/-- Cutting at every separator: two separator-free pieces around one separator
come back as they are. -/
theorem splitChars_two (sep : Char) (a b : List Char) (ha : sep ∉ a) (hb : sep ∉ b) :
    splitChars sep (a ++ sep :: b) = [a, b] := by
  have hb2 : ∀ cs : List Char, sep ∉ cs → splitChars sep cs = [cs] := by
    intro cs
    induction cs with
    | nil => intro _; rfl
    | cons c rest ih =>
      intro h
      have hc : c ≠ sep := fun e => h (by simp [e])
      have hr : sep ∉ rest := fun e => h (by simp [e])
      simp [splitChars, hc, ih hr]
  induction a with
  | nil => simp [splitChars, hb2 b hb]
  | cons c cs ih =>
    have hc : c ≠ sep := fun h => ha (by simp [h])
    have hcs : sep ∉ cs := fun h => ha (by simp [h])
    simp [splitChars, hc, ih hcs]

/-- The guard of the walker covers the references into the reserved namespace
whose name has no colon: a password field that holds one is skipped, no field
data is recorded for it and the path is left as it was. -/
theorem buildFieldData_skips_reference (key1 : String) (val1 val2 : Value)
    (rest : List (String × Value)) (data2 : Payload) (fieldData : List fieldInfo)
    (path : List String) (name : String)
    (hl : data2.lookup key1 = some val2) (hleaf : (ToString val1 == separator) = true)
    (hval : ToString val2 = "mgmt-secrets:" ++ name) (hname : ':' ∉ name.data) :
    buildFieldData ((key1, val1) :: rest) data2 fieldData path =
      buildFieldData rest data2 fieldData path := by
  have hdata : ("mgmt-secrets:" ++ name).data = "mgmt-secrets".data ++ ':' :: name.data := by
    simp [String.data_append]
  have hsplit : Split ("mgmt-secrets:" ++ name) ':' = ["mgmt-secrets", name] := by
    simp only [Split, hdata]
    rw [splitChars_two ':' _ _ (by decide) hname]
    rfl
  have href : rancherReferenced ("mgmt-secrets:" ++ name) = true := by
    simp [rancherReferenced, hsplit]
  have hne : (("mgmt-secrets:" ++ name) != "") = true := by
    rw [bne_iff_ne]
    intro h
    have := congrArg String.data h
    rw [hdata] at this
    simp at this
  rw [buildFieldData]
  simp [hl, hleaf, hval, href, hne]

/-! ## Name and namespace of a secret -/

/-- Cutting at every separator gives one piece more than there are separators. -/
theorem splitChars_length (sep : Char) (cs : List Char) :
    (splitChars sep cs).length = cs.count sep + 1 := by
  induction cs with
  | nil => simp [splitChars]
  | cons c rest ih =>
    by_cases hc : c = sep
    · subst hc
      simp [splitChars, ih]
    · have hbeq : (c == sep) = false := by simpa using hc
      cases h : splitChars sep rest with
      | nil => rw [h] at ih; simp at ih
      | cons piece pieces =>
        rw [h] at ih
        simp only [splitChars, hc, if_false, h, List.length_cons] at ih ⊢
        rw [List.count_cons, hbeq]
        simpa using ih

/-- Without a separator the whole string is the one piece. -/
theorem splitChars_none (sep : Char) (cs : List Char) (h : cs.count sep = 0) :
    splitChars sep cs = [cs] := by
  induction cs with
  | nil => rfl
  | cons c rest ih =>
    by_cases hc : c = sep
    · subst hc
      simp at h
    · have hbeq : (c == sep) = false := by simpa using hc
      rw [List.count_cons, hbeq] at h
      simp [splitChars, hc, ih (by simpa using h)]

/-- With one separator the second of the two pieces is what follows it. -/
theorem splitChars_one (sep : Char) (cs : List Char) (h : cs.count sep = 1) :
    ∃ first, splitChars sep cs = [first, (cs.dropWhile (fun c => c != sep)).drop 1] := by
  induction cs with
  | nil => simp at h
  | cons c rest ih =>
    by_cases hc : c = sep
    · subst hc
      have hrest : rest.count c = 0 := by simpa using h
      exact ⟨[], by simp [splitChars, splitChars_none c rest hrest, List.dropWhile]⟩
    · have hbeq : (c == sep) = false := by simpa using hc
      rw [List.count_cons, hbeq] at h
      obtain ⟨first, hfirst⟩ := ih (by simpa using h)
      refine ⟨c :: first, ?_⟩
      have hne : (c != sep) = true := by simpa using hc
      simp [splitChars, hc, hfirst, List.dropWhile, hne]

/-- The namespace that the code derives is the one the amended wording gives. -/
theorem secretNamespace_eq_spec (data : Payload) : secretNamespace data = specNamespace data := by
  unfold secretNamespace specNamespace
  cases hl : data.lookup "id" with
  | none => rfl
  | some v =>
    simp only [Split]
    by_cases h1 : (ToString v).data.count ':' = 1
    · obtain ⟨first, hsplit⟩ := splitChars_one ':' (ToString v).data h1
      simp only [h1, if_true, hsplit, List.map_cons, List.map_nil]
      by_cases hempty : ((ToString v).data.dropWhile (fun c => c != ':')).drop 1 = []
      · simp [hempty]
      · have : ((⟨((ToString v).data.dropWhile (fun c => c != ':')).drop 1⟩ : String) == "")
            = false := by
          rw [beq_eq_false_iff_ne]
          intro h
          exact hempty (congrArg String.data h)
        simp only [this, hempty, if_false]
        rfl
    · by_cases h0 : (ToString v).data.count ':' = 0
      · have hsplit := splitChars_none ':' (ToString v).data h0
        simp only [h1, if_false, h0, true_and, hsplit, List.map_cons, List.map_nil]
        by_cases hempty : (ToString v).data = []
        · have : ((⟨(ToString v).data⟩ : String) == "") = true := by
            rw [beq_iff_eq]
            exact String.ext hempty
          simp [this, hempty]
        · have : ((⟨(ToString v).data⟩ : String) == "") = false := by
            rw [beq_eq_false_iff_ne]
            intro h
            exact hempty (congrArg String.data h)
          simp [this, hempty]
      · have hlen := splitChars_length ':' (ToString v).data
        have hge : 3 ≤ (splitChars ':' (ToString v).data).length := by omega
        simp only [h1, if_false, h0, false_and]
        cases hs : splitChars ':' (ToString v).data with
        | nil => simp
        | cons a as =>
          cases as with
          | nil => rw [hs] at hge; simp at hge
          | cons b bs =>
            cases bs with
            | nil => rw [hs] at hge; simp at hge
            | cons c cs => simp

/-- The name that the code derives for a non-empty path is the one the
specification words. -/
theorem secretName_eq_spec (data : Payload) (id : String) (info : fieldInfo)
    (hpath : info.paths ≠ []) : secretName data id info = some (specName data id info.paths) := by
  unfold secretName specName
  cases data.lookup "name" with
  | some v => rfl
  | none =>
    cases hlast : info.paths.getLast? with
    | none => exact absurd (List.getLast?_eq_none_iff.1 hlast) hpath
    | some last =>
      simp [hlast]

/-- C13, amended: for every payload, resource type id and recorded field path,
`handlePasswordFields` writes the secret under the name and namespace that the
wording gives: the name is the string form of the payload's `name` if the key is
present and otherwise `<id>-<last path segment>`; the namespace is the second
part of the payload's `id` when the `id` has exactly one colon and that part is
not empty, the whole `id` when it has no colon and is not empty, and
`mgmt-secrets` in every other case. For scenario 3 the name is
`<id>-password`. -/
theorem handlePasswordFields_name_namespace {σ : Type} (p : PasswordStore σ) (info : fieldInfo)
    (rest : List fieldInfo) (data : Payload) (id : String) (s : σ) (hpath : info.paths ≠ []) :
    secretName data id info = some (specName data id info.paths)
      ∧ secretNamespace data = specNamespace data
      ∧ handlePasswordFields p (info :: rest) data id s =
        (match createOrUpdateSecrets p info.value (specName data id info.paths)
            (specNamespace data) s with
          | (some e, s1) => (.err e, data, s1)
          | (none, s1) =>
            handlePasswordFields p rest
              (PutValue data
                (.str (reference (specNamespace data) (specName data id info.paths)))
                info.paths) id s1)
      ∧ specName authPayload id ["auth", "password"] = id ++ "-password" := by
  have hn := secretName_eq_spec data id info hpath
  have hns := secretNamespace_eq_spec data
  have hex : specName authPayload id ["auth", "password"] = id ++ "-password" := by
    have hcat : ("-" : String) ++ "password" = "-password" := by decide
    simp [specName, authPayload, List.lookup, String.append_assoc, hcat]
  refine ⟨hn, hns, ?_, hex⟩
  rw [handlePasswordFields]
  simp only [hn, hns]

/-- Witness of C13 on scenario 3 with resource type `conn`. -/
theorem handlePasswordFields_name_namespace_witness :
    secretName authPayload "conn" ⟨["auth", "password"], "pw"⟩ =
        some (specName authPayload "conn" ["auth", "password"])
      ∧ secretNamespace authPayload = specNamespace authPayload
      ∧ handlePasswordFields (memPasswordStore [("conn", authTree)])
          [⟨["auth", "password"], "pw"⟩] authPayload "conn" mgmtMem =
        (match createOrUpdateSecrets (memPasswordStore [("conn", authTree)]) "pw"
            (specName authPayload "conn" ["auth", "password"]) (specNamespace authPayload)
            mgmtMem with
          | (some e, s1) => (.err e, authPayload, s1)
          | (none, s1) =>
            handlePasswordFields (memPasswordStore [("conn", authTree)]) []
              (PutValue authPayload
                (.str (reference (specNamespace authPayload)
                  (specName authPayload "conn" ["auth", "password"])))
                ["auth", "password"]) "conn" s1)
      ∧ specName authPayload "conn" ["auth", "password"] = "conn" ++ "-password" :=
  handlePasswordFields_name_namespace (memPasswordStore [("conn", authTree)])
    ⟨["auth", "password"], "pw"⟩ [] authPayload "conn" mgmtMem (by decide)

/-- C13 as stated fails for an `id` whose second part is empty: `proj1:` splits
on colons into exactly two parts, the second of them empty, and the namespace
is the reserved default, not that second part. -/
theorem secretNamespace_empty_second_part :
    Split "proj1:" ':' = ["proj1", ""]
      ∧ secretNamespace trailingColonPayload = "mgmt-secrets"
      ∧ secretNamespace trailingColonPayload ≠ "" := by
  decide

/-! ## Writing and reading a secret -/

/-- A one-entry map that `DeepEqual` finds equal to `{key: val}` is `{key: val}`. -/
theorem DeepEqual_singleton (a : List (String × String)) (key val : String)
    (h : DeepEqual a [(key, val)] = true) : a = [(key, val)] := by
  unfold DeepEqual at h
  simp only [Bool.and_eq_true, beq_iff_eq, List.length_singleton, List.all_eq_true] at h
  obtain ⟨hlen, hall⟩ := h
  cases a with
  | nil => simp at hlen
  | cons e rest =>
    cases rest with
    | cons _ _ => simp at hlen
    | nil =>
      have he := hall e (by simp)
      obtain ⟨k, v⟩ := e
      by_cases hk : k = key
      · subst hk
        rw [lookup_cons_self] at he
        simp only [Option.some.injEq] at he
        rw [he]
      · rw [lookup_cons_ne _ _ _ _ hk] at he
        simp [List.lookup] at he

/-- C18, amended: on the in-memory backend, after `createOrUpdateSecrets`
returns success, the entry at `(namespace, lowercase(name))` holds the plaintext
under the key `lowercase(name)` of its `StringData`, the field that the write
fills; `getSecret` succeeds and returns what the entry's `Data` holds under that
key, the field that the read consults and that the write never touches: the
empty string for an entry that the call created. -/
theorem createOrUpdateSecrets_then_getSecret (fields : List (String × Payload))
    (data name ns : String) (m m1 : Mem)
    (h : createOrUpdateSecrets (memPasswordStore fields) data name ns m = (none, m1)) :
    ∃ x, m1.secretAt ns (ToLower name) = some x
      ∧ x.StringData = [(ToLower name, data)]
      ∧ getSecret (memPasswordStore fields) [ns, ToLower name] m1 =
          (.ok (x.Data.foldl (fun returned kv => if kv.1 == ToLower name then kv.2 else returned)
            ""), m1)
      ∧ (m.secretAt ns (ToLower name) = none →
          x.Data = []
          ∧ getSecret (memPasswordStore fields) [ns, ToLower name] m1 = (.ok "", m1)) := by
  have hget : ∀ x, m1.secretAt ns (ToLower name) = some x →
      getSecret (memPasswordStore fields) [ns, ToLower name] m1 =
        (.ok (x.Data.foldl (fun returned kv => if kv.1 == ToLower name then kv.2 else returned)
          ""), m1) := by
    intro x hx
    simp [getSecret, memPasswordStore, memSecrets, hx]
  by_cases hns : ns ∈ m.namespaces
  · cases hs : m.secretAt ns (ToLower name) with
    | none =>
      simp [createOrUpdateSecrets, memPasswordStore, memNamespaces, memSecrets, hns, hs,
        errOf, IsNotFound] at h
      subst h
      have hat := secretAt_append_self m (secretEntry ns (ToLower name) data) hs
      refine ⟨secretEntry ns (ToLower name) data, hat, rfl, hget _ hat, fun _ => ⟨rfl, ?_⟩⟩
      rw [hget _ hat]
      rfl
    | some x0 =>
      have hx0 := secretAt_some m ns (ToLower name) x0 hs
      by_cases hde : DeepEqual x0.StringData [(ToLower name, data)] = true
      · simp [createOrUpdateSecrets, memPasswordStore, memNamespaces, memSecrets, hns, hs,
          errOf, hde] at h
        subst h
        exact ⟨x0, hs, DeepEqual_singleton _ _ _ hde, hget _ hs, fun hnone => by cases hnone⟩
      · simp [createOrUpdateSecrets, memPasswordStore, memNamespaces, memSecrets, hns, hs,
          errOf, hde, hx0.2.1, hx0.2.2] at h
        subst h
        have hat : Mem.secretAt { m with secrets := m.secrets.map (fun y =>
            if y.Namespace = ns ∧ y.Name = ToLower name
            then { Name := ToLower name, Namespace := ns, Data := x0.Data,
                   StringData := [(ToLower name, data)], SecretType := x0.SecretType }
            else y) } ns (ToLower name) =
            some { Name := ToLower name, Namespace := ns, Data := x0.Data,
                   StringData := [(ToLower name, data)], SecretType := x0.SecretType } := by
          unfold Mem.secretAt at hs ⊢
          simp only [List.find?_map]
          have hcongr : List.find? ((fun x => x.Namespace == ns && x.Name == ToLower name) ∘
              (fun y => if y.Namespace = ns ∧ y.Name = ToLower name
                then { Name := ToLower name, Namespace := ns, Data := x0.Data,
                       StringData := [(ToLower name, data)], SecretType := x0.SecretType }
                else y)) m.secrets =
              List.find? (fun x => x.Namespace == ns && x.Name == ToLower name) m.secrets := by
            congr 1
            funext y
            by_cases hy : y.Namespace = ns ∧ y.Name = ToLower name
            · simp [hy]
            · simp only [Function.comp, hy, if_false]
          rw [hcongr, hs]
          simp [hx0.2.1, hx0.2.2]
        exact ⟨_, hat, rfl, hget _ hat, fun hnone => by cases hnone⟩
  · simp [createOrUpdateSecrets, memPasswordStore, memNamespaces, hns, errOf, IsNotFound,
      IsAlreadyExists] at h

/-- Witness of C18 on scenario 1: the secret is written, and read back empty. -/
theorem createOrUpdateSecrets_then_getSecret_witness :
    ∃ x, Mem.secretAt { scenarioMem with secrets := [secretEntry "gh1" "gh1" "s3cr3t"] }
          "gh1" (ToLower "gh1") = some x
      ∧ x.StringData = [(ToLower "gh1", "s3cr3t")]
      ∧ getSecret scenarioStore ["gh1", ToLower "gh1"]
          { scenarioMem with secrets := [secretEntry "gh1" "gh1" "s3cr3t"] } =
          (.ok (x.Data.foldl (fun returned kv => if kv.1 == ToLower "gh1" then kv.2 else returned)
            ""), { scenarioMem with secrets := [secretEntry "gh1" "gh1" "s3cr3t"] })
      ∧ (scenarioMem.secretAt "gh1" (ToLower "gh1") = none →
          x.Data = []
          ∧ getSecret scenarioStore ["gh1", ToLower "gh1"]
              { scenarioMem with secrets := [secretEntry "gh1" "gh1" "s3cr3t"] } =
            (.ok "", { scenarioMem with secrets := [secretEntry "gh1" "gh1" "s3cr3t"] })) :=
  createOrUpdateSecrets_then_getSecret [("githubConfig", clientSecretTree)] "s3cr3t" "gh1" "gh1"
    scenarioMem { scenarioMem with secrets := [secretEntry "gh1" "gh1" "s3cr3t"] } rfl

/-- C18 as stated fails on the in-memory backend, which returns every entry as
it was stored: `createOrUpdateSecrets` of scenario 1 succeeds, and `getSecret`
at the same key returns the empty string, not the plaintext. -/
theorem getSecret_misses_written_plaintext :
    (createOrUpdateSecrets scenarioStore "s3cr3t" "gh1" "gh1" scenarioMem).1 = none
      ∧ (getSecret scenarioStore ["gh1", "gh1"]
          (createOrUpdateSecrets scenarioStore "s3cr3t" "gh1" "gh1" scenarioMem).2).1.value? =
        some ""
      ∧ ("" : String) ≠ "s3cr3t" := by
  decide

/-! ## The field tree builder -/

/-- Assigning at a key that the map does not have appends the entry. -/
theorem setKey_append (data : Payload) (key : String) (val : Value)
    (h : key ∉ data.map Prod.fst) : setKey data key val = data ++ [(key, val)] := by
  induction data with
  | nil => rfl
  | cons x rest ih =>
    obtain ⟨k, v⟩ := x
    have hk : k ≠ key := fun e => h (by simp [e])
    have hr : key ∉ rest.map Prod.fst := fun e => h (by simp [e])
    simp [setKey, hk, ih hr]

/-- The loop of `getFields`, when no type is out of range and the recursive
call returns the tree of every referenced schema: the fields' entries, in
order, after what was there. -/
theorem getFieldsLoop_eq {σ : Type} (schemas : Schemas σ)
    (getFieldsOf : Schema σ → Run Payload) (treeOf : Schema σ → Payload)
    (fields : List (String × Field)) :
    ∀ data : Payload,
      (∀ nf ∈ fields, elementType nf.2.FieldType ≠ none) →
      (∀ nf ∈ fields, ∀ T S, elementType nf.2.FieldType = some T →
        schemas .management T = some S → getFieldsOf S = .done (treeOf S)) →
      (fields.map Prod.fst).Nodup →
      (∀ nf ∈ fields, nf.1 ∉ data.map Prod.fst) →
      getFieldsLoop schemas getFieldsOf fields data =
        .done (data ++ fields.filterMap (fieldEntry schemas treeOf)) := by
  induction fields with
  | nil => intro data _ _ _ _; simp [getFieldsLoop]
  | cons nf rest ih =>
    intro data hel hrec hnd hfresh
    obtain ⟨name, field⟩ := nf
    rw [List.map_cons, List.nodup_cons] at hnd
    have hel' : ∀ nf ∈ rest, elementType nf.2.FieldType ≠ none :=
      fun nf h => hel nf (List.mem_cons_of_mem _ h)
    have hrec' : ∀ nf ∈ rest, ∀ T S, elementType nf.2.FieldType = some T →
        schemas .management T = some S → getFieldsOf S = .done (treeOf S) :=
      fun nf h => hrec nf (List.mem_cons_of_mem _ h)
    have hname : name ∉ data.map Prod.fst := hfresh (name, field) (List.mem_cons_self _ _)
    have hfresh' : ∀ val : Value, ∀ nf ∈ rest, nf.1 ∉ (data ++ [(name, val)]).map Prod.fst := by
      intro val nf h hmem
      simp only [List.map_append, List.map_cons, List.map_nil, List.mem_append,
        List.mem_singleton] at hmem
      rcases hmem with hmem | hmem
      · exact hfresh nf (List.mem_cons_of_mem _ h) hmem
      · exact hnd.1 (List.mem_map.2 ⟨nf, h, hmem⟩)
    cases hT : elementType field.FieldType with
    | none => exact absurd hT (hel (name, field) (List.mem_cons_self _ _))
    | some T =>
      cases hS : schemas .management T with
      | some S =>
        have hdone := hrec (name, field) (List.mem_cons_self _ _) T S hT hS
        by_cases hlen : (treeOf S).length > 0
        · simp only [getFieldsLoop, hT, hS, hdone, hlen, if_true, List.filterMap_cons, fieldEntry]
          rw [setKey_append _ _ _ hname, ih _ hel' hrec' hnd.2 (hfresh' _)]
          simp
        · simp only [getFieldsLoop, hT, hS, hdone, hlen, if_false, List.filterMap_cons,
            fieldEntry]
          exact ih _ hel' hrec' hnd.2 (fun nf h => hfresh nf (List.mem_cons_of_mem _ h))
      | none =>
        by_cases hpw : (field.FieldType == "password") = true
        · simp only [getFieldsLoop, hT, hS, hpw, if_true, List.filterMap_cons, fieldEntry]
          rw [setKey_append _ _ _ hname, ih _ hel' hrec' hnd.2 (hfresh' _)]
          simp
        · simp only [getFieldsLoop, hT, hS, hpw, List.filterMap_cons, fieldEntry]
          exact ih _ hel' hrec' hnd.2 (fun nf h => hfresh nf (List.mem_cons_of_mem _ h))

/-- A type that does not start with `array` is looked up as it is. -/
theorem elementType_plain (t : String) (h : HasPrefix t "array" = false) :
    elementType t = some t := by
  simp [elementType, h]

/-- The characters of an array-of-`T` marker. -/
theorem arrayMarker_data (T : String) :
    ("array[" ++ T ++ "]").data = "array".data ++ '[' :: (T.data ++ [']']) := by
  have h1 : ("array[" : String).data = "array".data ++ ['['] := by decide
  have h2 : ("]" : String).data = [']'] := by decide
  simp [String.data_append, h1, h2]

/-- An array-of-`T` marker starts with `array`. -/
theorem arrayMarker_hasPrefix (T : String) : HasPrefix ("array[" ++ T ++ "]") "array" = true := by
  unfold HasPrefix
  rw [arrayMarker_data]
  have h : ("array" : String).data = ['a', 'r', 'r', 'a', 'y'] := by decide
  simp [h, List.isPrefixOf]

/-- The marker `array[T]` is looked up as `T`. -/
theorem elementType_array (T : String) (h : '[' ∉ T.data) :
    elementType ("array[" ++ T ++ "]") = some T := by
  have hsplit : Split ("array[" ++ T ++ "]") '[' = ["array", ⟨T.data ++ [']']⟩] := by
    simp only [Split, arrayMarker_data]
    rw [splitChars_two '[' _ _ (by decide) (by simp [h])]
    rfl
  simp [elementType, arrayMarker_hasPrefix, hsplit]

/-- For a well-formed type the lookup key of `getFields` is the unwrapped type. -/
theorem elementType_iff_unwraps (t T : String) (hwf : wellFormedType t) :
    elementType t = some T ↔ unwraps t T := by
  rcases hwf with hplain | ⟨T0, rfl, hT0⟩
  · rw [elementType_plain t hplain]
    constructor
    · intro h
      exact Or.inl ⟨hplain, (Option.some.inj h).symm⟩
    · rintro (⟨_, rfl⟩ | ⟨rfl, _⟩)
      · rfl
      · rw [arrayMarker_hasPrefix] at hplain
        cases hplain
  · rw [elementType_array T0 hT0]
    constructor
    · intro h
      have : T0 = T := Option.some.inj h
      subst this
      exact Or.inr ⟨rfl, hT0⟩
    · rintro (⟨hp, _⟩ | ⟨heq, _⟩)
      · rw [arrayMarker_hasPrefix] at hp
        cases hp
      · have hd := congrArg String.data heq
        rw [arrayMarker_data, arrayMarker_data] at hd
        have hd2 := List.append_cancel_left hd
        simp only [List.cons.injEq, true_and] at hd2
        have hd3 := List.append_cancel_right hd2
        rw [String.ext hd3]

/-- A tree all of whose nodes are password leaves or pruned subtrees is pruned. -/
theorem prunedTree_of_nodes (l : List (String × Value))
    (h : ∀ e ∈ l, prunedNode e.2 = true) : prunedTree l = true := by
  induction l with
  | nil => rfl
  | cons e rest ih =>
    obtain ⟨k, v⟩ := e
    simp only [prunedTree, Bool.and_eq_true]
    exact ⟨h (k, v) (List.mem_cons_self _ _), ih (fun e he => h e (List.mem_cons_of_mem _ he))⟩

/-- Over an acyclic registry of well-formed schemas, `getFields` returns, with
any fuel above the rank of the schema, the entries of the schema's fields; the
tree is pruned. -/
theorem getFields_converges {σ : Type} (schemas : Schemas σ) (schema : Schema σ)
    (rank : Schema σ → Nat)
    (hacyclic : ∀ S, known schemas schema S → ∀ nf ∈ S.ResourceFields, ∀ T S1,
      unwraps nf.2.FieldType T → schemas .management T = some S1 → rank S1 < rank S)
    (hnames : ∀ S, known schemas schema S → (S.ResourceFields.map Prod.fst).Nodup)
    (hwf : ∀ S, known schemas schema S → ∀ nf ∈ S.ResourceFields,
      wellFormedType nf.2.FieldType) :
    ∀ n S, known schemas schema S → rank S = n →
      (∀ fuel, rank S < fuel → getFields schemas fuel S = .done (treeAt schemas rank S))
        ∧ treeAt schemas rank S =
            S.ResourceFields.filterMap (fieldEntry schemas (treeAt schemas rank))
        ∧ prunedTree (treeAt schemas rank S) = true := by
  intro n
  induction n using Nat.strong_induction_on with
  | _ n ih =>
    intro S hS hrank
    have hel : ∀ nf ∈ S.ResourceFields, elementType nf.2.FieldType ≠ none := by
      intro nf hnf hnone
      rcases hwf S hS nf hnf with hp | ⟨T0, ht, hT0⟩
      · rw [elementType_plain _ hp] at hnone
        cases hnone
      · rw [ht, elementType_array T0 hT0] at hnone
        cases hnone
    have href : ∀ nf ∈ S.ResourceFields, ∀ T S1, elementType nf.2.FieldType = some T →
        schemas .management T = some S1 →
        known schemas schema S1 ∧ rank S1 < rank S := by
      intro nf hnf T S1 hT hS1
      exact ⟨Or.inr ⟨T, hS1⟩, hacyclic S hS nf hnf T S1
        ((elementType_iff_unwraps _ _ (hwf S hS nf hnf)).1 hT) hS1⟩
    have hloop : ∀ f, rank S ≤ f →
        getFieldsLoop schemas (getFields schemas f) S.ResourceFields [] =
          .done (S.ResourceFields.filterMap (fieldEntry schemas (treeAt schemas rank))) := by
      intro f hf
      have := getFieldsLoop_eq schemas (getFields schemas f) (treeAt schemas rank)
        S.ResourceFields [] hel
        (by
          intro nf hnf T S1 hT hS1
          obtain ⟨hk1, hr1⟩ := href nf hnf T S1 hT hS1
          exact (ih (rank S1) (hrank ▸ hr1) S1 hk1 rfl).1 f (by omega))
        (hnames S hS) (by simp)
      simpa using this
    have hfuel : ∀ fuel, rank S < fuel → getFields schemas fuel S =
        .done (S.ResourceFields.filterMap (fieldEntry schemas (treeAt schemas rank))) := by
      intro fuel hfuel
      cases fuel with
      | zero => omega
      | succ f =>
        rw [getFields]
        exact hloop f (by omega)
    have htree : treeAt schemas rank S =
        S.ResourceFields.filterMap (fieldEntry schemas (treeAt schemas rank)) := by
      have hrun := hfuel (rank S + 1) (by omega)
      have hdef : treeAt schemas rank S =
          (match getFields schemas (rank S + 1) S with
            | .done tree => tree
            | _ => []) := rfl
      rw [hdef, hrun]
    refine ⟨fun fuel h => by rw [htree]; exact hfuel fuel h, htree, ?_⟩
    rw [htree]
    apply prunedTree_of_nodes
    intro e he
    rw [List.mem_filterMap] at he
    obtain ⟨nf, hnf, hentry⟩ := he
    unfold fieldEntry at hentry
    cases hT : elementType nf.2.FieldType with
    | none => simp [hT] at hentry
    | some T =>
      cases hS1 : schemas .management T with
      | some S1 =>
        obtain ⟨hk1, hr1⟩ := href nf hnf T S1 hT hS1
        have hp1 := (ih (rank S1) (hrank ▸ hr1) S1 hk1 rfl).2.2
        by_cases hlen : (treeAt schemas rank S1).length > 0
        · simp only [hT, hS1, hlen, if_true, Option.some.injEq] at hentry
          subst hentry
          simp only [prunedNode, Bool.and_eq_true, Bool.not_eq_true', hp1, and_true]
          cases htr : treeAt schemas rank S1 with
          | nil => rw [htr] at hlen; simp at hlen
          | cons _ _ => rfl
        · simp [hT, hS1, hlen] at hentry
      | none =>
        by_cases hpw : (nf.2.FieldType == "password") = true
        · simp only [hT, hS1, hpw, if_true, Option.some.injEq] at hentry
          subst hentry
          simp [prunedNode]
        · simp [hT, hS1, hpw] at hentry

/-- The entry of a field carries the name of the field. -/
theorem fieldEntry_name {σ : Type} (schemas : Schemas σ) (treeOf : Schema σ → Payload)
    (nf : String × Field) (e : String × Value) (h : fieldEntry schemas treeOf nf = some e) :
    e.1 = nf.1 := by
  unfold fieldEntry at h
  cases hT : elementType nf.2.FieldType with
  | none => simp [hT] at h
  | some T =>
    cases hS : schemas .management T with
    | some S =>
      by_cases hlen : (treeOf S).length > 0
      · simp only [hT, hS, hlen, if_true, Option.some.injEq] at h
        rw [← h]
      · simp [hT, hS, hlen] at h
    | none =>
      by_cases hpw : (nf.2.FieldType == "password") = true
      · simp only [hT, hS, hpw, if_true, Option.some.injEq] at h
        rw [← h]
      · simp [hT, hS, hpw] at h

/-- Looking a name up among the entries of fields with distinct names finds the
entry of the field of that name. -/
theorem lookup_filterMap (g : String × Field → Option (String × Value))
    (hg : ∀ nf e, g nf = some e → e.1 = nf.1) (fields : List (String × Field)) :
    (fields.map Prod.fst).Nodup → ∀ (f : String) (v : Value),
      ((fields.filterMap g).lookup f = some v ↔
        ∃ field, (f, field) ∈ fields ∧ g (f, field) = some (f, v)) := by
  induction fields with
  | nil => intro _ f v; simp [List.lookup]
  | cons nf rest ih =>
    intro hnd f v
    obtain ⟨n, fd⟩ := nf
    rw [List.map_cons, List.nodup_cons] at hnd
    have ih' := ih hnd.2 f v
    cases hgn : g (n, fd) with
    | none =>
      rw [List.filterMap_cons, hgn]
      simp only [ih', List.mem_cons, Prod.mk.injEq]
      constructor
      · rintro ⟨field, hmem, hgf⟩
        exact ⟨field, Or.inr hmem, hgf⟩
      · rintro ⟨field, (⟨rfl, rfl⟩ | hmem), hgf⟩
        · rw [hgn] at hgf
          cases hgf
        · exact ⟨field, hmem, hgf⟩
    | some e =>
      obtain ⟨k, v0⟩ := e
      have hk : k = n := hg _ _ hgn
      subst hk
      rw [List.filterMap_cons, hgn]
      by_cases hf : f = k
      · subst hf
        rw [lookup_cons_self]
        constructor
        · intro h
          have hv : v0 = v := Option.some.inj h
          subst hv
          exact ⟨fd, List.mem_cons_self _ _, hgn⟩
        · rintro ⟨field, hmem, hgf⟩
          rcases List.mem_cons.1 hmem with heq | hmem
          · simp only [Prod.mk.injEq, true_and] at heq
            subst heq
            rw [hgn] at hgf
            simp only [Option.some.injEq, Prod.mk.injEq, true_and] at hgf
            rw [hgf]
          · exact absurd (List.mem_map.2 ⟨(f, field), hmem, rfl⟩) hnd.1
      · rw [lookup_cons_ne _ _ _ _ hf, ih']
        constructor
        · rintro ⟨field, hmem, hgf⟩
          exact ⟨field, List.mem_cons_of_mem _ hmem, hgf⟩
        · rintro ⟨field, hmem, hgf⟩
          rcases List.mem_cons.1 hmem with heq | hmem
          · simp only [Prod.mk.injEq] at heq
            exact absurd heq.1 hf
          · exact ⟨field, hmem, hgf⟩

/-- C17, amended. For every schema and every registry whose type references
are acyclic, whose schemas have distinct field names and whose field types are
plain type names or markers `array[T]`: with enough fuel `getFields` returns a
tree; the tree maps a field name to a Leaf exactly when the field's own type is
`password` and `password` resolves to no schema of the registry; it maps a field
name to a Composite subtree exactly when the field's type, unwrapped, resolves
in the registry to a schema whose own tree is that subtree and is not empty; it
holds nothing else; no Composite node of it is empty and all its leaves are
password leaves. -/
theorem getFields_tree {σ : Type} (schemas : Schemas σ) (schema : Schema σ)
    (rank : Schema σ → Nat)
    (hacyclic : ∀ S, known schemas schema S → ∀ nf ∈ S.ResourceFields, ∀ T S1,
      unwraps nf.2.FieldType T → schemas .management T = some S1 → rank S1 < rank S)
    (hnames : ∀ S, known schemas schema S → (S.ResourceFields.map Prod.fst).Nodup)
    (hwf : ∀ S, known schemas schema S → ∀ nf ∈ S.ResourceFields,
      wellFormedType nf.2.FieldType) :
    ∃ tree : Payload,
      (∀ fuel, rank schema < fuel → getFields schemas fuel schema = .done tree)
      ∧ (∀ f, tree.lookup f = some (.str separator) ↔
          ∃ field, (f, field) ∈ schema.ResourceFields ∧ field.FieldType = "password"
            ∧ schemas .management "password" = none)
      ∧ (∀ f sub, tree.lookup f = some (.obj sub) ↔
          ∃ field T S, (f, field) ∈ schema.ResourceFields ∧ unwraps field.FieldType T
            ∧ schemas .management T = some S
            ∧ (∀ fuel, rank S < fuel → getFields schemas fuel S = .done sub) ∧ sub ≠ [])
      ∧ (∀ f v, tree.lookup f = some v → v = .str separator ∨ ∃ sub, v = .obj sub)
      ∧ prunedTree tree = true := by
  have hcore := getFields_converges schemas schema rank hacyclic hnames hwf
  have hroot : known schemas schema schema := Or.inl rfl
  obtain ⟨hfuel, htree, hpruned⟩ := hcore (rank schema) schema hroot rfl
  have hlook := lookup_filterMap (fieldEntry schemas (treeAt schemas rank))
    (fieldEntry_name schemas (treeAt schemas rank)) schema.ResourceFields (hnames schema hroot)
  have hpwType : elementType "password" = some "password" := by decide
  refine ⟨treeAt schemas rank schema, hfuel, ?_, ?_, ?_, hpruned⟩
  · intro f
    rw [htree, hlook]
    constructor
    · rintro ⟨field, hmem, hentry⟩
      refine ⟨field, hmem, ?_⟩
      unfold fieldEntry at hentry
      cases hT : elementType field.FieldType with
      | none => simp [hT] at hentry
      | some T =>
        cases hS : schemas .management T with
        | some S =>
          by_cases hlen : (treeAt schemas rank S).length > 0
          · simp [hT, hS, hlen] at hentry
          · simp [hT, hS, hlen] at hentry
        | none =>
          by_cases hpw : (field.FieldType == "password") = true
          · have hpw2 : field.FieldType = "password" := by simpa using hpw
            rw [hpw2, hpwType] at hT
            have : T = "password" := (Option.some.inj hT).symm
            subst this
            exact ⟨hpw2, hS⟩
          · simp [hT, hS, hpw] at hentry
    · rintro ⟨field, hmem, hpw, hnone⟩
      refine ⟨field, hmem, ?_⟩
      simp [fieldEntry, hpw, hpwType, hnone]
  · intro f sub
    rw [htree, hlook]
    constructor
    · rintro ⟨field, hmem, hentry⟩
      unfold fieldEntry at hentry
      cases hT : elementType field.FieldType with
      | none => simp [hT] at hentry
      | some T =>
        cases hS : schemas .management T with
        | some S =>
          by_cases hlen : (treeAt schemas rank S).length > 0
          · simp only [hT, hS, hlen, if_true, Option.some.injEq, Prod.mk.injEq, true_and,
              Value.obj.injEq] at hentry
            subst hentry
            have hunw := (elementType_iff_unwraps _ _
              (hwf schema hroot (f, field) hmem)).1 hT
            have hk : known schemas schema S := Or.inr ⟨T, hS⟩
            refine ⟨field, T, S, hmem, hunw, hS, (hcore (rank S) S hk rfl).1, ?_⟩
            intro hnil
            rw [hnil] at hlen
            simp at hlen
          · simp [hT, hS, hlen] at hentry
        | none =>
          by_cases hpw : (field.FieldType == "password") = true
          · simp [hT, hS, hpw] at hentry
          · simp [hT, hS, hpw] at hentry
    · rintro ⟨field, T, S, hmem, hunw, hS, hsub, hne⟩
      refine ⟨field, hmem, ?_⟩
      have hT := (elementType_iff_unwraps _ _ (hwf schema hroot (f, field) hmem)).2 hunw
      have hk : known schemas schema S := Or.inr ⟨T, hS⟩
      have h1 := (hcore (rank S) S hk rfl).1 (rank S + 1) (by omega)
      have h2 := hsub (rank S + 1) (by omega)
      rw [h1] at h2
      have hsubeq : treeAt schemas rank S = sub := by
        injection h2
      have hlen : (treeAt schemas rank S).length > 0 := by
        rw [hsubeq]
        exact List.length_pos.2 hne
      simp [fieldEntry, hT, hS, hsubeq, hne]
  · intro f v hv
    rw [htree, hlook] at hv
    obtain ⟨field, hmem, hentry⟩ := hv
    unfold fieldEntry at hentry
    cases hT : elementType field.FieldType with
    | none => simp [hT] at hentry
    | some T =>
      cases hS : schemas .management T with
      | some S =>
        by_cases hlen : (treeAt schemas rank S).length > 0
        · simp only [hT, hS, hlen, if_true, Option.some.injEq, Prod.mk.injEq, true_and]
            at hentry
          exact Or.inr ⟨_, hentry.symm⟩
        · simp [hT, hS, hlen] at hentry
      | none =>
        by_cases hpw : (field.FieldType == "password") = true
        · simp only [hT, hS, hpw, if_true, Option.some.injEq, Prod.mk.injEq, true_and]
            at hentry
          exact Or.inl hentry.symm
        · simp [hT, hS, hpw] at hentry

/-- The schemas of the example registry. -/
theorem example_known (S : Schema Mem) (h : known exampleSchemas githubConfigSchema S) :
    S = githubConfigSchema ∨ S = credentialSchema ∨ S = userSchema := by
  rcases h with rfl | ⟨T, hT⟩
  · exact Or.inl rfl
  · unfold exampleSchemas at hT
    split_ifs at hT
    · exact Or.inl (Option.some.inj hT).symm
    · exact Or.inr (Or.inl (Option.some.inj hT).symm)
    · exact Or.inr (Or.inr (Option.some.inj hT).symm)

/-- The field types of the example registry are plain names or array markers. -/
theorem example_wellFormed (S : Schema Mem) (h : known exampleSchemas githubConfigSchema S) :
    ∀ nf ∈ S.ResourceFields, wellFormedType nf.2.FieldType := by
  intro nf hnf
  rcases example_known S h with rfl | rfl | rfl
  · simp only [githubConfigSchema, List.mem_cons, List.mem_singleton, List.not_mem_nil,
      or_false] at hnf
    rcases hnf with rfl | rfl | rfl | rfl
    · exact Or.inl (by decide)
    · exact Or.inl (by decide)
    · exact Or.inr ⟨"credential", by decide, by decide⟩
    · exact Or.inl (by decide)
  · simp only [credentialSchema, List.mem_cons, List.mem_singleton, List.not_mem_nil,
      or_false] at hnf
    rcases hnf with rfl | rfl
    · exact Or.inl (by decide)
    · exact Or.inl (by decide)
  · simp only [userSchema, List.mem_cons, List.mem_singleton, List.not_mem_nil,
      or_false] at hnf
    subst hnf
    exact Or.inl (by decide)

/-- In the example registry a referenced schema ranks below the one that refers
to it. -/
theorem example_acyclic (S : Schema Mem) (h : known exampleSchemas githubConfigSchema S) :
    ∀ nf ∈ S.ResourceFields, ∀ T S1, unwraps nf.2.FieldType T →
      exampleSchemas .management T = some S1 → exampleRank S1 < exampleRank S := by
  intro nf hnf T S1 hunw hS1
  have hT := (elementType_iff_unwraps _ _ (example_wellFormed S h nf hnf)).2 hunw
  have hstring : elementType "string" = some "string" := by decide
  have hpassword : elementType "password" = some "password" := by decide
  have hcred : elementType "array[credential]" = some "credential" := by decide
  have huser : elementType "user" = some "user" := by decide
  have hno1 : exampleSchemas .management "string" = none := by
    simp [exampleSchemas]
  have hno2 : exampleSchemas .management "password" = none := by
    simp [exampleSchemas]
  have hyes1 : exampleSchemas .management "credential" = some credentialSchema := by
    simp [exampleSchemas]
  have hyes2 : exampleSchemas .management "user" = some userSchema := by
    simp [exampleSchemas]
  rcases example_known S h with rfl | rfl | rfl
  · simp only [githubConfigSchema, List.mem_cons, List.mem_singleton, List.not_mem_nil,
      or_false] at hnf
    rcases hnf with rfl | rfl | rfl | rfl
    · rw [hstring] at hT
      rw [← Option.some.inj hT, hno1] at hS1
      cases hS1
    · rw [hpassword] at hT
      rw [← Option.some.inj hT, hno2] at hS1
      cases hS1
    · rw [hcred] at hT
      rw [← Option.some.inj hT, hyes1] at hS1
      rw [← Option.some.inj hS1]
      decide
    · rw [huser] at hT
      rw [← Option.some.inj hT, hyes2] at hS1
      rw [← Option.some.inj hS1]
      decide
  · simp only [credentialSchema, List.mem_cons, List.mem_singleton, List.not_mem_nil,
      or_false] at hnf
    rcases hnf with rfl | rfl
    · rw [hstring] at hT
      rw [← Option.some.inj hT, hno1] at hS1
      cases hS1
    · rw [hpassword] at hT
      rw [← Option.some.inj hT, hno2] at hS1
      cases hS1
  · simp only [userSchema, List.mem_cons, List.mem_singleton, List.not_mem_nil,
      or_false] at hnf
    subst hnf
    rw [hstring] at hT
    rw [← Option.some.inj hT, hno1] at hS1
    cases hS1

/-- The schemas of the example registry have distinct field names. -/
theorem example_names (S : Schema Mem) (h : known exampleSchemas githubConfigSchema S) :
    (S.ResourceFields.map Prod.fst).Nodup := by
  rcases example_known S h with rfl | rfl | rfl <;> decide

/-- Witness of C17 on the example registry and its schema `githubConfig`. -/
theorem getFields_tree_witness :
    ∃ tree : Payload,
      (∀ fuel, exampleRank githubConfigSchema < fuel →
        getFields exampleSchemas fuel githubConfigSchema = .done tree)
      ∧ (∀ f, tree.lookup f = some (.str separator) ↔
          ∃ field, (f, field) ∈ githubConfigSchema.ResourceFields ∧ field.FieldType = "password"
            ∧ exampleSchemas .management "password" = none)
      ∧ (∀ f sub, tree.lookup f = some (.obj sub) ↔
          ∃ field T S, (f, field) ∈ githubConfigSchema.ResourceFields
            ∧ unwraps field.FieldType T
            ∧ exampleSchemas .management T = some S
            ∧ (∀ fuel, exampleRank S < fuel → getFields exampleSchemas fuel S = .done sub)
            ∧ sub ≠ [])
      ∧ (∀ f v, tree.lookup f = some v → v = .str separator ∨ ∃ sub, v = .obj sub)
      ∧ prunedTree tree = true :=
  getFields_tree exampleSchemas githubConfigSchema exampleRank example_acyclic example_names
    example_wellFormed

/-- C17 as stated fails when the registry resolves `password` to a schema: the
field `secret` of type `password` is looked up in the registry first, found to
be a type with an empty tree and dropped; the tree has no Leaf for it. -/
theorem getFields_drops_registered_password :
    loginSchema.ResourceFields = [("secret", ⟨"password"⟩)]
      ∧ (∀ fuel, getFields passwordTypeSchemas (fuel + 2) loginSchema = .done [])
      ∧ ([] : Payload).lookup "secret" ≠ some (.str separator) := by
  refine ⟨rfl, ?_, by simp [List.lookup]⟩
  intro fuel
  have hT : elementType "password" = some "password" := by decide
  simp [getFields, getFieldsLoop, loginSchema, passwordTypeSchemas, hT]

/-- The tree of the example schema `githubConfig`. -/
theorem getFields_example :
    getFields exampleSchemas 2 githubConfigSchema =
      .done [("clientSecret", .str separator),
        ("credentials", .obj [("password", .str separator)])] := by
  rfl

end Password
